import Mathlib

/-!
# go-restli: model resolution and dependency-graph engine

A shallow embedding of `codegen/schema/internal/model_util.go` (namespace
`internal`) and of `codegen/models/model_json.go` (namespace `models`).

Pointers are addresses (`Nat`) into an explicit heap, Go maps used as sets are
duplicate-free lists, the process-wide `ModelRegistry` and `CyclicModels` are
passed and returned explicitly, and a `for ... range` over a map walks the
entries in the order of the list that represents it: every order of that list is
a possible run.  Recursive functions that may not return on a cyclic heap take a
recursion-depth bound (`fuel`) and give `none` when it is exhausted.
-/

namespace internal

/-- Go `Identifier`: a namespace-qualified name, compared as the pair. -/
structure Identifier where
  Namespace : String
  Name : String
deriving DecidableEq

/-- Go `map[Identifier]bool` used as a set (`visitedModels`, `CyclicModels`,
`loadedModels`). -/
abbrev IdSet := List Identifier

/-- What `model_util.go` reads of a `ComplexType` value: `GetIdentifier()` and,
when the dynamic type implements `hasInnerModels`, its `innerModels()`
(addresses of the child `*Model`s). -/
structure ComplexTypeObj where
  Identifier : Identifier
  innerModels : Option (List Nat)

/-- What the code reads of a `BuiltinType` value: its `innerModels()` when the
dynamic type implements `hasInnerModels`. -/
structure BuiltinType where
  innerModels : Option (List Nat)

/-- Go `Model`, the fields the dependency-graph code reads: `BuiltinType`
(`none` is nil) and `ComplexType` (`none` is nil, `some c` the address of the
definition, so two models may share one definition). -/
structure Model where
  BuiltinType : Option BuiltinType
  ComplexType : Option Nat

/-- The heap: what is stored at each `ComplexType` address and at each `*Model`
address.  Any pointer graph is a heap, cyclic ones included. -/
structure Heap where
  complexType : Nat → ComplexTypeObj
  model : Nat → Model

/-- Go `ComplexType.GetIdentifier()`. -/
def Heap.GetIdentifier (h : Heap) (c : Nat) : Identifier :=
  (h.complexType c).Identifier

/-- Go `(*Model).innerModels`: the ComplexType's children when it has the
capability, else the BuiltinType's, else nil. -/
def Model.innerModels (h : Heap) (m : Model) : List Nat :=
  match m.ComplexType.bind (fun c => (h.complexType c).innerModels) with
  | some ims => ims
  | none =>
    match m.BuiltinType.bind (fun b => b.innerModels) with
    | some ims => ims
    | none => []

/-- Result of one `traverseDependencyGraph` call: the returned chain and the two
sets it mutates (`visitedModels` is shared with the caller, `CyclicModels` is
global). -/
structure Traversal where
  modelChain : List Identifier
  visitedModels : IdSet
  CyclicModels : IdSet
deriving DecidableEq

/-- Go `for _, id := range innerPath { CyclicModels[id] = true }`. -/
def markCyclic (innerPath : List Identifier) (cyclic : IdSet) : IdSet :=
  innerPath.foldl (fun s id => s.insert id) cyclic

/-- The `for _, im := range m.innerModels()` loop of `traverseDependencyGraph`
(lines 139-165) over the remaining children; `recur` is the recursive call
`im.traverseDependencyGraph`. -/
def traverseLoop (h : Heap)
    (recur : Model → List Identifier → IdSet → IdSet → Option Traversal)
    (path : List Identifier) : List Nat → IdSet → IdSet → Option Traversal
  | [], visited, cyclic => some ⟨[], visited, cyclic⟩
  | p :: rest, visited, cyclic =>
    let im := h.model p
    match im.ComplexType, path.head?, path.getLast? with
    | some c, some startingModelId, some previousModelId =>
      let innerModelId := h.GetIdentifier c
      let innerPath := path ++ [innerModelId]
      if innerModelId ∈ visited ∨ innerModelId ∈ cyclic then
        traverseLoop h recur path rest visited cyclic
      else if innerModelId.Namespace = startingModelId.Namespace
          ∧ previousModelId.Namespace ≠ innerModelId.Namespace then
        some ⟨innerPath, visited, markCyclic innerPath cyclic⟩
      else
        match recur im innerPath (visited.insert innerModelId) cyclic with
        | none => none
        | some r =>
          if r.modelChain ≠ [] then some r
          else traverseLoop h recur path rest r.visitedModels r.CyclicModels
    | _, _, _ =>
      match recur im path visited cyclic with
      | none => none
      | some r =>
        if r.modelChain ≠ [] then some r
        else traverseLoop h recur path rest r.visitedModels r.CyclicModels

/-- Go `(*Model).traverseDependencyGraph` (lines 131-168).  A nil `path` is `[]`
and a nil `visitedModels` is `[]`; `fuel` bounds the recursion depth. -/
def traverseDependencyGraph (h : Heap) :
    Nat → Model → List Identifier → IdSet → IdSet → Option Traversal
  | 0, _, _, _, _ => none
  | fuel + 1, m, path, visited, cyclic =>
    let path := match path, m.ComplexType with
      | [], some c => [h.GetIdentifier c]
      | _, _ => path
    traverseLoop h (traverseDependencyGraph h fuel) path (m.innerModels h) visited cyclic

/-- Go `(*Model).allDependencies`, the loop over `m.innerModels()` (lines
177-188); `types` is the `map[ComplexType]bool`, keyed by the address of the
definition.  A child whose ComplexType is already in `types` ends the loop
(`break`).  The inner `for k, v := range im.allDependencies(types)` copies the
map onto itself and is omitted. -/
def allDependenciesLoop (h : Heap) (recur : Model → List Nat → Option (List Nat)) :
    List Nat → List Nat → Option (List Nat)
  | [], types => some types
  | p :: rest, types =>
    let im := h.model p
    match im.ComplexType with
    | some c =>
      if c ∈ types then some types
      else
        match recur im (types.insert c) with
        | none => none
        | some types1 => allDependenciesLoop h recur rest types1
    | none =>
      match recur im types with
      | none => none
      | some types1 => allDependenciesLoop h recur rest types1

/-- Go `(*Model).allDependencies` (lines 170-190); a nil `types` is `[]`. -/
def allDependencies (h : Heap) : Nat → Model → List Nat → Option (List Nat)
  | 0, _, _ => none
  | fuel + 1, m, types =>
    let types := match m.ComplexType with
      | some c => types.insert c
      | none => types
    allDependenciesLoop h (allDependencies h fuel) (m.innerModels h) types

/-- Go `PdscModel`: a registered definition and the file it was first seen in. -/
structure PdscModel where
  Type_ : Nat
  File : String
deriving DecidableEq

/-- Go `ModelRegistry`, a `map[Identifier]*PdscModel`: an association list with
one entry per key, whose order is the order a `range` visits it in. -/
abbrev Registry := List (Identifier × PdscModel)

/-- Go `ModelRegistry[id]`. -/
def Registry.get (reg : Registry) (id : Identifier) : Option PdscModel :=
  match reg.find? (fun e => e.1 = id) with
  | some e => some e.2
  | none => none

/-- Go `registerComplexType` (lines 25-33); `currentFile` is the global of that
name. -/
def registerComplexType (h : Heap) (currentFile : String) (reg : Registry) (t : Nat) :
    Registry :=
  let id := h.GetIdentifier t
  if id.Namespace ≠ "" ∧ reg.get id = none then
    reg ++ [(id, { Type_ := t, File := currentFile })]
  else reg

/-- Modelled from the spec: `PdscModel.toModel` is not among the source files;
§4.7 takes every ComplexType still in the registry as the root `R` of a search,
so the model built from an entry is the one holding exactly that ComplexType. -/
def PdscModel.toModel (p : PdscModel) : Model :=
  { BuiltinType := none, ComplexType := some p.Type_ }

/-- The first loop of `trimUnneededModels` (lines 77-84): `loadedModels` after
the remaining roots. -/
def collectLoaded (h : Heap) (fuel : Nat) : List Model → IdSet → Option IdSet
  | [], loadedModels => some loadedModels
  | m :: rest, loadedModels =>
    let loaded1 := match m.ComplexType with
      | some c => loadedModels.insert (h.GetIdentifier c)
      | none => loadedModels
    match allDependencies h fuel m [] with
    | none => none
    | some deps =>
      collectLoaded h fuel rest
        (deps.foldl (fun loaded dep => loaded.insert (h.GetIdentifier dep)) loaded1)

/-- Go `trimUnneededModels` (lines 75-90): the registry after the deletions. -/
def trimUnneededModels (h : Heap) (fuel : Nat) (models : List Model) (reg : Registry) :
    Option Registry :=
  match collectLoaded h fuel models [] with
  | none => none
  | some loadedModels => some (reg.filter (fun e => e.1 ∈ loadedModels))

/-- How a cycle search ends: `log.Fatalf` (the process exits; the chain that
was found and the Cyclic Set at that moment), or normally. -/
inductive Outcome where
  | fatal (modelChain : List Identifier) (CyclicModels : IdSet)
  | done (CyclicModels : IdSet)
deriving DecidableEq

/-- The `for { ... }` of `ResolveCyclicDependencies` (lines 97-113) for one root
`m`: at most `rounds` searches. -/
def detectLoop (h : Heap) (fuel : Nat) (m : Model) : Nat → IdSet → Option Outcome
  | 0, _ => none
  | rounds + 1, cyclic =>
    match traverseDependencyGraph h fuel m [] [] cyclic with
    | none => none
    | some r =>
      match r.modelChain.head?, r.modelChain.getLast? with
      | some first, some last =>
        if first.Name = last.Name then some (.fatal r.modelChain r.CyclicModels)
        else detectLoop h fuel m rounds r.CyclicModels
      | _, _ => some (.done r.CyclicModels)

/-- The body of `for _, pdscModel := range ModelRegistry` (lines 95-128) over
the remaining entries. -/
def resolveLoop (h : Heap) (fuel : Nat) : Registry → IdSet → Option Outcome
  | [], cyclic => some (.done cyclic)
  | (_, pdscModel) :: rest, cyclic =>
    let m := pdscModel.toModel
    match detectLoop h fuel m fuel cyclic with
    | none => none
    | some (.fatal chain cyc) => some (.fatal chain cyc)
    | some (.done cyc) =>
      match allDependencies h fuel m [] with
      | none => none
      | some deps =>
        let dependsOnCyclicModel := deps.any (fun dep => h.GetIdentifier dep ∈ cyc)
        resolveLoop h fuel rest
          (if dependsOnCyclicModel then markCyclic (deps.map h.GetIdentifier) cyc else cyc)

/-- Go `ResolveCyclicDependencies` (lines 92-129): the pruned registry and how
the search over it ended. -/
def ResolveCyclicDependencies (h : Heap) (fuel : Nat) (loadedModels : List Model)
    (reg : Registry) (cyclic : IdSet) : Option (Registry × Outcome) :=
  match trimUnneededModels h fuel loadedModels reg with
  | none => none
  | some reg1 =>
    match resolveLoop h fuel reg1 cyclic with
    | none => none
    | some out => some (reg1, out)

/-- One entry handed to the callback of `filepath.Walk`: its path, whether it is
a directory, and the error the walk met there. -/
structure WalkEntry where
  path : String
  isDir : Bool
  err : Option String
deriving DecidableEq

/-- Go `failedFiles`, a `map[string]error`. -/
abbrev FailedFiles := List (String × String)

/-- Go `failedFiles[path] = err`. -/
def FailedFiles.set (failedFiles : FailedFiles) (path err : String) : FailedFiles :=
  if failedFiles.any (fun e => e.1 = path) then
    failedFiles.map (fun e => if e.1 = path then (path, err) else e)
  else failedFiles ++ [(path, err)]

/-- The initial pass of `LoadModels` (lines 36-54).  `read s path` is
`codegen.ReadJSONFromFile(path, new(Model))` in the global state `s` (the
registry, the document set): the state afterwards and the error, `none` on
success. -/
def walkPass {σ : Type} (read : σ → String → σ × Option String) :
    List WalkEntry → σ → FailedFiles → Except String (σ × FailedFiles)
  | [], s, failedFiles => .ok (s, failedFiles)
  | e :: rest, s, failedFiles =>
    match e.err with
    | some err => .error err
    | none =>
      if e.isDir then walkPass read rest s failedFiles
      else
        match read s e.path with
        | (s1, some err) => walkPass read rest s1 (failedFiles.set e.path err)
        | (s1, none) => walkPass read rest s1 failedFiles

/-- One retry pass, `for f := range failedFiles` (lines 58-66): a file that
fails again keeps its entry with the new error, one that succeeds is deleted. -/
def retryPass {σ : Type} (read : σ → String → σ × Option String) :
    FailedFiles → σ → σ × FailedFiles
  | [], s => (s, [])
  | (f, _) :: rest, s =>
    match read s f with
    | (s1, some err) => ((retryPass read rest s1).1, (f, err) :: (retryPass read rest s1).2)
    | (s1, none) => retryPass read rest s1

/-- What `LoadModels` returns: nil, the error of the walk, or the aggregate
error that carries `failedFiles`; with the global state at that moment. -/
inductive LoadResult (σ : Type) where
  | ok (s : σ)
  | walkError (err : String)
  | failed (failedFiles : FailedFiles) (s : σ)

/-- The retry loop of `LoadModels` (lines 57-71); `failedFilesLength` is the
local of that name, assigned once before the loop; `fuel` bounds the number of
retry passes; `order k` is the order in which the `range` of retry pass `k`
visits the map (any rearrangement of its entries is a possible run). -/
def retryLoop {σ : Type} (read : σ → String → σ × Option String)
    (order : Nat → FailedFiles → FailedFiles) (failedFilesLength : Nat) :
    Nat → Nat → FailedFiles → σ → Option (LoadResult σ)
  | _, _, [], s => some (.ok s)
  | 0, _, _ :: _, _ => none
  | fuel + 1, k, e :: rest, s =>
    let pass := retryPass read (order k (e :: rest)) s
    if pass.2.length = failedFilesLength then some (.failed pass.2 pass.1)
    else retryLoop read order failedFilesLength fuel (k + 1) pass.2 pass.1

/-- Go `LoadModels` (lines 35-73) over the entries the walk of
`codegen.PdscDirectory` visits. -/
def LoadModels {σ : Type} (read : σ → String → σ × Option String)
    (order : Nat → FailedFiles → FailedFiles) (fuel : Nat)
    (walk : List WalkEntry) (s : σ) : Option (LoadResult σ) :=
  match walkPass read walk s [] with
  | .error err => some (.walkError err)
  | .ok (s1, failedFiles) => retryLoop read order failedFiles.length fuel 0 failedFiles s1

/-- What `traverseDependencyGraph` promises about a non-empty chain it returns
when the path it was entered with starts at `s`. -/
def ChainShape (s : Identifier) (chain : List Identifier) : Prop :=
  chain.head? = some s ∧
    ∃ pre prev C, chain = pre ++ [prev, C] ∧ C.Namespace = s.Namespace ∧
      prev.Namespace ≠ C.Namespace

/-- The elements of `ids` not yet in the visited set `v`, counted. -/
def unvisited {α : Type} [DecidableEq α] (ids : List α) (v : List α) : Nat :=
  ids.countP (fun i => decide (i ∉ v))

/-- A region `S` of the heap (a set of `*Model` addresses) in which every search
returns: `S` is closed under `innerModels()`, the Identifiers of its
ComplexTypes all occur in the finite list `ids`, and `rank`, bounded by `R`,
decreases from a model to each child that holds no ComplexType (the models
without a ComplexType form finite trees, as decoding builds them). -/
structure Ranked (h : Heap) (S : Nat → Prop) (ids : List Identifier)
    (rank : Nat → Nat) (R : Nat) : Prop where
  closed : ∀ p, S p → ∀ q ∈ (h.model p).innerModels h, S q
  ids_mem : ∀ p, S p → ∀ c, (h.model p).ComplexType = some c → h.GetIdentifier c ∈ ids
  rank_le : ∀ p, S p → rank p ≤ R
  rank_lt : ∀ p, S p → ∀ q ∈ (h.model p).innerModels h,
    (h.model q).ComplexType = none → rank q < rank p

/-- A region `S` of the heap in which every `allDependencies` call returns:
`S` is closed under `innerModels()`, the addresses of its ComplexTypes all
occur in the finite list `cts`, and `rank`, bounded by `R`, decreases from a
model to each child that holds no ComplexType. -/
structure RankedTypes (h : Heap) (S : Nat → Prop) (cts : List Nat)
    (rank : Nat → Nat) (R : Nat) : Prop where
  closed : ∀ p, S p → ∀ q ∈ (h.model p).innerModels h, S q
  cts_mem : ∀ p, S p → ∀ c, (h.model p).ComplexType = some c → c ∈ cts
  rank_le : ∀ p, S p → rank p ≤ R
  rank_lt : ∀ p, S p → ∀ q ∈ (h.model p).innerModels h,
    (h.model q).ComplexType = none → rank q < rank p

/-- The model `m1` is `m` itself or is reached from `m` through `innerModels()`. -/
inductive ReachableModel (h : Heap) : Model → Model → Prop where
  | refl (m : Model) : ReachableModel h m m
  | step (m : Model) (p : Nat) (m1 : Model) :
      p ∈ m.innerModels h → ReachableModel h (h.model p) m1 → ReachableModel h m m1

/-- The ComplexType at address `c` is reachable from `m` through
`innerModels()`: it is held by `m` or by a model reached from `m`. -/
def Reachable (h : Heap) (m : Model) (c : Nat) : Prop :=
  ∃ m1, ReachableModel h m m1 ∧ m1.ComplexType = some c

/-- The Identifier `id` is the one of the ComplexType of the root `m`, or of a
member of the set `allDependencies(m, nil)` computes. -/
def LoadedBy (h : Heap) (fuel : Nat) (m : Model) (id : Identifier) : Prop :=
  (∃ c, m.ComplexType = some c ∧ id = h.GetIdentifier c) ∨
  ∃ deps dep, allDependencies h fuel m [] = some deps ∧ dep ∈ deps ∧ id = h.GetIdentifier dep

/-- The heap of one self-referential record: `ns.name` (every ComplexType
address), whose one field (every model address) has the type `ns.name`. -/
def selfHeap (ns name : String) : Heap where
  complexType := fun _ => ⟨⟨ns, name⟩, some [0]⟩
  model := fun _ => ⟨none, some 0⟩

/-- A heap with the record `ns.R` (address 0) whose three fields (models 0, 1,
2) have the types `ns.X`, `ns.X` and `ns.Y`, the childless `ns.X` (address 1)
and `ns.Y` (address 2), and the unrelated childless `ns.Z` (address 3). -/
def breakHeap : Heap where
  complexType := fun c => match c with
    | 0 => ⟨⟨"ns", "R"⟩, some [0, 1, 2]⟩
    | 1 => ⟨⟨"ns", "X"⟩, some []⟩
    | 2 => ⟨⟨"ns", "Y"⟩, some []⟩
    | _ => ⟨⟨"ns", "Z"⟩, some []⟩
  model := fun p => match p with
    | 0 => ⟨none, some 1⟩
    | 1 => ⟨none, some 1⟩
    | _ => ⟨none, some 2⟩

/-- A heap with the self-referential record `ns.Node` (address 0) whose two
fields (models 0, 1) have the types `ns.Node` and `ns.Y`, and the childless
`ns.Y` (every other address). -/
def nodeHeap : Heap where
  complexType := fun c => match c with
    | 0 => ⟨⟨"ns", "Node"⟩, some [0, 1]⟩
    | _ => ⟨⟨"ns", "Y"⟩, some []⟩
  model := fun p => match p with
    | 0 => ⟨none, some 0⟩
    | _ => ⟨none, some 1⟩

/-- A heap with `ns3.C` (address 0) whose field has type `ns1.A`, `ns1.A`
(address 1) whose field has type `ns2.B`, `ns2.B` (address 2) whose field has
type `ns1.D`, and the childless `ns1.D` (address 3). -/
def infectHeap : Heap where
  complexType := fun c => match c with
    | 0 => ⟨⟨"ns3", "C"⟩, some [0]⟩
    | 1 => ⟨⟨"ns1", "A"⟩, some [1]⟩
    | 2 => ⟨⟨"ns2", "B"⟩, some [2]⟩
    | _ => ⟨⟨"ns1", "D"⟩, some []⟩
  model := fun p => match p with
    | 0 => ⟨none, some 1⟩
    | 1 => ⟨none, some 2⟩
    | _ => ⟨none, some 3⟩

/-- The registry of `infectHeap`, visited in the order C, A, B, D. -/
def infectRegistry : Registry :=
  [(⟨"ns3", "C"⟩, ⟨0, "c.pdsc"⟩), (⟨"ns1", "A"⟩, ⟨1, "a.pdsc"⟩),
    (⟨"ns2", "B"⟩, ⟨2, "b.pdsc"⟩), (⟨"ns1", "D"⟩, ⟨3, "d.pdsc"⟩)]

/-- A decode behaviour over three files, the state being the list of files
decoded so far: `c.pdsc` always decodes, `a.pdsc` decodes once `c.pdsc` has
been decoded (it refers to a type defined there), every other file (`b.pdsc`,
which refers to a type defined nowhere) always fails. -/
def forwardRead (loaded : List String) (path : String) : List String × Option String :=
  if path = "c.pdsc" then (path :: loaded, none)
  else if path = "a.pdsc" then
    if "c.pdsc" ∈ loaded then (path :: loaded, none)
    else (loaded, some "a.pdsc: ns.X is not defined")
  else (loaded, some "b.pdsc: ns.Missing is not defined")

/-- The walk that visits `a.pdsc`, `b.pdsc`, `c.pdsc` in this order. -/
def forwardWalk : List WalkEntry :=
  [⟨"a.pdsc", false, none⟩, ⟨"b.pdsc", false, none⟩, ⟨"c.pdsc", false, none⟩]

/-- A decode behaviour without state under which every file fails: each refers
to a type that is defined nowhere. -/
def missingRead (s : Unit) (_path : String) : Unit × Option String :=
  (s, some "ns.Missing is not defined")

/-- The heap of two mutually recursive records: `ns1.A` (address 0) whose one
field (model 0) has type `ns2.B`, and `ns2.B` (address 1) whose one field
(model 1) has type `ns1.A`. -/
def mutualHeap (ns1 ns2 : String) : Heap where
  complexType := fun c => match c with
    | 0 => ⟨⟨ns1, "A"⟩, some [0]⟩
    | _ => ⟨⟨ns2, "B"⟩, some [1]⟩
  model := fun p => match p with
    | 0 => ⟨none, some 1⟩
    | _ => ⟨none, some 0⟩

/-- What one `traverseDependencyGraph` call does to the Cyclic Set `cyclic` it
starts from: a non-empty chain is a path whose last Identifier was not in the
set, and the set afterwards is the old one with the whole chain marked; with an
empty chain the set is the old one. -/
def MarksChain (cyclic : IdSet) (r : Traversal) : Prop :=
  (r.modelChain ≠ [] →
    r.CyclicModels = markCyclic r.modelChain cyclic ∧
    ∃ last, r.modelChain.getLast? = some last ∧ last ∉ cyclic) ∧
  (r.modelChain = [] → r.CyclicModels = cyclic)

/-- Go `CyclicModels` when a run of `ResolveCyclicDependencies` ends, normally
or in `log.Fatalf`. -/
def Outcome.CyclicModels : Outcome → IdSet
  | .fatal _ cyc => cyc
  | .done cyc => cyc

end internal

namespace models

/-- Go `Identifier` as `model_json.go` uses it. -/
structure Identifier where
  Namespace : String
  Name : String
deriving DecidableEq

/-- Go `ModelReference`: an unresolved pointer-by-name. -/
structure ModelReference where
  Namespace : String
  Name : String
deriving DecidableEq

/-- What `model_json.go` reads of a `ComplexType` value: `GetIdentifier()`;
`decl` tells two definitions of one Identifier apart. -/
structure ComplexType where
  Identifier : Identifier
  decl : Nat
deriving DecidableEq

/-- Go `Model` as a freshly decoded tree: the ComplexType (`none` is nil), the
own namespace, the reference (`none` is nil) and the children `innerModels()`
returns (those of the ComplexType, else of the BuiltinType), each owned by this
node alone, so that assigning through a child pointer changes this subtree
only. -/
inductive Model where
  | mk (ComplexType : Option ComplexType) (namespace_ : String)
      (ref : Option ModelReference) (innerModels : List Model)

/-- Go `m.ComplexType`. -/
def Model.ComplexType : Model → Option ComplexType
  | .mk ct _ _ _ => ct

/-- Go `m.namespace`. -/
def Model.namespace_ : Model → String
  | .mk _ ns _ _ => ns

/-- Go `m.ref`. -/
def Model.ref : Model → Option ModelReference
  | .mk _ _ ref _ => ref

/-- Go `m.innerModels()`. -/
def Model.innerModels : Model → List Model
  | .mk _ _ _ ims => ims

/-- Go `ModelCache`, a `map[Identifier]ComplexType`. -/
abbrev ModelCache := List (Identifier × ComplexType)

/-- Go `ModelCache[id]`. -/
def ModelCache.get (cache : ModelCache) (id : Identifier) : Option ComplexType :=
  match cache.find? (fun e => e.1 = id) with
  | some e => some e.2
  | none => none

/-- Go `(*Model).register` (lines 196-203). -/
def Model.register (cache : ModelCache) (m : Model) : ModelCache :=
  match m.ComplexType with
  | some t =>
    if t.Identifier.Namespace ≠ "" ∧ cache.get t.Identifier = none then
      cache ++ [(t.Identifier, t)]
    else cache
  | none => cache

/-- Lines 206-210 of `propagateNamespaces`: the reference of a model that has
the namespace `ns`. -/
def propagateRef (ns : String) : Option ModelReference → Option ModelReference
  | some ref => if ns ≠ "" ∧ ref.Namespace = "" then some { ref with Namespace := ns } else some ref
  | none => none

mutual
/-- The loop body of `propagateNamespaces` (lines 213-216) for one child of a
model whose namespace is `parent`: the child takes `parent` when its own is
empty, then `child.propagateNamespaces()` runs. -/
def propagateChild (parent : String) : Model → Model
  | .mk ct ns ref ims =>
    .mk ct (if ns = "" then parent else ns)
      (propagateRef (if ns = "" then parent else ns) ref)
      (propagateChildren (if ns = "" then parent else ns) ims)
/-- The loop `for _, child := range m.innerModels()` (lines 212-217). -/
def propagateChildren (parent : String) : List Model → List Model
  | [] => []
  | child :: rest => propagateChild parent child :: propagateChildren parent rest
end

/-- Go `(*Model).propagateNamespaces` (lines 205-218) on a tree: the tree
afterwards. -/
def Model.propagateNamespaces : Model → Model
  | .mk ct ns ref ims => .mk ct ns (propagateRef ns ref) (propagateChildren ns ims)

/-- The node reached from `m` by taking, at each level, the child with the given
index among `innerModels()`. -/
def Model.descend : Model → List Nat → Option Model
  | m, [] => some m
  | m, i :: rest =>
    match m.innerModels[i]? with
    | some child => child.descend rest
    | none => none

/-- A model with namespace `ns.a` and two children: a field without a namespace
(index 0) and a nested model with the explicit namespace `ns.b` (index 1) that
has one child without a namespace. -/
def exampleTree : Model :=
  .mk none "ns.a" none
    [.mk none "" (some ⟨"", "X"⟩) [],
     .mk none "ns.b" none [.mk none "" none []]]

/-- What `model_json.go` reads of a `BuiltinType` value: its `innerModels()`
(addresses of the child `*Model`s) when the dynamic type implements
`hasInnerModels`. -/
structure BuiltinType where
  innerModels : Option (List Nat)
deriving DecidableEq

/-- Go `Model` as the struct stored at an address: its four fields, `none`
being nil.  The ComplexType is shared through its `decl`, the address of the
definition. -/
structure ModelStruct where
  BuiltinType : Option BuiltinType
  ComplexType : Option ComplexType
  namespace_ : String
  ref : Option ModelReference
deriving DecidableEq

/-- A fresh `Model`, as `new(Model)` gives it. -/
def ModelStruct.fresh : ModelStruct :=
  { BuiltinType := none, ComplexType := none, namespace_ := "", ref := none }

/-- The heap `replaceRef` works on: the struct at each `*Model` address, and for
each ComplexType definition (by `decl`) its `innerModels()` when its dynamic
type implements `hasInnerModels`.  Any pointer graph is a heap. -/
structure Heap where
  model : Nat → ModelStruct
  complexInner : Nat → Option (List Nat)

/-- Go `(*Model).innerModels` (lines 59-67) of the struct `m`. -/
def Heap.innerModels (h : Heap) (m : ModelStruct) : List Nat :=
  match m.ComplexType.bind (fun c => h.complexInner c.decl) with
  | some ims => ims
  | none =>
    match m.BuiltinType.bind (fun b => b.innerModels) with
    | some ims => ims
    | none => []

/-- Assignment through the pointer `p`. -/
def Heap.set (h : Heap) (p : Nat) (m : ModelStruct) : Heap :=
  { h with model := fun q => if q = p then m else h.model q }

/-- Modelled from the spec: `ModelReference.Resolve` is not among the source
files; §4.4 has the Reference looked up in the Type Registry by its Identifier,
the definition being returned when one is registered and nil otherwise. -/
def ModelReference.Resolve (cache : ModelCache) (ref : ModelReference) : Option ComplexType :=
  cache.get { Namespace := ref.Namespace, Name := ref.Name }

/-- Lines 221-226 of `replaceRef`: the struct of `m` after its own reference
has been looked up. -/
def ModelStruct.replaceOwnRef (cache : ModelCache) (m : ModelStruct) : ModelStruct :=
  match m.ref with
  | some ref =>
    match ref.Resolve cache with
    | some resolvedModel => { m with ComplexType := some resolvedModel, ref := none }
    | none => m
  | none => m

/-- The loop `for _, child := range m.innerModels()` of `replaceRef` (lines
228-230) over the remaining children; `recur` is `child.replaceRef()`. -/
def replaceRefLoop (recur : Heap → Nat → Option Heap) : List Nat → Heap → Option Heap
  | [], h => some h
  | child :: rest, h =>
    match recur h child with
    | none => none
    | some h1 => replaceRefLoop recur rest h1

/-- Go `(*Model).replaceRef` (lines 220-231) called on the model at address
`p`: the heap afterwards; `fuel` bounds the recursion depth. -/
def replaceRef (cache : ModelCache) : Nat → Heap → Nat → Option Heap
  | 0, _, _ => none
  | fuel + 1, h, p =>
    replaceRefLoop (replaceRef cache fuel)
      ((h.set p ((h.model p).replaceOwnRef cache)).innerModels
        ((h.model p).replaceOwnRef cache))
      (h.set p ((h.model p).replaceOwnRef cache))

/-- The heap `h1` is `h` after some models have had their own reference looked
up (lines 221-226); nothing else differs. -/
def Stepped (cache : ModelCache) (h h1 : Heap) : Prop :=
  h1.complexInner = h.complexInner ∧
  ∀ q, h1.model q = h.model q ∨ h1.model q = (h.model q).replaceOwnRef cache

/-- Exactly one of `BuiltinType`, `ComplexType` and `ref` is set. -/
def ExactlyOne (m : ModelStruct) : Prop :=
  (m.BuiltinType ≠ none ∧ m.ComplexType = none ∧ m.ref = none) ∨
  (m.BuiltinType = none ∧ m.ComplexType ≠ none ∧ m.ref = none) ∨
  (m.BuiltinType = none ∧ m.ComplexType = none ∧ m.ref ≠ none)

/-- A region `S` of the heap on which `replaceRef` returns: following the
children a model has once its own reference has been looked up stays in `S` and
lowers `rank`. -/
structure Resolvable (cache : ModelCache) (h : Heap) (S : Nat → Prop) (rank : Nat → Nat) :
    Prop where
  closed : ∀ q, S q → ∀ c ∈ h.innerModels ((h.model q).replaceOwnRef cache), S c
  rank_lt : ∀ q, S q → ∀ c ∈ h.innerModels ((h.model q).replaceOwnRef cache), rank c < rank q

/-- The heap after decoding the self-referential record `ns.A`, when the
deferred `replaceRef` starts: model 0 holds the record (definition 0, whose one
child is model 1), and model 1, the field, is a Reference to `ns.A`. -/
def selfRefHeap : Heap where
  model := fun p => match p with
    | 0 => { BuiltinType := none, ComplexType := some ⟨⟨"ns", "A"⟩, 0⟩, namespace_ := "ns",
             ref := none }
    | _ => { BuiltinType := none, ComplexType := none, namespace_ := "ns",
             ref := some ⟨"ns", "A"⟩ }
  complexInner := fun c => match c with
    | 0 => some [1]
    | _ => none

/-- The `ModelCache` after the record `ns.A` (definition 0) has been registered. -/
def selfRefCache : ModelCache := [(⟨"ns", "A"⟩, ⟨⟨"ns", "A"⟩, 0⟩)]

/-- A heap with the record `ns.B` (model 0, definition 1) whose one field
(model 1) is a Reference to the childless enum `ns.E` (definition 2). -/
def enumRefHeap : Heap where
  model := fun p => match p with
    | 0 => { BuiltinType := none, ComplexType := some ⟨⟨"ns", "B"⟩, 1⟩, namespace_ := "ns",
             ref := none }
    | _ => { BuiltinType := none, ComplexType := none, namespace_ := "ns",
             ref := some ⟨"ns", "E"⟩ }
  complexInner := fun c => match c with
    | 1 => some [1]
    | _ => none

/-- The `ModelCache` holding the enum `ns.E` (definition 2). -/
def enumCache : ModelCache := [(⟨"ns", "E"⟩, ⟨⟨"ns", "E"⟩, 2⟩)]

/-- The model `q` is `p` itself or is reached from `p` through the children
`replaceRef` follows: those `innerModels()` returns for a model once its own
reference has been looked up (line 228 runs after lines 221-226). -/
inductive Reaches (cache : ModelCache) (h : Heap) : Nat → Nat → Prop where
  | self (p : Nat) : Reaches cache h p p
  | child (p c q : Nat) : c ∈ h.innerModels ((h.model p).replaceOwnRef cache) →
      Reaches cache h c q → Reaches cache h p q

/-- A heap in which model 0 is a Reference to the record `ns.B` (definition 1),
and the one field of that record (model 1, every other address) is still a
Reference to the enum `ns.E`: the record was decoded before the enum was
registered. -/
def refRecordHeap : Heap where
  model := fun p => match p with
    | 0 => { BuiltinType := none, ComplexType := none, namespace_ := "ns",
             ref := some ⟨"ns", "B"⟩ }
    | _ => { BuiltinType := none, ComplexType := none, namespace_ := "ns",
             ref := some ⟨"ns", "E"⟩ }
  complexInner := fun c => match c with
    | 1 => some [1]
    | _ => none

/-- The `ModelCache` holding the record `ns.B` (definition 1) and the enum
`ns.E` (definition 2). -/
def recordCache : ModelCache :=
  [(⟨"ns", "B"⟩, ⟨⟨"ns", "B"⟩, 1⟩), (⟨"ns", "E"⟩, ⟨⟨"ns", "E"⟩, 2⟩)]

/-- Modelled from the spec: the constant `RecordTypeModelTypeName` is declared
outside the source files; §6 lists the discriminator values. -/
def RecordTypeModelTypeName : String := "record"

/-- Modelled from the spec: the discriminator value of an enum (§6). -/
def EnumModelTypeName : String := "enum"

/-- Modelled from the spec: the discriminator value of a fixed (§6). -/
def FixedModelTypeName : String := "fixed"

/-- Modelled from the spec: the discriminator value of a map (§6). -/
def MapModelTypeName : String := "map"

/-- Modelled from the spec: the discriminator value of an array (§6). -/
def ArrayModelTypeName : String := "array"

/-- Modelled from the spec: the discriminator value of a typeref (§6). -/
def TyperefModelTypeName : String := "typeref"

/-- Modelled from the spec: the discriminator value of bytes (§6). -/
def BytesModelTypeName : String := "bytes"

/-- What `json.Unmarshal` does with a byte string `Data` for each target type
`UnmarshalJSON` names, the error text on failure: `header` for the anonymous
struct of lines 76-79 (its `Namespace` and raw `Type`), `modelType` for the Go
string of line 123, and one entry per variant type, whose `UnmarshalJSON`
methods are outside the source files. -/
structure Unmarshal (Data : Type) where
  header : Data → Except String (String × Data)
  modelType : Data → Except String String
  bytes : Data → Except String BuiltinType
  primitive : Data → Except String BuiltinType
  reference : Data → Except String ModelReference
  union : Data → Except String BuiltinType
  record : Data → Except String ComplexType
  enum : Data → Except String ComplexType
  fixed : Data → Except String ComplexType
  map : Data → Except String BuiltinType
  array : Data → Except String BuiltinType
  typeref : Data → Except String ComplexType

/-- The errors `UnmarshalJSON` returns: the aggregate of line 117 (the four
variant errors, the header error, the raw value), the wrapped error of line
124, a variant error with its stack (lines 134-174), and the error of line
193. -/
inductive DecodeError (Data : Type) where
  | illegalModelType (unmarshalErrors : List String) (err : String) (data : Data)
  | typeNotString (err : String)
  | withStack (err : String)
  | couldNotDeserialize (data : Data)
deriving DecidableEq

/-- Lines 82-117 of `UnmarshalJSON`, entered when the header could not be read
(with error `err`): the variants Bytes, Primitive, Reference, Union are tried
on the whole value. -/
def fallback {Data : Type} (j : Unmarshal Data) (data : Data) (err : String) :
    Except (DecodeError Data) ModelStruct :=
  match j.bytes data with
  | .ok bytes => .ok { ModelStruct.fresh with BuiltinType := some bytes }
  | .error e1 =>
    match j.primitive data with
    | .ok primitive => .ok { ModelStruct.fresh with BuiltinType := some primitive }
    | .error e2 =>
      match j.reference data with
      | .ok reference => .ok { ModelStruct.fresh with ref := some reference }
      | .error e3 =>
        match j.union data with
        | .ok union => .ok { ModelStruct.fresh with BuiltinType := some union }
        | .error e4 => .error (.illegalModelType [e1, e2, e3, e4] err data)

/-- The `switch modelType` of lines 127-179 and the two attempts on the raw type
after it (lines 181-193), for a header read as `(ns, type)` whose type is the
string `modelType`. -/
def dispatch {Data : Type} (j : Unmarshal Data) (data : Data) (ns : String) (type : Data)
    (modelType : String) : Except (DecodeError Data) ModelStruct :=
  let m : ModelStruct := { ModelStruct.fresh with namespace_ := ns }
  if modelType = RecordTypeModelTypeName then
    match j.record data with
    | .ok recordType => .ok { m with ComplexType := some recordType }
    | .error err => .error (.withStack err)
  else if modelType = EnumModelTypeName then
    match j.enum data with
    | .ok enumType => .ok { m with ComplexType := some enumType }
    | .error err => .error (.withStack err)
  else if modelType = FixedModelTypeName then
    match j.fixed data with
    | .ok fixedType => .ok { m with ComplexType := some fixedType }
    | .error err => .error (.withStack err)
  else if modelType = MapModelTypeName then
    match j.map data with
    | .ok mapType => .ok { m with BuiltinType := some mapType }
    | .error err => .error (.withStack err)
  else if modelType = ArrayModelTypeName then
    match j.array data with
    | .ok arrayType => .ok { m with BuiltinType := some arrayType }
    | .error err => .error (.withStack err)
  else if modelType = TyperefModelTypeName then
    match j.typeref data with
    | .ok typerefType => .ok { m with ComplexType := some typerefType }
    | .error err => .error (.withStack err)
  else if modelType = BytesModelTypeName then
    .ok { m with BuiltinType := some { innerModels := none } }
  else
    match j.primitive type with
    | .ok primitiveType => .ok { m with BuiltinType := some primitiveType }
    | .error _ =>
      match j.reference type with
      | .ok referenceType => .ok { m with ref := some referenceType }
      | .error _ => .error (.couldNotDeserialize data)

/-- Go `(*Model).UnmarshalJSON` (lines 69-194) on a fresh `Model`, before the
deferred `register`, `propagateNamespaces`, `replaceRef`: the struct the body
leaves, or the error it returns. -/
def UnmarshalJSON {Data : Type} (j : Unmarshal Data) (data : Data) :
    Except (DecodeError Data) ModelStruct :=
  match j.header data with
  | .error err => fallback j data err
  | .ok (ns, type) =>
    match j.modelType type with
    | .error err => .error (.typeNotString err)
    | .ok modelType => dispatch j data ns type modelType

/-- A decode behaviour on seven JSON texts.  Four are objects the header
decode reads: the empty object, with an empty raw type, and an object whose
`type` is an inline union, with the array as raw type, neither of which decodes
into a Go string; an object whose `type` is `null`, which decodes into the
empty string; and an object whose `type` is `"int"`.  The bare string `"int"`,
the bare string `"Foo"` and the bare array `["int","string"]` are rejected by
the header decode; they parse as a primitive, as a reference and as a union.
Every other attempt fails. -/
def sampleUnmarshal : Unmarshal String where
  header := fun s =>
    if s = "\x7b\x7d" then .ok ("", "")
    else if s = "\x7b\"type\":[\"int\",\"string\"]\x7d" then .ok ("", "[\"int\",\"string\"]")
    else if s = "\x7b\"type\":null\x7d" then .ok ("", "null")
    else if s = "\x7b\"type\":\"int\"\x7d" then .ok ("", "\"int\"")
    else .error "json: cannot unmarshal into Go value of type struct"
  modelType := fun s =>
    if s = "" then .error "unexpected end of JSON input"
    else if s = "null" then .ok ""
    else if s = "\"int\"" then .ok "int"
    else .error "json: cannot unmarshal array into Go value of type string"
  bytes := fun _ => .error "not bytes"
  primitive := fun s =>
    if s = "\"int\"" then .ok { innerModels := none } else .error "not a primitive"
  reference := fun s =>
    if s = "\"Foo\"" then .ok { Namespace := "", Name := "Foo" } else .error "not a reference"
  union := fun s =>
    if s = "[\"int\",\"string\"]" then .ok { innerModels := some [] } else .error "not a union"
  record := fun _ => .error "not a record"
  enum := fun _ => .error "not an enum"
  fixed := fun _ => .error "not a fixed"
  map := fun _ => .error "not a map"
  array := fun _ => .error "not an array"
  typeref := fun _ => .error "not a typeref"

/-- The decode behaviour `sampleUnmarshal` with a Union decoder that also
parses the object whose `type` is an inline union, as the wording "for example
an inline union" supposes of such a value. -/
def lenientUnmarshal : Unmarshal String :=
  { sampleUnmarshal with
    union := fun s =>
      if s = "[\"int\",\"string\"]" ∨ s = "\x7b\"type\":[\"int\",\"string\"]\x7d" then
        .ok { innerModels := some [] }
      else .error "not a union" }

end models

/-! ## Theorems -/

namespace internal

/-! ### Shape of a returned chain -/

theorem head?_append_singleton {α : Type} (path : List α) (s x : α)
    (hp : path.head? = some s) : (path ++ [x]).head? = some s := by
  cases path with
  | nil => simp at hp
  | cons a t => simpa using hp

theorem traverseLoop_shape (h : Heap)
    (recur : Model → List Identifier → IdSet → IdSet → Option Traversal)
    (s : Identifier)
    (hrec : ∀ m path v c r, path.head? = some s → recur m path v c = some r →
      r.modelChain ≠ [] → ChainShape s r.modelChain)
    (path : List Identifier) (hp : path.head? = some s) :
    ∀ (ims : List Nat) (v c : IdSet) (r : Traversal),
      traverseLoop h recur path ims v c = some r → r.modelChain ≠ [] →
      ChainShape s r.modelChain := by
  intro ims
  induction ims with
  | nil =>
    intro v c r hr hne
    simp [traverseLoop] at hr
    subst hr
    simp at hne
  | cons p rest ih =>
    intro v c r hr hne
    unfold traverseLoop at hr
    simp only at hr
    split at hr
    · rename_i ct s0 prev hct hs0 hl
      have hs : s0 = s := by rw [hp] at hs0; exact (Option.some.inj hs0).symm
      subst hs
      split at hr
      · exact ih _ _ _ hr hne
      · split at hr
        · rename_i hdet
          cases hr
          refine ⟨head?_append_singleton _ _ _ hp, ?_⟩
          obtain ⟨pre, hpre⟩ := List.getLast?_eq_some_iff.mp hl
          refine ⟨pre, prev, h.GetIdentifier ct, ?_, hdet.1, hdet.2⟩
          simp [hpre]
        · split at hr
          · simp at hr
          · rename_i r1 hrc
            split at hr
            · rename_i h1
              cases hr
              exact hrec _ _ _ _ _ (head?_append_singleton _ _ _ hp) hrc h1
            · exact ih _ _ _ hr hne
    · split at hr
      · simp at hr
      · rename_i r1 hrc
        split at hr
        · rename_i h1
          cases hr
          exact hrec _ _ _ _ _ hp hrc h1
        · exact ih _ _ _ hr hne

theorem traverse_shape (h : Heap) (s : Identifier) :
    ∀ (fuel : Nat) (m : Model) (path : List Identifier) (v c : IdSet) (r : Traversal),
      path.head? = some s → traverseDependencyGraph h fuel m path v c = some r →
      r.modelChain ≠ [] → ChainShape s r.modelChain := by
  intro fuel
  induction fuel with
  | zero => intro m path v c r _ hr; simp [traverseDependencyGraph] at hr
  | succ n ih =>
    intro m path v c r hp hr hne
    unfold traverseDependencyGraph at hr
    cases path with
    | nil => simp at hp
    | cons a t =>
      simp only at hr
      exact traverseLoop_shape h _ s ih (a :: t) hp _ _ _ _ hr hne

/-- C1: on every heap, for every root `R` holding a ComplexType and every initial
Cyclic Set, a non-empty chain returned by `traverseDependencyGraph` called on
`R` with a nil path and a nil visited set starts with `R`'s Identifier, ends
with an Identifier `C` of `R`'s namespace, the element just before `C` has
a namespace different from `C`'s, and the chain has at least three elements. -/
theorem traverseDependencyGraph_chain_shape (h : Heap) (fuel : Nat) (R : Model) (c : Nat)
    (cyclic : IdSet) (r : Traversal) (hR : R.ComplexType = some c)
    (hr : traverseDependencyGraph h fuel R [] [] cyclic = some r)
    (hne : r.modelChain ≠ []) :
    r.modelChain.head? = some (h.GetIdentifier c) ∧
    (∃ pre prev C, r.modelChain = pre ++ [prev, C] ∧
      C.Namespace = (h.GetIdentifier c).Namespace ∧ prev.Namespace ≠ C.Namespace) ∧
    3 ≤ r.modelChain.length := by
  cases fuel with
  | zero => simp [traverseDependencyGraph] at hr
  | succ n =>
    unfold traverseDependencyGraph at hr
    simp only [hR] at hr
    have hs := traverseLoop_shape h _ (h.GetIdentifier c) (traverse_shape h _ n)
      [h.GetIdentifier c] rfl _ _ _ _ hr hne
    refine ⟨hs.1, hs.2, ?_⟩
    obtain ⟨hh, pre, prev, C, hch, hC, hprev⟩ := hs
    cases pre with
    | nil =>
      rw [hch] at hh
      simp at hh
      subst hh
      exact absurd hC.symm hprev
    | cons a t => simp [hch]

/-- C1, witness: the search from `ns1.A` in the heap of the mutually recursive
`ns1.A` and `ns2.B` returns the chain `ns1.A, ns2.B, ns1.A`. -/
theorem traverseDependencyGraph_chain_shape_witness :
    traverseDependencyGraph (mutualHeap "ns1" "ns2") 2 ⟨none, some 0⟩ [] [] [] =
      some ⟨[⟨"ns1", "A"⟩, ⟨"ns2", "B"⟩, ⟨"ns1", "A"⟩], [⟨"ns2", "B"⟩],
        [⟨"ns2", "B"⟩, ⟨"ns1", "A"⟩]⟩ ∧
    ([⟨"ns1", "A"⟩, ⟨"ns2", "B"⟩, ⟨"ns1", "A"⟩] : List Identifier).head? =
      some ((mutualHeap "ns1" "ns2").GetIdentifier 0) ∧
    (∃ pre prev C, ([⟨"ns1", "A"⟩, ⟨"ns2", "B"⟩, ⟨"ns1", "A"⟩] : List Identifier) =
        pre ++ [prev, C] ∧
      C.Namespace = ((mutualHeap "ns1" "ns2").GetIdentifier 0).Namespace ∧
      prev.Namespace ≠ C.Namespace) ∧
    3 ≤ ([⟨"ns1", "A"⟩, ⟨"ns2", "B"⟩, ⟨"ns1", "A"⟩] : List Identifier).length :=
  ⟨by decide,
    traverseDependencyGraph_chain_shape (mutualHeap "ns1" "ns2") 2 ⟨none, some 0⟩ 0 []
      ⟨[⟨"ns1", "A"⟩, ⟨"ns2", "B"⟩, ⟨"ns1", "A"⟩], [⟨"ns2", "B"⟩],
        [⟨"ns2", "B"⟩, ⟨"ns1", "A"⟩]⟩ rfl (by decide) (by decide)⟩

/-! ### A larger recursion bound gives the same result -/

theorem traverseLoop_mono (h : Heap)
    (rec1 rec2 : Model → List Identifier → IdSet → IdSet → Option Traversal)
    (hrec : ∀ m path v c r, rec1 m path v c = some r → rec2 m path v c = some r)
    (path : List Identifier) :
    ∀ (ims : List Nat) (v c : IdSet) (r : Traversal),
      traverseLoop h rec1 path ims v c = some r → traverseLoop h rec2 path ims v c = some r := by
  intro ims
  induction ims with
  | nil => intro v c r hr; simpa [traverseLoop] using hr
  | cons p rest ih =>
    intro v c r hr
    have hdescend : ∀ (path1 : List Identifier) (v1 : IdSet),
        (match rec1 (h.model p) path1 v1 c with
          | none => none
          | some r1 =>
            if r1.modelChain ≠ [] then some r1
            else traverseLoop h rec1 path rest r1.visitedModels r1.CyclicModels) = some r →
        (match rec2 (h.model p) path1 v1 c with
          | none => none
          | some r1 =>
            if r1.modelChain ≠ [] then some r1
            else traverseLoop h rec2 path rest r1.visitedModels r1.CyclicModels) = some r := by
      intro path1 v1 hd
      cases hrc : rec1 (h.model p) path1 v1 c with
      | none => simp [hrc] at hd
      | some r1 =>
        simp only [hrc] at hd
        rw [hrec _ _ _ _ _ hrc]
        by_cases hne : r1.modelChain ≠ []
        · rw [if_pos hne] at hd
          show (if r1.modelChain ≠ [] then some r1 else _) = some r
          rw [if_pos hne]
          exact hd
        · rw [if_neg hne] at hd
          show (if r1.modelChain ≠ [] then some r1 else _) = some r
          rw [if_neg hne]
          exact ih _ _ _ hd
    unfold traverseLoop at hr ⊢
    simp only at hr ⊢
    split at hr
    · split at hr
      · rename_i hskip
        rw [if_pos hskip]
        exact ih _ _ _ hr
      · rename_i hskip
        rw [if_neg hskip]
        split at hr
        · rename_i hdet
          rw [if_pos hdet]
          exact hr
        · rename_i hdet
          rw [if_neg hdet]
          exact hdescend _ _ hr
    · exact hdescend _ _ hr

theorem traverseDependencyGraph_mono (h : Heap) :
    ∀ (fuel fuel1 : Nat) (m : Model) (path : List Identifier) (v c : IdSet) (r : Traversal),
      fuel ≤ fuel1 → traverseDependencyGraph h fuel m path v c = some r →
      traverseDependencyGraph h fuel1 m path v c = some r := by
  intro fuel
  induction fuel with
  | zero => intro fuel1 m path v c r _ hr; simp [traverseDependencyGraph] at hr
  | succ n ih =>
    intro fuel1 m path v c r hle hr
    cases fuel1 with
    | zero => omega
    | succ n1 =>
      unfold traverseDependencyGraph at hr ⊢
      exact traverseLoop_mono h _ _ (fun m1 p1 v1 c1 r1 => ih n1 m1 p1 v1 c1 r1 (by omega))
        _ _ _ _ _ hr

theorem allDependenciesLoop_mono (h : Heap) (rec1 rec2 : Model → List Nat → Option (List Nat))
    (hrec : ∀ m types r, rec1 m types = some r → rec2 m types = some r) :
    ∀ (ims : List Nat) (types r : List Nat),
      allDependenciesLoop h rec1 ims types = some r →
      allDependenciesLoop h rec2 ims types = some r := by
  intro ims
  induction ims with
  | nil => intro types r hr; simpa [allDependenciesLoop] using hr
  | cons p rest ih =>
    intro types r hr
    have hdescend : ∀ (t1 : List Nat),
        (match rec1 (h.model p) t1 with
          | none => none
          | some types1 => allDependenciesLoop h rec1 rest types1) = some r →
        (match rec2 (h.model p) t1 with
          | none => none
          | some types1 => allDependenciesLoop h rec2 rest types1) = some r := by
      intro t1 hd
      cases hrc : rec1 (h.model p) t1 with
      | none => simp [hrc] at hd
      | some r1 =>
        simp only [hrc] at hd
        rw [hrec _ _ _ hrc]
        exact ih _ _ hd
    unfold allDependenciesLoop at hr ⊢
    simp only at hr ⊢
    split at hr
    · split at hr
      · rename_i hin
        rw [if_pos hin]
        exact hr
      · rename_i hin
        rw [if_neg hin]
        exact hdescend _ hr
    · exact hdescend _ hr

theorem allDependencies_mono (h : Heap) :
    ∀ (fuel fuel1 : Nat) (m : Model) (types r : List Nat),
      fuel ≤ fuel1 → allDependencies h fuel m types = some r →
      allDependencies h fuel1 m types = some r := by
  intro fuel
  induction fuel with
  | zero => intro fuel1 m types r _ hr; simp [allDependencies] at hr
  | succ n ih =>
    intro fuel1 m types r hle hr
    cases fuel1 with
    | zero => omega
    | succ n1 =>
      unfold allDependencies at hr ⊢
      exact allDependenciesLoop_mono h _ _ (fun m1 t1 r1 => ih n1 m1 t1 r1 (by omega))
        _ _ _ hr

theorem collectLoaded_mono (h : Heap) (fuel fuel1 : Nat) (hle : fuel ≤ fuel1) :
    ∀ (models : List Model) (loaded0 loaded : IdSet),
      collectLoaded h fuel models loaded0 = some loaded →
      collectLoaded h fuel1 models loaded0 = some loaded := by
  intro models
  induction models with
  | nil => intro loaded0 loaded hl; simpa [collectLoaded] using hl
  | cons m rest ih =>
    intro loaded0 loaded hl
    unfold collectLoaded at hl ⊢
    simp only at hl ⊢
    cases hd : allDependencies h fuel m [] with
    | none => simp [hd] at hl
    | some deps =>
      simp only [hd] at hl
      rw [allDependencies_mono h fuel fuel1 m [] deps hle hd]
      exact ih _ _ hl

theorem trimUnneededModels_mono (h : Heap) (fuel fuel1 : Nat) (hle : fuel ≤ fuel1)
    (models : List Model) (reg reg1 : Registry)
    (ht : trimUnneededModels h fuel models reg = some reg1) :
    trimUnneededModels h fuel1 models reg = some reg1 := by
  unfold trimUnneededModels at ht ⊢
  cases hl : collectLoaded h fuel models [] with
  | none => simp [hl] at ht
  | some loaded =>
    simp only [hl] at ht
    rw [collectLoaded_mono h fuel fuel1 hle models [] loaded hl]
    exact ht

theorem detectLoop_mono (h : Heap) (fuel fuel1 : Nat) (hle : fuel ≤ fuel1) (m : Model) :
    ∀ (rounds rounds1 : Nat) (cyclic : IdSet) (out : Outcome), rounds ≤ rounds1 →
      detectLoop h fuel m rounds cyclic = some out →
      detectLoop h fuel1 m rounds1 cyclic = some out := by
  intro rounds
  induction rounds with
  | zero => intro rounds1 cyclic out _ hd; simp [detectLoop] at hd
  | succ n ih =>
    intro rounds1 cyclic out hr hd
    cases rounds1 with
    | zero => omega
    | succ n1 =>
      unfold detectLoop at hd ⊢
      cases ht : traverseDependencyGraph h fuel m [] [] cyclic with
      | none => simp [ht] at hd
      | some r =>
        simp only [ht] at hd
        rw [traverseDependencyGraph_mono h fuel fuel1 m [] [] cyclic r hle ht]
        simp only
        split at hd
        · split at hd
          · rename_i hname
            rw [if_pos hname]
            exact hd
          · rename_i hname
            rw [if_neg hname]
            exact ih n1 _ _ (by omega) hd
        · exact hd

theorem resolveLoop_mono (h : Heap) (fuel fuel1 : Nat) (hle : fuel ≤ fuel1) :
    ∀ (reg : Registry) (cyclic : IdSet) (out : Outcome),
      resolveLoop h fuel reg cyclic = some out → resolveLoop h fuel1 reg cyclic = some out := by
  intro reg
  induction reg with
  | nil => intro cyclic out hr; simpa [resolveLoop] using hr
  | cons e rest ih =>
    intro cyclic out hr
    obtain ⟨id, pdscModel⟩ := e
    unfold resolveLoop at hr ⊢
    simp only at hr ⊢
    cases hd : detectLoop h fuel pdscModel.toModel fuel cyclic with
    | none => simp [hd] at hr
    | some o =>
      simp only [hd] at hr
      rw [detectLoop_mono h fuel fuel1 hle _ fuel fuel1 cyclic o hle hd]
      cases o with
      | fatal chain cyc => exact hr
      | done cyc =>
        simp only at hr ⊢
        cases ha : allDependencies h fuel pdscModel.toModel [] with
        | none => simp [ha] at hr
        | some deps =>
          simp only [ha] at hr
          rw [allDependencies_mono h fuel fuel1 _ [] deps hle ha]
          exact ih _ _ hr

theorem ResolveCyclicDependencies_mono (h : Heap) (fuel fuel1 : Nat) (hle : fuel ≤ fuel1)
    (loadedModels : List Model) (reg : Registry) (cyclic : IdSet) (res : Registry × Outcome)
    (hr : ResolveCyclicDependencies h fuel loadedModels reg cyclic = some res) :
    ResolveCyclicDependencies h fuel1 loadedModels reg cyclic = some res := by
  unfold ResolveCyclicDependencies at hr ⊢
  cases ht : trimUnneededModels h fuel loadedModels reg with
  | none => simp [ht] at hr
  | some reg1 =>
    simp only [ht] at hr
    rw [trimUnneededModels_mono h fuel fuel1 hle _ _ _ ht]
    simp only
    cases hl : resolveLoop h fuel reg1 cyclic with
    | none => simp [hl] at hr
    | some out =>
      simp only [hl] at hr
      rw [resolveLoop_mono h fuel fuel1 hle _ _ _ hl]
      exact hr

/-! ### The search returns -/

theorem unvisited_mono {α : Type} [DecidableEq α] (ids : List α) (v w : List α)
    (hvw : ∀ i, i ∈ v → i ∈ w) :
    unvisited ids w ≤ unvisited ids v := by
  unfold unvisited
  apply List.countP_mono_left
  intro x _ hx
  simp only [decide_eq_true_eq] at hx ⊢
  exact fun hv => hx (hvw x hv)

theorem unvisited_insert_lt {α : Type} [DecidableEq α] (ids : List α) (v : List α) (a : α)
    (ha : a ∈ ids) (hv : a ∉ v) : unvisited ids (v.insert a) < unvisited ids v := by
  induction ids with
  | nil => simp at ha
  | cons b t ih =>
    have hmono : unvisited t (v.insert a) ≤ unvisited t v :=
      unvisited_mono t v (v.insert a) (fun i hi => List.mem_insert_iff.mpr (Or.inr hi))
    unfold unvisited at hmono ih ⊢
    by_cases hba : b = a
    · subst hba
      rw [List.countP_cons_of_neg, List.countP_cons_of_pos]
      · omega
      · simpa using hv
      · simp
    · have hat : a ∈ t := by
        rcases List.mem_cons.mp ha with h | h
        · exact absurd h.symm hba
        · exact h
      have := ih hat
      by_cases hbv : b ∈ v
      · rw [List.countP_cons_of_neg, List.countP_cons_of_neg]
        · exact this
        · simpa using hbv
        · simp [hbv]
      · rw [List.countP_cons_of_pos, List.countP_cons_of_pos]
        · omega
        · simpa using hbv
        · simp [hbv, hba]

theorem traverseLoop_returns (h : Heap) (S : Nat → Prop) (ids : List Identifier)
    (rank : Nat → Nat) (R : Nat) (hR : Ranked h S ids rank R)
    (recur : Model → List Identifier → IdSet → IdSet → Option Traversal) (F : Nat)
    (hrec : ∀ m path v c r, path ≠ [] → (∀ q ∈ m.innerModels h, S q) →
      (∀ q ∈ m.innerModels h, (h.model q).ComplexType = none → rank q < r) →
      unvisited ids v * (R + 2) + r + 1 ≤ F →
      ∃ res, recur m path v c = some res ∧ ∀ i, i ∈ v → i ∈ res.visitedModels)
    (path : List Identifier) (hp : path ≠ []) (k r : Nat) (hF : k * (R + 2) + r ≤ F) :
    ∀ (ims : List Nat) (v c : IdSet), (∀ q ∈ ims, S q) →
      (∀ q ∈ ims, (h.model q).ComplexType = none → rank q < r) →
      unvisited ids v ≤ k →
      ∃ res, traverseLoop h recur path ims v c = some res ∧
        ∀ i, i ∈ v → i ∈ res.visitedModels := by
  intro ims
  induction ims with
  | nil =>
    intro v c _ _ _
    exact ⟨⟨[], v, c⟩, rfl, fun i hi => hi⟩
  | cons p rest ih =>
    intro v c hS hrk hk
    have hSp : S p := hS p (List.mem_cons_self _ _)
    have hSrest : ∀ q ∈ rest, S q := fun q hq => hS q (List.mem_cons_of_mem _ hq)
    have hrkrest : ∀ q ∈ rest, (h.model q).ComplexType = none → rank q < r :=
      fun q hq => hrk q (List.mem_cons_of_mem _ hq)
    unfold traverseLoop
    simp only
    split
    · rename_i ct s0 prev hct hs0 hl
      split
      · exact ih v c hSrest hrkrest hk
      · rename_i hnot
        split
        · exact ⟨_, rfl, fun i hi => hi⟩
        · have hidv : h.GetIdentifier ct ∉ v := fun hv => hnot (Or.inl hv)
          have hlt := unvisited_insert_lt ids v (h.GetIdentifier ct)
            (hR.ids_mem p hSp ct hct) hidv
          have hfuel : unvisited ids (v.insert (h.GetIdentifier ct)) * (R + 2) + rank p + 1
              ≤ F := by
            have h1 : (unvisited ids (v.insert (h.GetIdentifier ct)) + 1) * (R + 2)
                ≤ k * (R + 2) := Nat.mul_le_mul_right _ (by omega)
            have h2 := hR.rank_le p hSp
            rw [Nat.add_mul] at h1
            omega
          obtain ⟨res1, hres1, hsub1⟩ := hrec (h.model p) (path ++ [h.GetIdentifier ct])
            (v.insert (h.GetIdentifier ct)) c (rank p) (by simp) (hR.closed p hSp)
            (hR.rank_lt p hSp) hfuel
          have hsubv : ∀ i, i ∈ v → i ∈ res1.visitedModels :=
            fun i hi => hsub1 i (List.mem_insert_iff.mpr (Or.inr hi))
          simp only [hres1]
          split
          · exact ⟨res1, rfl, hsubv⟩
          · obtain ⟨res, hres, hsub⟩ := ih res1.visitedModels res1.CyclicModels hSrest hrkrest
              (le_trans (unvisited_mono ids v _ hsubv) hk)
            exact ⟨res, hres, fun i hi => hsub i (hsubv i hi)⟩
    · rename_i hno
      have hct : (h.model p).ComplexType = none := by
        cases hc : (h.model p).ComplexType with
        | none => rfl
        | some ct =>
          exfalso
          cases path with
          | nil => exact hp rfl
          | cons a t =>
            exact hno ct a ((a :: t).getLast (by simp)) hc rfl
              (List.getLast?_eq_getLast _ (by simp))
      have hfuel : unvisited ids v * (R + 2) + rank p + 1 ≤ F := by
        have h1 : unvisited ids v * (R + 2) ≤ k * (R + 2) := Nat.mul_le_mul_right _ hk
        have h2 := hrk p (List.mem_cons_self _ _) hct
        omega
      obtain ⟨res1, hres1, hsub1⟩ := hrec (h.model p) path v c (rank p) hp (hR.closed p hSp)
        (hR.rank_lt p hSp) hfuel
      simp only [hres1]
      split
      · exact ⟨res1, rfl, hsub1⟩
      · obtain ⟨res, hres, hsub⟩ := ih res1.visitedModels res1.CyclicModels hSrest hrkrest
          (le_trans (unvisited_mono ids v _ hsub1) hk)
        exact ⟨res, hres, fun i hi => hsub i (hsub1 i hi)⟩

theorem traverse_returns (h : Heap) (S : Nat → Prop) (ids : List Identifier)
    (rank : Nat → Nat) (R : Nat) (hR : Ranked h S ids rank R) :
    ∀ (fuel : Nat) (m : Model) (path : List Identifier) (v c : IdSet) (r : Nat),
      (path ≠ [] ∨ m.ComplexType ≠ none) → (∀ q ∈ m.innerModels h, S q) →
      (∀ q ∈ m.innerModels h, (h.model q).ComplexType = none → rank q < r) →
      unvisited ids v * (R + 2) + r + 1 ≤ fuel →
      ∃ res, traverseDependencyGraph h fuel m path v c = some res ∧
        ∀ i, i ∈ v → i ∈ res.visitedModels := by
  intro fuel
  induction fuel with
  | zero => intro m path v c r _ _ _ hf; omega
  | succ F ih =>
    intro m path v c r hpm hS hrk hf
    unfold traverseDependencyGraph
    simp only
    refine traverseLoop_returns h S ids rank R hR _ F
      (fun m1 path1 v1 c1 r1 hp1 => ih m1 path1 v1 c1 r1 (Or.inl hp1)) _ ?_
      (unvisited ids v) r (by omega) _ v c hS hrk (le_refl _)
    cases path with
    | nil =>
      cases hc : m.ComplexType with
      | none =>
        rcases hpm with hp | hm
        · exact absurd rfl hp
        · exact absurd hc hm
      | some ct => simp
    | cons a t => simp

/-- X2: `traverseDependencyGraph` returns: on every heap region whose models
without a ComplexType form finite trees and whose ComplexTypes have finitely
many Identifiers (`Ranked`), the call on a root that holds a ComplexType, with a
nil path and a nil visited set, gives a result for every recursion bound from
`ids.length * (R + 2) + R + 2` on. -/
theorem traverseDependencyGraph_returns (h : Heap) (S : Nat → Prop) (ids : List Identifier)
    (rank : Nat → Nat) (R : Nat) (hR : Ranked h S ids rank R) (m : Model) (c : Nat)
    (hm : m.ComplexType = some c) (hroot : ∀ q ∈ m.innerModels h, S q)
    (cyclic : IdSet) (fuel : Nat) (hfuel : ids.length * (R + 2) + R + 2 ≤ fuel) :
    ∃ res, traverseDependencyGraph h fuel m [] [] cyclic = some res := by
  have hk : unvisited ids [] * (R + 2) + (R + 1) + 1 ≤ fuel := by
    have h1 : unvisited ids [] ≤ ids.length := List.countP_le_length _
    have h2 : unvisited ids [] * (R + 2) ≤ ids.length * (R + 2) :=
      Nat.mul_le_mul_right _ h1
    omega
  obtain ⟨res, hres, -⟩ := traverse_returns h S ids rank R hR fuel m [] []
    cyclic (R + 1) (Or.inr (by simp [hm])) hroot
    (fun q hq _ => Nat.lt_succ_of_le (hR.rank_le q (hroot q hq))) hk
  exact ⟨res, hres⟩

/-- X2, witness: the self-referential record `ns.A`. -/
theorem traverseDependencyGraph_returns_witness :
    ∃ res, traverseDependencyGraph (selfHeap "ns" "A") 4 ⟨none, some 0⟩ [] [] [] = some res :=
  traverseDependencyGraph_returns (selfHeap "ns" "A") (fun _ => True) [⟨"ns", "A"⟩]
    (fun _ => 0) 0
    ⟨fun _ _ _ _ => trivial, fun _ _ _ _ => by simp [selfHeap, Heap.GetIdentifier],
      fun _ _ => le_refl _, fun _ _ q _ hq => by simp [selfHeap] at hq⟩
    ⟨none, some 0⟩ 0 rfl (fun _ _ => trivial) [] 4 (by decide)

/-! ### Mutual recursion across two namespaces -/

theorem mutual_traverse_A (ns1 ns2 : String) (hne : ns1 ≠ ns2) (n : Nat) :
    traverseDependencyGraph (mutualHeap ns1 ns2) (n + 2) ⟨none, some 0⟩ [] [] [] =
      some ⟨[⟨ns1, "A"⟩, ⟨ns2, "B"⟩, ⟨ns1, "A"⟩], [⟨ns2, "B"⟩],
        [⟨ns2, "B"⟩, ⟨ns1, "A"⟩]⟩ := by
  have hne2 : ns2 ≠ ns1 := fun h => hne h.symm
  simp [traverseDependencyGraph, traverseLoop, Model.innerModels, mutualHeap,
    Heap.GetIdentifier, markCyclic, hne, hne2]

theorem mutual_traverse_B (ns1 ns2 : String) (hne : ns1 ≠ ns2) (n : Nat) :
    traverseDependencyGraph (mutualHeap ns1 ns2) (n + 2) ⟨none, some 1⟩ [] [] [] =
      some ⟨[⟨ns2, "B"⟩, ⟨ns1, "A"⟩, ⟨ns2, "B"⟩], [⟨ns1, "A"⟩],
        [⟨ns1, "A"⟩, ⟨ns2, "B"⟩]⟩ := by
  have hne2 : ns2 ≠ ns1 := fun h => hne h.symm
  simp [traverseDependencyGraph, traverseLoop, Model.innerModels, mutualHeap,
    Heap.GetIdentifier, markCyclic, hne, hne2]

theorem mutual_resolveLoop (ns1 ns2 f1 f2 : String) (hne : ns1 ≠ ns2) (n : Nat)
    (reg : Registry)
    (hreg : reg = [(⟨ns1, "A"⟩, ⟨0, f1⟩), (⟨ns2, "B"⟩, ⟨1, f2⟩)] ∨
      reg = [(⟨ns2, "B"⟩, ⟨1, f2⟩), (⟨ns1, "A"⟩, ⟨0, f1⟩)]) :
    ∃ chain cyc, resolveLoop (mutualHeap ns1 ns2) (n + 2) reg [] = some (.fatal chain cyc) ∧
      chain.length = 3 ∧ (chain.head?.map (·.Name) = chain.getLast?.map (·.Name)) ∧
      (⟨ns1, "A"⟩ : Identifier) ∈ cyc ∧ (⟨ns2, "B"⟩ : Identifier) ∈ cyc := by
  rcases hreg with rfl | rfl
  · refine ⟨[⟨ns1, "A"⟩, ⟨ns2, "B"⟩, ⟨ns1, "A"⟩], [⟨ns2, "B"⟩, ⟨ns1, "A"⟩], ?_, by simp⟩
    simp [resolveLoop, detectLoop, PdscModel.toModel, mutual_traverse_A ns1 ns2 hne]
  · refine ⟨[⟨ns2, "B"⟩, ⟨ns1, "A"⟩, ⟨ns2, "B"⟩], [⟨ns1, "A"⟩, ⟨ns2, "B"⟩], ?_, by simp⟩
    simp [resolveLoop, detectLoop, PdscModel.toModel, mutual_traverse_B ns1 ns2 hne]

theorem mutual_allDependencies_A (ns1 ns2 : String) (n : Nat) :
    allDependencies (mutualHeap ns1 ns2) (n + 2) ⟨none, some 0⟩ [] = some [1, 0] := by
  simp [allDependencies, allDependenciesLoop, Model.innerModels, mutualHeap]

theorem mutual_trim (ns1 ns2 f1 f2 : String) (n : Nat) :
    trimUnneededModels (mutualHeap ns1 ns2) (n + 2) [⟨none, some 0⟩]
        [(⟨ns1, "A"⟩, ⟨0, f1⟩), (⟨ns2, "B"⟩, ⟨1, f2⟩)] =
      some [(⟨ns1, "A"⟩, ⟨0, f1⟩), (⟨ns2, "B"⟩, ⟨1, f2⟩)] := by
  simp only [trimUnneededModels, collectLoaded, mutual_allDependencies_A]
  simp [markCyclic, mutualHeap, Heap.GetIdentifier]

/-- C2 (amended): for every two distinct namespaces `ns1` and `ns2`, with the
registry holding exactly `ns1.A` (a record with a field of type `ns2.B`) and
`ns2.B` (a record with a field of type `ns1.A`), visited in either order, and an
initially empty Cyclic Set, `ResolveCyclicDependencies` aborts with the fatal
error on the first entry: the chain it found has three elements whose first and
last names are equal, and both `ns1.A` and `ns2.B` are in the Cyclic Set at the
abort. -/
theorem ResolveCyclicDependencies_mutual_fatal (ns1 ns2 f1 f2 : String) (hne : ns1 ≠ ns2)
    (n : Nat) (loadedModels : List Model) (reg : Registry)
    (hreg : reg = [(⟨ns1, "A"⟩, ⟨0, f1⟩), (⟨ns2, "B"⟩, ⟨1, f2⟩)] ∨
      reg = [(⟨ns2, "B"⟩, ⟨1, f2⟩), (⟨ns1, "A"⟩, ⟨0, f1⟩)])
    (htrim : trimUnneededModels (mutualHeap ns1 ns2) (n + 2) loadedModels reg = some reg) :
    ∃ chain cyc,
      ResolveCyclicDependencies (mutualHeap ns1 ns2) (n + 2) loadedModels reg [] =
        some (reg, .fatal chain cyc) ∧
      chain.length = 3 ∧ chain.head?.map (·.Name) = chain.getLast?.map (·.Name) ∧
      (⟨ns1, "A"⟩ : Identifier) ∈ cyc ∧ (⟨ns2, "B"⟩ : Identifier) ∈ cyc := by
  obtain ⟨chain, cyc, hres, hrest⟩ := mutual_resolveLoop ns1 ns2 f1 f2 hne n reg hreg
  exact ⟨chain, cyc, by simp [ResolveCyclicDependencies, htrim, hres], hrest⟩

/-- C2, witness: namespaces `ns1` and `ns2`, the root list holding the model of
`ns1.A`, which prunes nothing. -/
theorem ResolveCyclicDependencies_mutual_fatal_witness :
    ∃ chain cyc,
      ResolveCyclicDependencies (mutualHeap "ns1" "ns2") 2 [⟨none, some 0⟩]
          [(⟨"ns1", "A"⟩, ⟨0, "a.pdsc"⟩), (⟨"ns2", "B"⟩, ⟨1, "b.pdsc"⟩)] [] =
        some ([(⟨"ns1", "A"⟩, ⟨0, "a.pdsc"⟩), (⟨"ns2", "B"⟩, ⟨1, "b.pdsc"⟩)],
          .fatal chain cyc) ∧
      chain.length = 3 ∧ chain.head?.map (·.Name) = chain.getLast?.map (·.Name) ∧
      (⟨"ns1", "A"⟩ : Identifier) ∈ cyc ∧ (⟨"ns2", "B"⟩ : Identifier) ∈ cyc :=
  ResolveCyclicDependencies_mutual_fatal "ns1" "ns2" "a.pdsc" "b.pdsc" (by decide) 0
    [⟨none, some 0⟩] _ (Or.inl rfl) (by decide)

/-- C2, counterexample: for `ns1.A` and `ns2.B` the run ends in the fatal abort
with the chain `ns1.A, ns2.B, ns1.A`, and for no recursion bound does it finish
normally. -/
theorem ResolveCyclicDependencies_mutual_not_done :
    ResolveCyclicDependencies (mutualHeap "ns1" "ns2") 2 [⟨none, some 0⟩]
        [(⟨"ns1", "A"⟩, ⟨0, "a.pdsc"⟩), (⟨"ns2", "B"⟩, ⟨1, "b.pdsc"⟩)] [] =
      some ([(⟨"ns1", "A"⟩, ⟨0, "a.pdsc"⟩), (⟨"ns2", "B"⟩, ⟨1, "b.pdsc"⟩)],
        .fatal [⟨"ns1", "A"⟩, ⟨"ns2", "B"⟩, ⟨"ns1", "A"⟩] [⟨"ns2", "B"⟩, ⟨"ns1", "A"⟩]) ∧
    ¬ ∃ fuel reg cyc,
      ResolveCyclicDependencies (mutualHeap "ns1" "ns2") fuel [⟨none, some 0⟩]
          [(⟨"ns1", "A"⟩, ⟨0, "a.pdsc"⟩), (⟨"ns2", "B"⟩, ⟨1, "b.pdsc"⟩)] [] =
        some (reg, .done cyc) := by
  refine ⟨by decide, ?_⟩
  rintro ⟨fuel, reg, cyc, h⟩
  match fuel with
  | 0 => simp [ResolveCyclicDependencies, trimUnneededModels, collectLoaded, allDependencies] at h
  | 1 =>
    simp [ResolveCyclicDependencies, trimUnneededModels, collectLoaded, allDependencies,
      allDependenciesLoop, Model.innerModels, mutualHeap] at h
  | n + 2 =>
    obtain ⟨chain, cyc1, hres, -⟩ :=
      mutual_resolveLoop "ns1" "ns2" "a.pdsc" "b.pdsc" (by decide) n _ (Or.inl rfl)
    simp [ResolveCyclicDependencies, mutual_trim, hres] at h

/-! ### Cycles inside one namespace -/

theorem traverseLoop_same_namespace (h : Heap) (S : Nat → Prop) (ns : String)
    (hns : ∀ p, S p → ∀ c, (h.model p).ComplexType = some c →
      (h.GetIdentifier c).Namespace = ns)
    (recur : Model → List Identifier → IdSet → IdSet → Option Traversal)
    (hrec : ∀ p path v c res, S p → (∀ i ∈ path, i.Namespace = ns) →
      recur (h.model p) path v c = some res →
      res.modelChain = [] ∧ res.CyclicModels = c)
    (path : List Identifier) (hpath : ∀ i ∈ path, i.Namespace = ns) :
    ∀ (ims : List Nat) (v c : IdSet) (res : Traversal), (∀ q ∈ ims, S q) →
      traverseLoop h recur path ims v c = some res →
      res.modelChain = [] ∧ res.CyclicModels = c := by
  intro ims
  induction ims with
  | nil =>
    intro v c res _ hres
    simp [traverseLoop] at hres
    subst hres
    exact ⟨rfl, rfl⟩
  | cons p rest ih =>
    intro v c res hS hres
    have hSp : S p := hS p (List.mem_cons_self _ _)
    have hSrest : ∀ q ∈ rest, S q := fun q hq => hS q (List.mem_cons_of_mem _ hq)
    unfold traverseLoop at hres
    simp only at hres
    split at hres
    · rename_i ct s0 prev hct hs0 hl
      have hidns := hns p hSp ct hct
      split at hres
      · exact ih v c res hSrest hres
      · split at hres
        · rename_i hdet
          exfalso
          have hprev : prev ∈ path := List.mem_of_getLast?_eq_some hl
          exact hdet.2 ((hpath prev hprev).trans hidns.symm)
        · have hpath1 : ∀ i ∈ path ++ [h.GetIdentifier ct], i.Namespace = ns := by
            intro i hi
            rcases List.mem_append.mp hi with hi | hi
            · exact hpath i hi
            · rw [List.mem_singleton.mp hi]; exact hidns
          split at hres
          · simp at hres
          · rename_i res1 hrc
            have h1 := hrec _ _ _ _ _ hSp hpath1 hrc
            split at hres
            · rename_i hne
              exact absurd h1.1 hne
            · have h2 := ih _ _ res hSrest hres
              exact ⟨h2.1, h2.2.trans h1.2⟩
    · split at hres
      · simp at hres
      · rename_i res1 hrc
        have h1 := hrec _ _ _ _ _ hSp hpath hrc
        split at hres
        · rename_i hne
          exact absurd h1.1 hne
        · have h2 := ih _ _ res hSrest hres
          exact ⟨h2.1, h2.2.trans h1.2⟩

theorem traverse_same_namespace (h : Heap) (S : Nat → Prop) (ns : String)
    (hclosed : ∀ p, S p → ∀ q ∈ (h.model p).innerModels h, S q)
    (hns : ∀ p, S p → ∀ c, (h.model p).ComplexType = some c →
      (h.GetIdentifier c).Namespace = ns) :
    ∀ (fuel : Nat) (m : Model) (path : List Identifier) (v c : IdSet) (res : Traversal),
      (∀ i ∈ path, i.Namespace = ns) →
      (∀ ct, path = [] → m.ComplexType = some ct → (h.GetIdentifier ct).Namespace = ns) →
      (∀ q ∈ m.innerModels h, S q) →
      traverseDependencyGraph h fuel m path v c = some res →
      res.modelChain = [] ∧ res.CyclicModels = c := by
  intro fuel
  induction fuel with
  | zero => intro m path v c res _ _ _ hres; simp [traverseDependencyGraph] at hres
  | succ F ih =>
    intro m path v c res hpath hroot hS hres
    unfold traverseDependencyGraph at hres
    simp only at hres
    refine traverseLoop_same_namespace h S ns hns _
      (fun p1 path1 v1 c1 res1 hS1 hp1 => ih (h.model p1) path1 v1 c1 res1 hp1
        (fun ct _ hct => hns p1 hS1 ct hct) (hclosed p1 hS1)) _ ?_ _ _ _ _ hS hres
    · cases path with
      | nil =>
        cases hc : m.ComplexType with
        | none => simp
        | some ct =>
          simp only [List.mem_singleton]
          intro i hi
          rw [hi]
          exact hroot ct rfl hc
      | cons a t => simpa using hpath

/-- C3 (amended): on a heap region where searches return (`Ranked`), for every
registered type `ns.A` from which only ComplexTypes of the namespace `ns` can be
reached (for example a record with a field of its own type) and every Cyclic
Set, the search from `ns.A` returns the empty chain and leaves the Cyclic Set as
it was, so the search loop that `ResolveCyclicDependencies` runs for `ns.A` ends
in its first round without the fatal error. -/
theorem detectLoop_same_namespace_done (h : Heap) (S : Nat → Prop) (ids : List Identifier)
    (rank : Nat → Nat) (R : Nat) (ns : String) (hR : Ranked h S ids rank R)
    (hns : ∀ p, S p → ∀ c, (h.model p).ComplexType = some c →
      (h.GetIdentifier c).Namespace = ns)
    (pdscModel : PdscModel) (hroot : ∀ q ∈ pdscModel.toModel.innerModels h, S q)
    (hrootns : (h.GetIdentifier pdscModel.Type_).Namespace = ns)
    (cyclic : IdSet) (fuel rounds : Nat) (hfuel : ids.length * (R + 2) + R + 2 ≤ fuel) :
    (∃ v, traverseDependencyGraph h fuel pdscModel.toModel [] [] cyclic =
      some ⟨[], v, cyclic⟩) ∧
    detectLoop h fuel pdscModel.toModel (rounds + 1) cyclic = some (.done cyclic) := by
  have hk : unvisited ids [] * (R + 2) + (R + 1) + 1 ≤ fuel := by
    have h1 : unvisited ids [] ≤ ids.length := List.countP_le_length _
    have h2 : unvisited ids [] * (R + 2) ≤ ids.length * (R + 2) :=
      Nat.mul_le_mul_right _ h1
    omega
  obtain ⟨res, hres, -⟩ := traverse_returns h S ids rank R hR fuel pdscModel.toModel [] []
    cyclic (R + 1) (Or.inr (by simp [PdscModel.toModel])) hroot
    (fun q hq _ => Nat.lt_succ_of_le (hR.rank_le q (hroot q hq))) hk
  have hshape := traverse_same_namespace h S ns hR.closed hns fuel pdscModel.toModel [] []
    cyclic res (by simp)
    (fun ct _ hct => by
      simp only [PdscModel.toModel, Option.some.injEq] at hct
      rw [← hct]; exact hrootns)
    hroot hres
  have hres2 : traverseDependencyGraph h fuel pdscModel.toModel [] [] cyclic =
      some ⟨[], res.visitedModels, cyclic⟩ := by
    rw [hres]
    obtain ⟨chain, v, cyc⟩ := res
    obtain ⟨h1, h2⟩ := hshape
    simp only at h1 h2
    subst h1 h2
    rfl
  refine ⟨⟨res.visitedModels, hres2⟩, ?_⟩
  simp [detectLoop, hres2]

/-- C3, witness: the self-referential record `ns.A`. -/
theorem detectLoop_same_namespace_done_witness :
    (∃ v, traverseDependencyGraph (selfHeap "ns" "A") 4
      (PdscModel.toModel ⟨0, "a.pdsc"⟩) [] [] [] = some ⟨[], v, []⟩) ∧
    detectLoop (selfHeap "ns" "A") 4 (PdscModel.toModel ⟨0, "a.pdsc"⟩) (0 + 1) [] =
      some (.done []) :=
  detectLoop_same_namespace_done (selfHeap "ns" "A") (fun _ => True) [⟨"ns", "A"⟩]
    (fun _ => 0) 0 "ns"
    ⟨fun _ _ _ _ => trivial, fun _ _ _ _ => by simp [selfHeap, Heap.GetIdentifier],
      fun _ _ => le_refl _, fun _ _ q _ hq => by simp [selfHeap] at hq⟩
    (fun _ _ _ _ => rfl) ⟨0, "a.pdsc"⟩ (fun _ _ => trivial) rfl [] 4 0 (by decide)

theorem self_resolve (ns name f : String) (n : Nat) :
    ResolveCyclicDependencies (selfHeap ns name) (n + 2) [⟨none, some 0⟩]
        [(⟨ns, name⟩, ⟨0, f⟩)] [] = some ([(⟨ns, name⟩, ⟨0, f⟩)], .done []) := by
  simp [ResolveCyclicDependencies, trimUnneededModels, collectLoaded, allDependencies,
    allDependenciesLoop, resolveLoop, detectLoop, traverseDependencyGraph, traverseLoop,
    PdscModel.toModel, Model.innerModels, selfHeap, Heap.GetIdentifier, markCyclic]

/-- C3, counterexample: the registry holding only the self-referential record
`ns.A`, whose dependencies lead back to `ns.A` inside the namespace `ns`: the
run finishes normally with an empty Cyclic Set, and for no recursion bound does
it end in the fatal abort. -/
theorem ResolveCyclicDependencies_self_reference_not_fatal :
    ResolveCyclicDependencies (selfHeap "ns" "A") 2 [⟨none, some 0⟩]
        [(⟨"ns", "A"⟩, ⟨0, "a.pdsc"⟩)] [] =
      some ([(⟨"ns", "A"⟩, ⟨0, "a.pdsc"⟩)], .done []) ∧
    ¬ ∃ fuel reg chain cyc,
      ResolveCyclicDependencies (selfHeap "ns" "A") fuel [⟨none, some 0⟩]
          [(⟨"ns", "A"⟩, ⟨0, "a.pdsc"⟩)] [] = some (reg, .fatal chain cyc) := by
  refine ⟨self_resolve "ns" "A" "a.pdsc" 0, ?_⟩
  rintro ⟨fuel, reg, chain, cyc, h⟩
  match fuel with
  | 0 => simp [ResolveCyclicDependencies, trimUnneededModels, collectLoaded, allDependencies] at h
  | 1 =>
    simp [ResolveCyclicDependencies, trimUnneededModels, collectLoaded, allDependencies,
      allDependenciesLoop, resolveLoop, detectLoop, traverseDependencyGraph, traverseLoop,
      PdscModel.toModel, Model.innerModels, selfHeap, Heap.GetIdentifier, markCyclic] at h
  | n + 2 => simp [self_resolve] at h

/-! ### Transitive infection -/

/-- C4, the code at the failing input: with the registry of `infectHeap` visited
in the order C, A, B, D, the run finishes normally (for every recursion bound
from 4 on) with the Cyclic Set `ns1.D, ns2.B, ns1.A`; `ns3.C` is left out of it
although `ns1.A`, which is in it, is in the dependency set of `ns3.C` and
reachable from it. -/
theorem ResolveCyclicDependencies_misses_dependent (n : Nat) :
    ResolveCyclicDependencies infectHeap (4 + n) [⟨none, some 0⟩] infectRegistry [] =
      some (infectRegistry, .done [⟨"ns1", "D"⟩, ⟨"ns2", "B"⟩, ⟨"ns1", "A"⟩]) ∧
    (⟨"ns3", "C"⟩ : Identifier) ∉ ([⟨"ns1", "D"⟩, ⟨"ns2", "B"⟩, ⟨"ns1", "A"⟩] : IdSet) ∧
    allDependencies infectHeap (4 + n) (PdscModel.toModel ⟨0, "c.pdsc"⟩) [] =
      some [3, 2, 1, 0] ∧
    Reachable infectHeap (PdscModel.toModel ⟨0, "c.pdsc"⟩) 1 := by
  refine ⟨ResolveCyclicDependencies_mono infectHeap 4 (4 + n) (by omega) _ _ _ _ (by decide),
    by decide, allDependencies_mono infectHeap 4 (4 + n) _ _ _ (by omega) (by decide),
    ⟨infectHeap.model 0, ?_, rfl⟩⟩
  exact .step _ 0 _ (by decide) (.refl _)

/-! ### The dependency set -/

/-- C5, the code at the failing input: for the record `ns.R` with fields of the
types `ns.X`, `ns.X`, `ns.Y`, `allDependencies` returns only `ns.X` and `ns.R`
(addresses 1 and 0): the second `ns.X` field ends the loop, and `ns.Y`
(address 2), reachable from `ns.R`, is not in the result.  In the same way, for
the record `ns.Node` with fields of the types `ns.Node`, `ns.Y` it returns only
`ns.Node` (address 0) and not the reachable `ns.Y` (address 1). -/
theorem allDependencies_break_misses_sibling (n : Nat) :
    allDependencies breakHeap (n + 2) ⟨none, some 0⟩ [] = some [1, 0] ∧
    Reachable breakHeap ⟨none, some 0⟩ 2 ∧ 2 ∉ [1, 0] ∧
    allDependencies nodeHeap (n + 1) ⟨none, some 0⟩ [] = some [0] ∧
    Reachable nodeHeap ⟨none, some 0⟩ 1 ∧ 1 ∉ [0] := by
  refine ⟨?_, ⟨breakHeap.model 2, ?_, rfl⟩, by decide, ?_, ⟨nodeHeap.model 1, ?_, rfl⟩,
    by decide⟩
  · simp [allDependencies, allDependenciesLoop, Model.innerModels, breakHeap]
  · exact .step _ 2 _ (by decide) (.refl _)
  · simp [allDependencies, allDependenciesLoop, Model.innerModels, nodeHeap]
  · exact .step _ 1 _ (by decide) (.refl _)

theorem Reachable.of_child (h : Heap) (m : Model) (p : Nat) (c : Nat)
    (hp : p ∈ m.innerModels h) (hc : Reachable h (h.model p) c) : Reachable h m c := by
  obtain ⟨m1, hm1, hct⟩ := hc
  exact ⟨m1, .step m p m1 hp hm1, hct⟩

theorem allDependenciesLoop_sound (h : Heap) (recur : Model → List Nat → Option (List Nat))
    (hrec : ∀ p types res, recur (h.model p) types = some res →
      ∀ c ∈ res, c ∈ types ∨ Reachable h (h.model p) c)
    (m : Model) :
    ∀ (ims : List Nat) (types res : List Nat), (∀ p ∈ ims, p ∈ m.innerModels h) →
      allDependenciesLoop h recur ims types = some res →
      ∀ c ∈ res, c ∈ types ∨ Reachable h m c := by
  intro ims
  induction ims with
  | nil =>
    intro types res _ hres c hc
    simp only [allDependenciesLoop, Option.some.injEq] at hres
    subst hres
    exact Or.inl hc
  | cons p rest ih =>
    intro types res hsub hres c hc
    have hp : p ∈ m.innerModels h := hsub p (List.mem_cons_self _ _)
    have hrest : ∀ q ∈ rest, q ∈ m.innerModels h :=
      fun q hq => hsub q (List.mem_cons_of_mem _ hq)
    unfold allDependenciesLoop at hres
    simp only at hres
    split at hres
    · rename_i ct hct
      split at hres
      · simp only [Option.some.injEq] at hres
        subst hres
        exact Or.inl hc
      · split at hres
        · simp at hres
        · rename_i types1 hrc
          rcases ih types1 res hrest hres c hc with h1 | h1
          · rcases hrec p _ _ hrc c h1 with h2 | h2
            · rcases List.mem_insert_iff.mp h2 with rfl | h3
              · exact Or.inr ⟨h.model p, .step m p _ hp (.refl _), hct⟩
              · exact Or.inl h3
            · exact Or.inr (Reachable.of_child h m p c hp h2)
          · exact Or.inr h1
    · split at hres
      · simp at hres
      · rename_i types1 hrc
        rcases ih types1 res hrest hres c hc with h1 | h1
        · rcases hrec p _ _ hrc c h1 with h2 | h2
          · exact Or.inl h2
          · exact Or.inr (Reachable.of_child h m p c hp h2)
        · exact Or.inr h1

theorem allDependencies_sound (h : Heap) :
    ∀ (fuel : Nat) (m : Model) (types res : List Nat),
      allDependencies h fuel m types = some res →
      ∀ c ∈ res, c ∈ types ∨ Reachable h m c := by
  intro fuel
  induction fuel with
  | zero => intro m types res hres; simp [allDependencies] at hres
  | succ n ih =>
    intro m types res hres c hc
    unfold allDependencies at hres
    simp only at hres
    rcases allDependenciesLoop_sound h _ (fun p t r => ih (h.model p) t r) m _ _ _
      (fun p hp => hp) hres c hc with h1 | h1
    · cases hm : m.ComplexType with
      | none => rw [hm] at h1; exact Or.inl h1
      | some c0 =>
        rw [hm] at h1
        rcases List.mem_insert_iff.mp h1 with rfl | h2
        · exact Or.inr ⟨m, .refl _, hm⟩
        · exact Or.inl h2
    · exact Or.inr h1

theorem allDependenciesLoop_grows (h : Heap) (recur : Model → List Nat → Option (List Nat))
    (hrec : ∀ m types res, recur m types = some res → ∀ c ∈ types, c ∈ res) :
    ∀ (ims : List Nat) (types res : List Nat),
      allDependenciesLoop h recur ims types = some res → ∀ c ∈ types, c ∈ res := by
  intro ims
  induction ims with
  | nil =>
    intro types res hres c hc
    simp only [allDependenciesLoop, Option.some.injEq] at hres
    subst hres
    exact hc
  | cons p rest ih =>
    intro types res hres c hc
    unfold allDependenciesLoop at hres
    simp only at hres
    split at hres
    · split at hres
      · simp only [Option.some.injEq] at hres
        subst hres
        exact hc
      · split at hres
        · simp at hres
        · rename_i types1 hrc
          exact ih types1 res hres c
            (hrec _ _ _ hrc c (List.mem_insert_iff.mpr (Or.inr hc)))
    · split at hres
      · simp at hres
      · rename_i types1 hrc
        exact ih types1 res hres c (hrec _ _ _ hrc c hc)

theorem allDependencies_grows (h : Heap) :
    ∀ (fuel : Nat) (m : Model) (types res : List Nat),
      allDependencies h fuel m types = some res →
      (∀ c ∈ types, c ∈ res) ∧ (∀ c, m.ComplexType = some c → c ∈ res) := by
  intro fuel
  induction fuel with
  | zero => intro m types res hres; simp [allDependencies] at hres
  | succ n ih =>
    intro m types res hres
    unfold allDependencies at hres
    simp only at hres
    have hg := allDependenciesLoop_grows h _ (fun m1 t r hr => (ih m1 t r hr).1) _ _ _ hres
    cases hm : m.ComplexType with
    | none =>
      rw [hm] at hg
      exact ⟨hg, fun c hc => by simp at hc⟩
    | some c0 =>
      rw [hm] at hg
      refine ⟨fun c hc => hg c (List.mem_insert_iff.mpr (Or.inr hc)), fun c hc => ?_⟩
      simp only [Option.some.injEq] at hc
      subst hc
      exact hg c0 (List.mem_insert_iff.mpr (Or.inl rfl))

theorem allDependenciesLoop_returns (h : Heap) (S : Nat → Prop) (cts : List Nat)
    (rank : Nat → Nat) (R : Nat) (hR : RankedTypes h S cts rank R)
    (recur : Model → List Nat → Option (List Nat)) (F : Nat)
    (hrec : ∀ p types r, S p → rank p ≤ r →
      unvisited cts types * (R + 2) + r + 1 ≤ F →
      ∃ res, recur (h.model p) types = some res ∧ ∀ c ∈ types, c ∈ res)
    (k r : Nat) (hF : k * (R + 2) + r ≤ F) :
    ∀ (ims : List Nat) (types : List Nat), (∀ q ∈ ims, S q) →
      (∀ q ∈ ims, (h.model q).ComplexType = none → rank q < r) →
      unvisited cts types ≤ k →
      ∃ res, allDependenciesLoop h recur ims types = some res ∧ ∀ c ∈ types, c ∈ res := by
  intro ims
  induction ims with
  | nil => intro types _ _ _; exact ⟨types, rfl, fun c hc => hc⟩
  | cons p rest ih =>
    intro types hS hrk hk
    have hSp : S p := hS p (List.mem_cons_self _ _)
    have hSrest : ∀ q ∈ rest, S q := fun q hq => hS q (List.mem_cons_of_mem _ hq)
    have hrkrest : ∀ q ∈ rest, (h.model q).ComplexType = none → rank q < r :=
      fun q hq => hrk q (List.mem_cons_of_mem _ hq)
    unfold allDependenciesLoop
    simp only
    split
    · rename_i ct hct
      split
      · exact ⟨types, rfl, fun c hc => hc⟩
      · rename_i hnot
        have hlt := unvisited_insert_lt cts types ct (hR.cts_mem p hSp ct hct) hnot
        have hfuel : unvisited cts (types.insert ct) * (R + 2) + R + 1 ≤ F := by
          have h1 : (unvisited cts (types.insert ct) + 1) * (R + 2) ≤ k * (R + 2) :=
            Nat.mul_le_mul_right _ (by omega)
          rw [Nat.add_mul] at h1
          omega
        obtain ⟨res1, hres1, hsub1⟩ := hrec p (types.insert ct) R hSp
          (hR.rank_le p hSp) hfuel
        have hsubt : ∀ c ∈ types, c ∈ res1 :=
          fun c hc => hsub1 c (List.mem_insert_iff.mpr (Or.inr hc))
        simp only [hres1]
        obtain ⟨res, hres, hsub⟩ := ih res1 hSrest hrkrest
          (le_trans (unvisited_mono cts types res1 hsubt) hk)
        exact ⟨res, hres, fun c hc => hsub c (hsubt c hc)⟩
    · rename_i hct
      have hfuel : unvisited cts types * (R + 2) + rank p + 1 ≤ F := by
        have h1 : unvisited cts types * (R + 2) ≤ k * (R + 2) := Nat.mul_le_mul_right _ hk
        have h2 := hrk p (List.mem_cons_self _ _) hct
        omega
      obtain ⟨res1, hres1, hsub1⟩ := hrec p types (rank p) hSp (le_refl _) hfuel
      simp only [hres1]
      obtain ⟨res, hres, hsub⟩ := ih res1 hSrest hrkrest
        (le_trans (unvisited_mono cts types res1 hsub1) hk)
      exact ⟨res, hres, fun c hc => hsub c (hsub1 c hc)⟩

theorem allDependencies_returns (h : Heap) (S : Nat → Prop) (cts : List Nat)
    (rank : Nat → Nat) (R : Nat) (hR : RankedTypes h S cts rank R) :
    ∀ (fuel : Nat) (m : Model) (types : List Nat) (r : Nat),
      (∀ q ∈ m.innerModels h, S q) →
      (∀ q ∈ m.innerModels h, (h.model q).ComplexType = none → rank q < r) →
      unvisited cts types * (R + 2) + r + 1 ≤ fuel →
      ∃ res, allDependencies h fuel m types = some res ∧ ∀ c ∈ types, c ∈ res := by
  intro fuel
  induction fuel with
  | zero => intro m types r _ _ hf; omega
  | succ F ih =>
    intro m types r hS hrk hf
    unfold allDependencies
    simp only
    obtain ⟨types1, htypes1⟩ : ∃ t, t = (match m.ComplexType with
        | some c => List.insert c types
        | none => types) := ⟨_, rfl⟩
    rw [← htypes1]
    have hsub : ∀ c ∈ types, c ∈ types1 := by
      intro c hc
      rw [htypes1]
      cases m.ComplexType with
      | none => exact hc
      | some c0 => exact List.mem_insert_iff.mpr (Or.inr hc)
    have hle := unvisited_mono cts types types1 hsub
    have hmul : unvisited cts types1 * (R + 2) ≤ unvisited cts types * (R + 2) :=
      Nat.mul_le_mul_right _ hle
    obtain ⟨res, hres, hsub2⟩ := allDependenciesLoop_returns h S cts rank R hR _ F
      (fun p t1 r1 hSp hr1 hf1 => ih (h.model p) t1 r1 (hR.closed p hSp)
        (fun q hq hqc => lt_of_lt_of_le (hR.rank_lt p hSp q hq hqc) hr1) hf1)
      (unvisited cts types1) r (by omega) (m.innerModels h) types1 hS hrk (le_refl _)
    exact ⟨res, hres, fun c hc => hsub2 c (hsub c hc)⟩

/-- X3: `allDependencies(m, nil)` returns on every heap region whose models
without a ComplexType form finite trees and whose ComplexTypes are finitely
many (`RankedTypes`); every member of the result is reachable from `m` through
`innerModels()`, and the ComplexType of `m` itself is in the result. -/
theorem allDependencies_returns_reachable (h : Heap) (S : Nat → Prop) (cts : List Nat)
    (rank : Nat → Nat) (R : Nat) (hR : RankedTypes h S cts rank R) (m : Model)
    (hroot : ∀ q ∈ m.innerModels h, S q) (fuel : Nat)
    (hfuel : cts.length * (R + 2) + R + 2 ≤ fuel) :
    ∃ res, allDependencies h fuel m [] = some res ∧
      (∀ c ∈ res, Reachable h m c) ∧ (∀ c, m.ComplexType = some c → c ∈ res) := by
  have hk : unvisited cts [] * (R + 2) + (R + 1) + 1 ≤ fuel := by
    have h1 : unvisited cts ([] : List Nat) ≤ cts.length := List.countP_le_length _
    have h2 : unvisited cts ([] : List Nat) * (R + 2) ≤ cts.length * (R + 2) :=
      Nat.mul_le_mul_right _ h1
    omega
  obtain ⟨res, hres, -⟩ := allDependencies_returns h S cts rank R hR fuel m [] (R + 1) hroot
    (fun q hq _ => Nat.lt_succ_of_le (hR.rank_le q (hroot q hq))) hk
  refine ⟨res, hres, fun c hc => ?_, (allDependencies_grows h fuel m [] res hres).2⟩
  rcases allDependencies_sound h fuel m [] res hres c hc with h1 | h1
  · simp at h1
  · exact h1

/-- X3, witness: the self-referential record `ns.A`. -/
theorem allDependencies_returns_reachable_witness :
    ∃ res, allDependencies (selfHeap "ns" "A") 4 ⟨none, some 0⟩ [] = some res ∧
      (∀ c ∈ res, Reachable (selfHeap "ns" "A") ⟨none, some 0⟩ c) ∧
      (∀ c, (⟨none, some 0⟩ : Model).ComplexType = some c → c ∈ res) :=
  allDependencies_returns_reachable (selfHeap "ns" "A") (fun _ => True) [0] (fun _ => 0) 0
    ⟨fun _ _ _ _ => trivial, fun _ _ c hc => by simp [selfHeap] at hc; simp [hc],
      fun _ _ => le_refl _, fun _ _ q _ hq => by simp [selfHeap] at hq⟩
    ⟨none, some 0⟩ (fun _ _ => trivial) 4 (by decide)

/-! ### Pruning the registry -/

/-- C6, the code at the failing input: with the one root `ns.R`, whose fields
have the types `ns.X`, `ns.X`, `ns.Y`, and the registry holding `ns.R`, `ns.X`,
`ns.Y` and the unrelated `ns.Z`, `trimUnneededModels` leaves only `ns.R` and
`ns.X`: `ns.Y`, which `ns.R` depends on, is removed with `ns.Z`. -/
theorem trimUnneededModels_break_prunes_dependency (n : Nat) :
    trimUnneededModels breakHeap (n + 2) [⟨none, some 0⟩]
        [(⟨"ns", "R"⟩, ⟨0, "r.pdsc"⟩), (⟨"ns", "X"⟩, ⟨1, "x.pdsc"⟩),
          (⟨"ns", "Y"⟩, ⟨2, "y.pdsc"⟩), (⟨"ns", "Z"⟩, ⟨3, "z.pdsc"⟩)] =
      some [(⟨"ns", "R"⟩, ⟨0, "r.pdsc"⟩), (⟨"ns", "X"⟩, ⟨1, "x.pdsc"⟩)] ∧
    Reachable breakHeap ⟨none, some 0⟩ 2 := by
  refine ⟨?_, ⟨breakHeap.model 2, ?_, rfl⟩⟩
  · have h1 : allDependencies breakHeap (n + 2) ⟨none, some 0⟩ [] = some [1, 0] := by
      simp [allDependencies, allDependenciesLoop, Model.innerModels, breakHeap]
    simp only [trimUnneededModels, collectLoaded, h1]
    decide
  · exact .step _ 2 _ (by decide) (.refl _)

theorem mem_foldl_insert {α : Type} (f : α → Identifier) (id : Identifier) :
    ∀ (l : List α) (s : IdSet),
      id ∈ l.foldl (fun loaded x => loaded.insert (f x)) s ↔ id ∈ s ∨ ∃ x ∈ l, id = f x := by
  intro l
  induction l with
  | nil => intro s; simp
  | cons a t ih =>
    intro s
    rw [List.foldl_cons, ih, List.mem_insert_iff]
    constructor
    · rintro ((h | h) | ⟨x, hx, h⟩)
      · exact Or.inr ⟨a, List.mem_cons_self _ _, h⟩
      · exact Or.inl h
      · exact Or.inr ⟨x, List.mem_cons_of_mem _ hx, h⟩
    · rintro (h | ⟨x, hx, h⟩)
      · exact Or.inl (Or.inr h)
      · rcases List.mem_cons.mp hx with rfl | hx
        · exact Or.inl (Or.inl h)
        · exact Or.inr ⟨x, hx, h⟩

theorem collectLoaded_mem (h : Heap) (fuel : Nat) (id : Identifier) :
    ∀ (models : List Model) (loaded0 loaded : IdSet),
      collectLoaded h fuel models loaded0 = some loaded →
      (id ∈ loaded ↔ id ∈ loaded0 ∨ ∃ m ∈ models, LoadedBy h fuel m id) := by
  intro models
  induction models with
  | nil =>
    intro loaded0 loaded hl
    simp only [collectLoaded, Option.some.injEq] at hl
    subst hl
    simp
  | cons m rest ih =>
    intro loaded0 loaded hl
    unfold collectLoaded at hl
    simp only at hl
    cases hdeps : allDependencies h fuel m [] with
    | none => simp [hdeps] at hl
    | some deps =>
      simp only [hdeps] at hl
      rw [ih _ _ hl, mem_foldl_insert]
      have hown : (id ∈ (match m.ComplexType with
            | some c => List.insert (h.GetIdentifier c) loaded0
            | none => loaded0)) ↔
          id ∈ loaded0 ∨ ∃ c, m.ComplexType = some c ∧ id = h.GetIdentifier c := by
        cases hc : m.ComplexType with
        | none => simp
        | some c =>
          simp only [List.mem_insert_iff, Option.some.injEq, exists_eq_left']
          exact or_comm
      rw [hown]
      constructor
      · rintro (((h0 | ⟨c, hc, hid⟩) | ⟨dep, hdep, hid⟩) | ⟨m1, hm1, hby⟩)
        · exact Or.inl h0
        · exact Or.inr ⟨m, List.mem_cons_self _ _, Or.inl ⟨c, hc, hid⟩⟩
        · exact Or.inr ⟨m, List.mem_cons_self _ _, Or.inr ⟨deps, dep, hdeps, hdep, hid⟩⟩
        · exact Or.inr ⟨m1, List.mem_cons_of_mem _ hm1, hby⟩
      · rintro (h0 | ⟨m1, hm1, hby⟩)
        · exact Or.inl (Or.inl (Or.inl h0))
        · rcases List.mem_cons.mp hm1 with rfl | hm1
          · rcases hby with ⟨c, hc, hid⟩ | ⟨deps1, dep, hd1, hdep, hid⟩
            · exact Or.inl (Or.inl (Or.inr ⟨c, hc, hid⟩))
            · rw [hdeps] at hd1
              cases hd1
              exact Or.inl (Or.inr ⟨dep, hdep, hid⟩)
          · exact Or.inr ⟨m1, hm1, hby⟩

/-- X1: `trimUnneededModels` removes exactly the entries whose Identifier is
neither a root's own ComplexType Identifier nor the Identifier of a member of
the set `allDependencies(m, nil)` computes for a root `m`; it adds no entry and
leaves the other entries, in their order, as they were. -/
theorem trimUnneededModels_keeps_exactly (h : Heap) (fuel : Nat) (models : List Model)
    (reg reg1 : Registry) (ht : trimUnneededModels h fuel models reg = some reg1) :
    reg1.Sublist reg ∧
    ∀ e, e ∈ reg1 ↔ e ∈ reg ∧ ∃ m ∈ models, LoadedBy h fuel m e.1 := by
  unfold trimUnneededModels at ht
  cases hl : collectLoaded h fuel models [] with
  | none => simp [hl] at ht
  | some loaded =>
    simp only [hl, Option.some.injEq] at ht
    subst ht
    refine ⟨List.filter_sublist _, fun e => ?_⟩
    rw [List.mem_filter, decide_eq_true_eq, collectLoaded_mem h fuel e.1 models [] loaded hl]
    simp

/-- X1, witness: the root `ns.R` of `breakHeap` and the registry holding `ns.R`
and the unrelated `ns.Z`. -/
theorem trimUnneededModels_keeps_exactly_witness :
    List.Sublist [((⟨"ns", "R"⟩ : Identifier), (⟨0, "r.pdsc"⟩ : PdscModel))]
      [(⟨"ns", "R"⟩, ⟨0, "r.pdsc"⟩), (⟨"ns", "Z"⟩, ⟨3, "z.pdsc"⟩)] ∧
    ∀ e, e ∈ [((⟨"ns", "R"⟩ : Identifier), (⟨0, "r.pdsc"⟩ : PdscModel))] ↔
      e ∈ [((⟨"ns", "R"⟩ : Identifier), (⟨0, "r.pdsc"⟩ : PdscModel)),
          (⟨"ns", "Z"⟩, ⟨3, "z.pdsc"⟩)] ∧
        ∃ m ∈ [(⟨none, some 0⟩ : Model)], LoadedBy breakHeap 2 m e.1 :=
  trimUnneededModels_keeps_exactly breakHeap 2 [⟨none, some 0⟩]
    [(⟨"ns", "R"⟩, ⟨0, "r.pdsc"⟩), (⟨"ns", "Z"⟩, ⟨3, "z.pdsc"⟩)]
    [(⟨"ns", "R"⟩, ⟨0, "r.pdsc"⟩)] (by decide)

/-! ### Loading with retries -/

theorem perm_pair_cases {α : Type} (a b : α) (l : List α) (hp : l.Perm [a, b]) :
    l = [a, b] ∨ l = [b, a] := by
  have hlen : l.length = 2 := by simpa using hp.length_eq
  match l, hlen with
  | [x, y], _ =>
    have hx : x ∈ [a, b] := hp.subset (by simp)
    have hy : y ∈ [a, b] := hp.subset (by simp)
    have ha : a ∈ [x, y] := hp.symm.subset (by simp)
    have hb : b ∈ [x, y] := hp.symm.subset (by simp)
    simp only [List.mem_cons, List.mem_singleton, List.not_mem_nil, or_false] at hx hy ha hb
    rcases hx with rfl | rfl
    · rcases hy with rfl | rfl
      · rcases hb with rfl | rfl <;> simp
      · simp
    · rcases hy with rfl | rfl
      · simp
      · rcases ha with rfl | rfl <;> simp

theorem retryLoop_forward_stuck (order : Nat → FailedFiles → FailedFiles)
    (horder : ∀ k l, (order k l).Perm l) (n k : Nat) (e : String) (loaded : List String) :
    retryLoop forwardRead order 2 n k [("b.pdsc", e)] loaded = none := by
  induction n generalizing e k loaded with
  | zero => rfl
  | succ m ih =>
    unfold retryLoop
    have h1 : order k [("b.pdsc", e)] = [("b.pdsc", e)] :=
      List.perm_singleton.mp (horder k _)
    simp [h1, retryPass, forwardRead, ih]

/-- C7, the code at the failing input: `a.pdsc` and `b.pdsc` fail the initial
pass, the first retry pass decodes `a.pdsc`, and from then on every pass leaves
the one file `b.pdsc` failing, whatever the order in which the passes visit the
map; the size 1 is compared with the size 2 taken before the loop, so
`LoadModels` returns for no bound on the number of passes. -/
theorem LoadModels_never_returns (order : Nat → FailedFiles → FailedFiles)
    (horder : ∀ k l, (order k l).Perm l) (fuel : Nat) :
    LoadModels forwardRead order fuel forwardWalk [] = none := by
  have hw : walkPass forwardRead forwardWalk [] [] =
      .ok (["c.pdsc"], [("a.pdsc", "a.pdsc: ns.X is not defined"),
        ("b.pdsc", "b.pdsc: ns.Missing is not defined")]) := by
    simp [walkPass, forwardWalk, forwardRead, FailedFiles.set]
  simp only [LoadModels, hw]
  cases fuel with
  | zero => rfl
  | succ m =>
    unfold retryLoop
    rcases perm_pair_cases _ _ _ (horder 0 [("a.pdsc", "a.pdsc: ns.X is not defined"),
        ("b.pdsc", "b.pdsc: ns.Missing is not defined")]) with h1 | h1
    · simp [h1, retryPass, forwardRead, retryLoop_forward_stuck order horder]
    · simp [h1, retryPass, forwardRead, retryLoop_forward_stuck order horder]

/-- C7, witness: the passes visit the map in the order of the walk; a bound of
five passes is not enough (nor is any other). -/
theorem LoadModels_never_returns_witness :
    LoadModels forwardRead (fun _ l => l) 5 forwardWalk [] = none :=
  LoadModels_never_returns (fun _ l => l) (fun _ _ => List.Perm.refl _) 5

theorem retryPass_state_cons {σ : Type} (read : σ → String → σ × Option String)
    (x : String × String) (rest : FailedFiles) (s : σ) :
    (retryPass read (x :: rest) s).1 = (retryPass read rest (read s x.1).1).1 := by
  obtain ⟨f, e⟩ := x
  rcases hr : read s f with ⟨s1, _ | err⟩ <;> simp [retryPass, hr]

theorem retryPass_all_fail {σ : Type} (read : σ → String → σ × Option String) :
    ∀ (failedFiles : FailedFiles) (s : σ),
      (∀ i (hi : i < failedFiles.length),
        (read (retryPass read (failedFiles.take i) s).1 (failedFiles.get ⟨i, hi⟩).1).2 ≠ none) →
      (retryPass read failedFiles s).2.map Prod.fst = failedFiles.map Prod.fst ∧
      ∀ i (hi : i < failedFiles.length), ∃ e,
        (retryPass read failedFiles s).2[i]? = some ((failedFiles.get ⟨i, hi⟩).1, e) ∧
        (read (retryPass read (failedFiles.take i) s).1 (failedFiles.get ⟨i, hi⟩).1).2 = some e := by
  intro failedFiles
  induction failedFiles with
  | nil => intro s _; exact ⟨rfl, fun i hi => absurd hi (by simp)⟩
  | cons x rest ih =>
    intro s hagain
    obtain ⟨f, e0⟩ := x
    have h0 := hagain 0 (by simp)
    simp only [List.take_zero, retryPass, List.get_eq_getElem, List.getElem_cons_zero] at h0
    rcases hr : read s f with ⟨s1, _ | err⟩
    · rw [hr] at h0; exact absurd rfl h0
    · have hrest : ∀ i (hi : i < rest.length),
          (read (retryPass read (rest.take i) s1).1 (rest.get ⟨i, hi⟩).1).2 ≠ none := by
        intro i hi
        have := hagain (i + 1) (by simp; omega)
        simp only [List.take_succ_cons, retryPass_state_cons, hr, List.get_eq_getElem,
          List.getElem_cons_succ] at this
        simpa using this
      obtain ⟨ih1, ih2⟩ := ih s1 hrest
      have hpass : retryPass read ((f, e0) :: rest) s =
          ((retryPass read rest s1).1, (f, err) :: (retryPass read rest s1).2) := by
        rw [retryPass]
        simp only [hr]
      refine ⟨by rw [hpass]; simp [ih1], ?_⟩
      intro i hi
      cases i with
      | zero =>
        refine ⟨err, by rw [hpass]; simp, ?_⟩
        simp [retryPass, hr]
      | succ j =>
        obtain ⟨e, he1, he2⟩ := ih2 j (by simpa using hi)
        refine ⟨e, ?_, ?_⟩
        · rw [hpass]
          simpa using he1
        · simp only [List.take_succ_cons, retryPass_state_cons, hr, List.get_eq_getElem,
            List.getElem_cons_succ]
          simpa using he2

/-- C8: when the walk succeeds, some file failed the initial pass, and every
file that failed it fails again when it is retried (in the state the retry pass
has reached by then, whatever the order `retried` in which the pass visits the
failed files), `LoadModels` returns the aggregate error after one retry pass (a
bound of one pass is enough, and the state is the one after that pass); the
error lists exactly those files, each with the error its retry gave. -/
theorem LoadModels_fails_after_one_pass {σ : Type} (read : σ → String → σ × Option String)
    (order : Nat → FailedFiles → FailedFiles)
    (walk : List WalkEntry) (s s1 : σ) (failedFiles retried : FailedFiles)
    (hwalk : walkPass read walk s [] = .ok (s1, failedFiles))
    (hne : failedFiles ≠ [])
    (horder : order 0 failedFiles = retried) (hperm : retried.Perm failedFiles)
    (hagain : ∀ i (hi : i < retried.length),
      (read (retryPass read (retried.take i) s1).1 (retried.get ⟨i, hi⟩).1).2 ≠ none)
    (fuel : Nat) :
    ∃ reported,
      LoadModels read order (fuel + 1) walk s =
        some (.failed reported (retryPass read retried s1).1) ∧
      reported.map Prod.fst = retried.map Prod.fst ∧
      (reported.map Prod.fst).Perm (failedFiles.map Prod.fst) ∧
      ∀ i (hi : i < retried.length), ∃ e,
        reported[i]? = some ((retried.get ⟨i, hi⟩).1, e) ∧
        (read (retryPass read (retried.take i) s1).1 (retried.get ⟨i, hi⟩).1).2 = some e := by
  obtain ⟨h1, h2⟩ := retryPass_all_fail read retried s1 hagain
  refine ⟨(retryPass read retried s1).2, ?_, h1, by rw [h1]; exact hperm.map _, h2⟩
  have hlen : (retryPass read retried s1).2.length = failedFiles.length := by
    have := congrArg List.length h1
    rw [List.length_map, List.length_map] at this
    rw [this]
    exact hperm.length_eq
  simp only [LoadModels, hwalk]
  cases failedFiles with
  | nil => exact absurd rfl hne
  | cons x rest =>
    rw [retryLoop]
    simp only [horder, hlen, if_true]

/-- C8, witness: one document that refers to a type defined nowhere. -/
theorem LoadModels_fails_after_one_pass_witness :
    ∃ reported,
      LoadModels missingRead (fun _ l => l) (0 + 1) [⟨"b.pdsc", false, none⟩] () =
        some (.failed reported
          (retryPass missingRead [("b.pdsc", "ns.Missing is not defined")] ()).1) ∧
      reported.map Prod.fst =
        List.map Prod.fst [("b.pdsc", "ns.Missing is not defined")] ∧
      (reported.map Prod.fst).Perm
        (List.map Prod.fst [("b.pdsc", "ns.Missing is not defined")]) ∧
      ∀ i (hi : i < [("b.pdsc", "ns.Missing is not defined")].length), ∃ e,
        reported[i]? =
          some (([("b.pdsc", "ns.Missing is not defined")].get ⟨i, hi⟩).1, e) ∧
        (missingRead
          (retryPass missingRead
            (List.take i [("b.pdsc", "ns.Missing is not defined")]) ()).1
          ([("b.pdsc", "ns.Missing is not defined")].get ⟨i, hi⟩).1).2 = some e :=
  LoadModels_fails_after_one_pass missingRead (fun _ l => l) [⟨"b.pdsc", false, none⟩] () ()
    [("b.pdsc", "ns.Missing is not defined")] [("b.pdsc", "ns.Missing is not defined")]
    (by simp [walkPass, missingRead, FailedFiles.set]) (by simp) rfl (List.Perm.refl _)
    (fun i hi => by simp [missingRead]) 0

/-! ### Registration -/

theorem Registry.get_append_new (reg : Registry) (id : Identifier) (x : PdscModel)
    (hnone : reg.get id = none) : Registry.get (reg ++ [(id, x)]) id = some x := by
  unfold Registry.get at hnone ⊢
  have hf : reg.find? (fun e => decide (e.1 = id)) = none := by
    cases hfind : reg.find? (fun e => decide (e.1 = id)) with
    | none => rfl
    | some e => rw [hfind] at hnone; simp at hnone
  simp [List.find?_append, hf]

theorem ModelCache_get_append_new (cache : models.ModelCache) (id : models.Identifier)
    (x : models.ComplexType) (hnone : cache.get id = none) :
    models.ModelCache.get (cache ++ [(id, x)]) id = some x := by
  unfold models.ModelCache.get at hnone ⊢
  have hf : cache.find? (fun e => decide (e.1 = id)) = none := by
    cases hfind : cache.find? (fun e => decide (e.1 = id)) with
    | none => rfl
    | some e => rw [hfind] at hnone; simp at hnone
  simp [List.find?_append, hf]

/-- C9: for every registry, every Identifier `id` with a non-empty namespace and
every two definitions `t1`, `t2` with that Identifier: when `id` is not yet
registered, registering `t1` from `f1` and then `t2` from `f2` leaves `id`
mapped to `t1` with the file `f1`, the second registration changing nothing;
registering under an Identifier that is already present changes nothing.  The
same holds of `Model.register` and the `ModelCache`. -/
theorem registerComplexType_first_wins (h : Heap) (reg : Registry) (id : Identifier)
    (t1 t2 : Nat) (f1 f2 : String) (hns : id.Namespace ≠ "")
    (h1 : h.GetIdentifier t1 = id) (h2 : h.GetIdentifier t2 = id) :
    (reg.get id = none →
      (registerComplexType h f2 (registerComplexType h f1 reg t1) t2).get id =
        some { Type_ := t1, File := f1 } ∧
      registerComplexType h f2 (registerComplexType h f1 reg t1) t2 =
        registerComplexType h f1 reg t1) ∧
    (reg.get id ≠ none → registerComplexType h f1 reg t1 = reg) ∧
    (∀ (cache : models.ModelCache) (m1 m2 : models.Model) (c1 c2 : models.ComplexType),
      m1.ComplexType = some c1 → m2.ComplexType = some c2 →
      c1.Identifier = c2.Identifier → c1.Identifier.Namespace ≠ "" →
      (cache.get c1.Identifier = none →
        (models.Model.register (models.Model.register cache m1) m2).get c1.Identifier =
          some c1 ∧
        models.Model.register (models.Model.register cache m1) m2 =
          models.Model.register cache m1) ∧
      (cache.get c1.Identifier ≠ none → models.Model.register cache m1 = cache)) := by
  refine ⟨fun hnone => ?_, fun hsome => ?_, ?_⟩
  · have hreg1 : registerComplexType h f1 reg t1 = reg ++ [(id, { Type_ := t1, File := f1 })] := by
      simp [registerComplexType, h1, hns, hnone]
    have hget := Registry.get_append_new reg id { Type_ := t1, File := f1 } hnone
    have hreg2 : registerComplexType h f2 (reg ++ [(id, { Type_ := t1, File := f1 })]) t2 =
        reg ++ [(id, { Type_ := t1, File := f1 })] := by
      simp [registerComplexType, h2, hget]
    rw [hreg1, hreg2]
    exact ⟨hget, rfl⟩
  · simp [registerComplexType, h1, hsome]
  · intro cache m1 m2 c1 c2 hm1 hm2 hid hns2
    refine ⟨fun hnone => ?_, fun hsome => ?_⟩
    · have hc1 : models.Model.register cache m1 = cache ++ [(c1.Identifier, c1)] := by
        simp [models.Model.register, hm1, hns2, hnone]
      have hget := ModelCache_get_append_new cache c1.Identifier c1 hnone
      have hc2 : models.Model.register (cache ++ [(c1.Identifier, c1)]) m2 =
          cache ++ [(c1.Identifier, c1)] := by
        simp [models.Model.register, hm2, ← hid, hget]
      rw [hc1, hc2]
      exact ⟨hget, rfl⟩
    · simp [models.Model.register, hm1, hsome]

/-- C9, witness: two definitions of `ns.A`, registered from `a.pdsc` and then
from `b.pdsc`, into the empty registry. -/
theorem registerComplexType_first_wins_witness :
    (registerComplexType (selfHeap "ns" "A") "b.pdsc"
        (registerComplexType (selfHeap "ns" "A") "a.pdsc" [] 0) 1).get ⟨"ns", "A"⟩ =
      some { Type_ := 0, File := "a.pdsc" } ∧
    registerComplexType (selfHeap "ns" "A") "b.pdsc"
        (registerComplexType (selfHeap "ns" "A") "a.pdsc" [] 0) 1 =
      registerComplexType (selfHeap "ns" "A") "a.pdsc" [] 0 :=
  (registerComplexType_first_wins (selfHeap "ns" "A") [] ⟨"ns", "A"⟩ 0 1 "a.pdsc" "b.pdsc"
    (by decide) rfl rfl).1 rfl

/-! ### The Cyclic Set -/

theorem mem_markCyclic (id : Identifier) (path : List Identifier) (c : IdSet) :
    id ∈ markCyclic path c ↔ id ∈ c ∨ id ∈ path := by
  unfold markCyclic
  rw [mem_foldl_insert (fun x => x) id path c]
  simp

theorem traverseLoop_marks (h : Heap)
    (recur : Model → List Identifier → IdSet → IdSet → Option Traversal)
    (hrec : ∀ m path v c r, recur m path v c = some r → MarksChain c r)
    (path : List Identifier) :
    ∀ (ims : List Nat) (v c : IdSet) (r : Traversal),
      traverseLoop h recur path ims v c = some r → MarksChain c r := by
  intro ims
  induction ims with
  | nil =>
    intro v c r hr
    simp only [traverseLoop, Option.some.injEq] at hr
    subst hr
    exact ⟨fun hne => absurd rfl hne, fun _ => rfl⟩
  | cons p rest ih =>
    intro v c r hr
    have hdescend : ∀ (path1 : List Identifier) (v1 : IdSet),
        (match recur (h.model p) path1 v1 c with
          | none => none
          | some r1 =>
            if r1.modelChain ≠ [] then some r1
            else traverseLoop h recur path rest r1.visitedModels r1.CyclicModels) = some r →
        MarksChain c r := by
      intro path1 v1 hd
      cases hrc : recur (h.model p) path1 v1 c with
      | none => simp [hrc] at hd
      | some r1 =>
        simp only [hrc] at hd
        have h1 := hrec _ _ _ _ _ hrc
        by_cases hne : r1.modelChain ≠ []
        · rw [if_pos hne] at hd
          cases hd
          exact h1
        · rw [if_neg hne] at hd
          have hc : r1.CyclicModels = c := h1.2 (by simpa using hne)
          rw [hc] at hd
          exact ih _ _ _ hd
    unfold traverseLoop at hr
    simp only at hr
    split at hr
    · rename_i ct s0 prev hct hs0 hl
      split at hr
      · exact ih _ _ _ hr
      · rename_i hskip
        split at hr
        · cases hr
          refine ⟨fun _ => ⟨rfl, h.GetIdentifier ct, by simp, ?_⟩, fun hnil => ?_⟩
          · exact fun hc => hskip (Or.inr hc)
          · simp at hnil
        · exact hdescend _ _ hr
    · exact hdescend _ _ hr

theorem traverseDependencyGraph_marks (h : Heap) :
    ∀ (fuel : Nat) (m : Model) (path : List Identifier) (v c : IdSet) (r : Traversal),
      traverseDependencyGraph h fuel m path v c = some r → MarksChain c r := by
  intro fuel
  induction fuel with
  | zero => intro m path v c r hr; simp [traverseDependencyGraph] at hr
  | succ n ih =>
    intro m path v c r hr
    unfold traverseDependencyGraph at hr
    exact traverseLoop_marks h _ (fun m1 p1 v1 c1 r1 => ih m1 p1 v1 c1 r1) _ _ _ _ _ hr

/-- C16: whenever `traverseDependencyGraph` returns a non-empty chain, the
Cyclic Set afterwards is the set before the call with every Identifier of the
chain marked, so every Identifier on the chain, the first and the last
included, is in it; when it returns an empty chain the Cyclic Set is the one
before the call. -/
theorem traverseDependencyGraph_marks_chain (h : Heap) (fuel : Nat) (m : Model)
    (path : List Identifier) (visited cyclic : IdSet) (r : Traversal)
    (hr : traverseDependencyGraph h fuel m path visited cyclic = some r) :
    (r.modelChain ≠ [] →
      r.CyclicModels = markCyclic r.modelChain cyclic ∧
      ∀ id ∈ r.modelChain, id ∈ r.CyclicModels) ∧
    (r.modelChain = [] → r.CyclicModels = cyclic) := by
  have hm := traverseDependencyGraph_marks h fuel m path visited cyclic r hr
  refine ⟨fun hne => ⟨(hm.1 hne).1, fun id hid => ?_⟩, hm.2⟩
  rw [(hm.1 hne).1]
  exact (mem_markCyclic id _ _).mpr (Or.inr hid)

/-- C16, witness: in `infectHeap` the search from `ns1.A` returns the chain
`ns1.A`, `ns2.B`, `ns1.D` and all three are in the Cyclic Set afterwards; the
search from the childless `ns1.D` returns no chain and leaves the set as it
was. -/
theorem traverseDependencyGraph_marks_chain_witness :
    traverseDependencyGraph infectHeap 8 ⟨none, some 1⟩ [] [] [⟨"ns9", "Z"⟩] =
      some ⟨[⟨"ns1", "A"⟩, ⟨"ns2", "B"⟩, ⟨"ns1", "D"⟩], [⟨"ns2", "B"⟩],
        [⟨"ns1", "D"⟩, ⟨"ns2", "B"⟩, ⟨"ns1", "A"⟩, ⟨"ns9", "Z"⟩]⟩ ∧
    (∀ id ∈ ([⟨"ns1", "A"⟩, ⟨"ns2", "B"⟩, ⟨"ns1", "D"⟩] : List Identifier),
      id ∈ ([⟨"ns1", "D"⟩, ⟨"ns2", "B"⟩, ⟨"ns1", "A"⟩, ⟨"ns9", "Z"⟩] : IdSet)) ∧
    traverseDependencyGraph infectHeap 8 ⟨none, some 3⟩ [] [] [⟨"ns9", "Z"⟩] =
      some ⟨[], [], [⟨"ns9", "Z"⟩]⟩ :=
  ⟨by decide,
    ((traverseDependencyGraph_marks_chain infectHeap 8 ⟨none, some 1⟩ [] [] [⟨"ns9", "Z"⟩]
      ⟨[⟨"ns1", "A"⟩, ⟨"ns2", "B"⟩, ⟨"ns1", "D"⟩], [⟨"ns2", "B"⟩],
        [⟨"ns1", "D"⟩, ⟨"ns2", "B"⟩, ⟨"ns1", "A"⟩, ⟨"ns9", "Z"⟩]⟩ (by decide)).1
      (by decide)).2,
    by decide⟩

theorem traverse_cyclic_grows (h : Heap) (fuel : Nat) (m : Model)
    (path : List Identifier) (visited cyclic : IdSet) (r : Traversal)
    (hr : traverseDependencyGraph h fuel m path visited cyclic = some r) :
    ∀ id ∈ cyclic, id ∈ r.CyclicModels := by
  have hm := traverseDependencyGraph_marks h fuel m path visited cyclic r hr
  intro id hid
  by_cases hne : r.modelChain ≠ []
  · rw [(hm.1 hne).1]
    exact (mem_markCyclic id _ _).mpr (Or.inl hid)
  · rw [hm.2 (by simpa using hne)]
    exact hid

theorem detectLoop_cyclic_grows (h : Heap) (fuel : Nat) (m : Model) :
    ∀ (rounds : Nat) (cyclic : IdSet) (out : Outcome),
      detectLoop h fuel m rounds cyclic = some out →
      ∀ id ∈ cyclic, id ∈ out.CyclicModels := by
  intro rounds
  induction rounds with
  | zero => intro cyclic out hd; simp [detectLoop] at hd
  | succ n ih =>
    intro cyclic out hd id hid
    unfold detectLoop at hd
    cases ht : traverseDependencyGraph h fuel m [] [] cyclic with
    | none => simp [ht] at hd
    | some r =>
      simp only [ht] at hd
      have hg := traverse_cyclic_grows h fuel m [] [] cyclic r ht id hid
      split at hd
      · split at hd
        · cases hd
          exact hg
        · exact ih _ _ hd id hg
      · cases hd
        exact hg

theorem resolveLoop_cyclic_grows (h : Heap) (fuel : Nat) :
    ∀ (reg : Registry) (cyclic : IdSet) (out : Outcome),
      resolveLoop h fuel reg cyclic = some out →
      ∀ id ∈ cyclic, id ∈ out.CyclicModels := by
  intro reg
  induction reg with
  | nil =>
    intro cyclic out hr id hid
    simp only [resolveLoop, Option.some.injEq] at hr
    subst hr
    exact hid
  | cons e rest ih =>
    intro cyclic out hr id hid
    obtain ⟨eid, pdscModel⟩ := e
    unfold resolveLoop at hr
    simp only at hr
    cases hd : detectLoop h fuel pdscModel.toModel fuel cyclic with
    | none => simp [hd] at hr
    | some o =>
      simp only [hd] at hr
      have hg := detectLoop_cyclic_grows h fuel _ fuel cyclic o hd id hid
      cases o with
      | fatal chain cyc =>
        simp only [Option.some.injEq] at hr
        subst hr
        exact hg
      | done cyc =>
        simp only at hr
        cases ha : allDependencies h fuel pdscModel.toModel [] with
        | none => simp [ha] at hr
        | some deps =>
          simp only [ha] at hr
          refine ih _ _ hr id ?_
          split
          · exact (mem_markCyclic id _ _).mpr (Or.inl hg)
          · exact hg

/-- C17: the Cyclic Set only grows.  An Identifier `id` that is in the
Cyclic Set before a call of `traverseDependencyGraph` (any model, path and
visited set) is in it when the call returns, and one that is in it before a
run of `ResolveCyclicDependencies` (any roots and registry) is in it when the
run ends, normally or in the fatal abort. -/
theorem CyclicModels_only_grows (h : Heap) (fuel : Nat) (id : Identifier) (cyclic : IdSet)
    (hid : id ∈ cyclic) :
    (∀ (m : Model) (path : List Identifier) (visited : IdSet) (r : Traversal),
      traverseDependencyGraph h fuel m path visited cyclic = some r → id ∈ r.CyclicModels) ∧
    (∀ (loadedModels : List Model) (reg reg1 : Registry) (out : Outcome),
      ResolveCyclicDependencies h fuel loadedModels reg cyclic = some (reg1, out) →
      id ∈ out.CyclicModels) := by
  refine ⟨fun m path visited r hr => traverse_cyclic_grows h fuel m path visited cyclic r hr id hid,
    fun loadedModels reg reg1 out hr => ?_⟩
  unfold ResolveCyclicDependencies at hr
  cases ht : trimUnneededModels h fuel loadedModels reg with
  | none => simp [ht] at hr
  | some reg2 =>
    simp only [ht] at hr
    cases hl : resolveLoop h fuel reg2 cyclic with
    | none => simp [hl] at hr
    | some out2 =>
      simp only [hl, Option.some.injEq, Prod.mk.injEq] at hr
      obtain ⟨-, rfl⟩ := hr
      exact resolveLoop_cyclic_grows h fuel reg2 cyclic out2 hl id hid

/-- C17, witness: `ns9.Z`, marked beforehand, is still marked after the search
from `ns1.A` in `infectHeap` and after the whole run over `infectRegistry`. -/
theorem CyclicModels_only_grows_witness :
    (⟨"ns9", "Z"⟩ : Identifier) ∈
      ([⟨"ns1", "D"⟩, ⟨"ns2", "B"⟩, ⟨"ns1", "A"⟩, ⟨"ns9", "Z"⟩] : IdSet) ∧
    (⟨"ns9", "Z"⟩ : Identifier) ∈
      (Outcome.done [⟨"ns1", "D"⟩, ⟨"ns2", "B"⟩, ⟨"ns1", "A"⟩, ⟨"ns9", "Z"⟩]).CyclicModels :=
  ⟨(CyclicModels_only_grows infectHeap 8 ⟨"ns9", "Z"⟩ [⟨"ns9", "Z"⟩] (by decide)).1
      ⟨none, some 1⟩ [] []
      ⟨[⟨"ns1", "A"⟩, ⟨"ns2", "B"⟩, ⟨"ns1", "D"⟩], [⟨"ns2", "B"⟩],
        [⟨"ns1", "D"⟩, ⟨"ns2", "B"⟩, ⟨"ns1", "A"⟩, ⟨"ns9", "Z"⟩]⟩ (by decide),
    (CyclicModels_only_grows infectHeap 8 ⟨"ns9", "Z"⟩ [⟨"ns9", "Z"⟩] (by decide)).2
      [⟨none, some 1⟩] infectRegistry
      [(⟨"ns1", "A"⟩, ⟨1, "a.pdsc"⟩), (⟨"ns2", "B"⟩, ⟨2, "b.pdsc"⟩),
        (⟨"ns1", "D"⟩, ⟨3, "d.pdsc"⟩)]
      (.done [⟨"ns1", "D"⟩, ⟨"ns2", "B"⟩, ⟨"ns1", "A"⟩, ⟨"ns9", "Z"⟩]) (by decide)⟩

/-! ### Detections for one root -/

theorem traverseLoop_last_mem (h : Heap) (S : Nat → Prop) (ids : List Identifier)
    (hids : ∀ p, S p → ∀ c, (h.model p).ComplexType = some c → h.GetIdentifier c ∈ ids)
    (recur : Model → List Identifier → IdSet → IdSet → Option Traversal)
    (hrec : ∀ p path v c r, S p → recur (h.model p) path v c = some r →
      r.modelChain ≠ [] → ∃ last, r.modelChain.getLast? = some last ∧ last ∈ ids)
    (path : List Identifier) :
    ∀ (ims : List Nat) (v c : IdSet) (r : Traversal), (∀ q ∈ ims, S q) →
      traverseLoop h recur path ims v c = some r → r.modelChain ≠ [] →
      ∃ last, r.modelChain.getLast? = some last ∧ last ∈ ids := by
  intro ims
  induction ims with
  | nil =>
    intro v c r _ hr hne
    simp only [traverseLoop, Option.some.injEq] at hr
    subst hr
    exact absurd rfl hne
  | cons p rest ih =>
    intro v c r hS hr hne
    have hSp : S p := hS p (List.mem_cons_self _ _)
    have hSrest : ∀ q ∈ rest, S q := fun q hq => hS q (List.mem_cons_of_mem _ hq)
    have hdescend : ∀ (path1 : List Identifier) (v1 : IdSet),
        (match recur (h.model p) path1 v1 c with
          | none => none
          | some r1 =>
            if r1.modelChain ≠ [] then some r1
            else traverseLoop h recur path rest r1.visitedModels r1.CyclicModels) = some r →
        ∃ last, r.modelChain.getLast? = some last ∧ last ∈ ids := by
      intro path1 v1 hd
      cases hrc : recur (h.model p) path1 v1 c with
      | none => simp [hrc] at hd
      | some r1 =>
        simp only [hrc] at hd
        by_cases hne1 : r1.modelChain ≠ []
        · rw [if_pos hne1] at hd
          cases hd
          exact hrec _ _ _ _ _ hSp hrc hne1
        · rw [if_neg hne1] at hd
          exact ih _ _ _ hSrest hd hne
    unfold traverseLoop at hr
    simp only at hr
    split at hr
    · rename_i ct s0 prev hct hs0 hl
      split at hr
      · exact ih _ _ _ hSrest hr hne
      · split at hr
        · cases hr
          exact ⟨h.GetIdentifier ct, by simp, hids p hSp ct hct⟩
        · exact hdescend _ _ hr
    · exact hdescend _ _ hr

theorem traverse_last_mem (h : Heap) (S : Nat → Prop) (ids : List Identifier)
    (hclosed : ∀ p, S p → ∀ q ∈ (h.model p).innerModels h, S q)
    (hids : ∀ p, S p → ∀ c, (h.model p).ComplexType = some c → h.GetIdentifier c ∈ ids) :
    ∀ (fuel : Nat) (m : Model) (path : List Identifier) (v c : IdSet) (r : Traversal),
      (∀ q ∈ m.innerModels h, S q) →
      traverseDependencyGraph h fuel m path v c = some r → r.modelChain ≠ [] →
      ∃ last, r.modelChain.getLast? = some last ∧ last ∈ ids := by
  intro fuel
  induction fuel with
  | zero => intro m path v c r _ hr; simp [traverseDependencyGraph] at hr
  | succ n ih =>
    intro m path v c r hS hr hne
    unfold traverseDependencyGraph at hr
    exact traverseLoop_last_mem h S ids hids _
      (fun p path1 v1 c1 r1 hSp => ih (h.model p) path1 v1 c1 r1 (hclosed p hSp))
      _ _ _ _ _ hS hr hne

theorem detectLoop_returns (h : Heap) (S : Nat → Prop) (ids : List Identifier)
    (rank : Nat → Nat) (R : Nat) (hR : Ranked h S ids rank R) (m : Model) (c0 : Nat)
    (hm : m.ComplexType = some c0) (hroot : ∀ q ∈ m.innerModels h, S q) (fuel : Nat)
    (hfuel : ids.length * (R + 2) + R + 2 ≤ fuel) :
    ∀ (k : Nat) (cyclic : IdSet), unvisited ids cyclic ≤ k →
      ∃ out, detectLoop h fuel m (k + 1) cyclic = some out := by
  have hk : unvisited ids ([] : IdSet) * (R + 2) + (R + 1) + 1 ≤ fuel := by
    have h1 : unvisited ids ([] : IdSet) ≤ ids.length := List.countP_le_length _
    have h2 : unvisited ids ([] : IdSet) * (R + 2) ≤ ids.length * (R + 2) :=
      Nat.mul_le_mul_right _ h1
    omega
  intro k
  induction k with
  | zero =>
    intro cyclic hle
    obtain ⟨r, hr, -⟩ := traverse_returns h S ids rank R hR fuel m [] [] cyclic (R + 1)
      (Or.inr (by simp [hm])) hroot
      (fun q hq _ => Nat.lt_succ_of_le (hR.rank_le q (hroot q hq))) hk
    have hmk := traverseDependencyGraph_marks h fuel m [] [] cyclic r hr
    unfold detectLoop
    simp only [hr]
    split
    · rename_i first last hfirst hlast
      exfalso
      have hne : r.modelChain ≠ [] := by
        intro hnil; rw [hnil] at hfirst; simp at hfirst
      obtain ⟨l1, hl1, hl1ids⟩ := traverse_last_mem h S ids hR.closed hR.ids_mem fuel m [] []
        cyclic r hroot hr hne
      obtain ⟨-, l2, hl2, hl2c⟩ := hmk.1 hne
      rw [hl1] at hl2
      cases hl2
      have := unvisited_insert_lt ids cyclic l1 hl1ids hl2c
      omega
    · exact ⟨_, rfl⟩
  | succ k ih =>
    intro cyclic hle
    obtain ⟨r, hr, -⟩ := traverse_returns h S ids rank R hR fuel m [] [] cyclic (R + 1)
      (Or.inr (by simp [hm])) hroot
      (fun q hq _ => Nat.lt_succ_of_le (hR.rank_le q (hroot q hq))) hk
    have hmk := traverseDependencyGraph_marks h fuel m [] [] cyclic r hr
    unfold detectLoop
    simp only [hr]
    split
    · rename_i first last hfirst hlast
      have hne : r.modelChain ≠ [] := by
        intro hnil; rw [hnil] at hfirst; simp at hfirst
      obtain ⟨l1, hl1, hl1ids⟩ := traverse_last_mem h S ids hR.closed hR.ids_mem fuel m [] []
        cyclic r hroot hr hne
      obtain ⟨hcyc, l2, hl2, hl2c⟩ := hmk.1 hne
      rw [hl1] at hl2
      cases hl2
      split
      · exact ⟨_, rfl⟩
      · refine ih r.CyclicModels ?_
        have hlt := unvisited_insert_lt ids cyclic l1 hl1ids hl2c
        have hmono : unvisited ids r.CyclicModels ≤ unvisited ids (cyclic.insert l1) := by
          apply unvisited_mono
          intro i hi
          rw [hcyc]
          rcases List.mem_insert_iff.mp hi with rfl | hi
          · exact (mem_markCyclic _ _ _).mpr (Or.inr (List.mem_of_getLast?_eq_some hl1))
          · exact (mem_markCyclic _ _ _).mpr (Or.inl hi)
        omega
    · exact ⟨_, rfl⟩

/-- C19: a non-empty chain returned by `traverseDependencyGraph` ends in an
Identifier that was not in the Cyclic Set before the call and is in it
afterwards, with everything that was in it, so each detection strictly enlarges
the set.  Consequently, on a finite region of the heap (`Ranked`, the
Identifiers reachable from the root all in the list `ids`), the loop of
`ResolveCyclicDependencies` for the root `m` ends, normally or in the fatal
abort, within `unvisited ids cyclic + 1` searches: at most `unvisited ids
cyclic` of them, which is at most the number of Identifiers in `ids`, are
non-fatal detections. -/
theorem detectLoop_detections_bounded (h : Heap) (S : Nat → Prop) (ids : List Identifier)
    (rank : Nat → Nat) (R : Nat) (hR : Ranked h S ids rank R) (m : Model) (c0 : Nat)
    (hm : m.ComplexType = some c0) (hroot : ∀ q ∈ m.innerModels h, S q) (fuel : Nat)
    (hfuel : ids.length * (R + 2) + R + 2 ≤ fuel) (cyclic : IdSet) :
    (∀ (path : List Identifier) (visited : IdSet) (r : Traversal),
      traverseDependencyGraph h fuel m path visited cyclic = some r → r.modelChain ≠ [] →
      ∃ last, r.modelChain.getLast? = some last ∧ last ∉ cyclic ∧ last ∈ r.CyclicModels ∧
        ∀ id ∈ cyclic, id ∈ r.CyclicModels) ∧
    unvisited ids cyclic ≤ ids.length ∧
    ∃ out, detectLoop h fuel m (unvisited ids cyclic + 1) cyclic = some out := by
  refine ⟨fun path visited r hr hne => ?_, List.countP_le_length _,
    detectLoop_returns h S ids rank R hR m c0 hm hroot fuel hfuel _ cyclic (le_refl _)⟩
  have hmk := traverseDependencyGraph_marks h fuel m path visited cyclic r hr
  obtain ⟨hcyc, last, hlast, hnot⟩ := hmk.1 hne
  refine ⟨last, hlast, hnot, ?_, fun id hid => ?_⟩
  · rw [hcyc]
    exact (mem_markCyclic _ _ _).mpr (Or.inr (List.mem_of_getLast?_eq_some hlast))
  · rw [hcyc]
    exact (mem_markCyclic _ _ _).mpr (Or.inl hid)

theorem infectHeap_ranked :
    Ranked infectHeap (fun _ => True) [⟨"ns1", "A"⟩, ⟨"ns2", "B"⟩, ⟨"ns1", "D"⟩]
      (fun _ => 0) 0 := by
  refine ⟨fun _ _ _ _ => trivial, fun p _ c hc => ?_, fun _ _ => le_refl _,
    fun p _ q _ hq => ?_⟩
  · match p with
    | 0 => cases hc; decide
    | 1 => cases hc; decide
    | n + 2 => cases hc; decide
  · match q with
    | 0 => cases hq
    | 1 => cases hq
    | n + 2 => cases hq

/-- C19, witness: in `infectHeap` three Identifiers are reachable from `ns1.A`;
the loop for that root ends within four searches, in fact after the second:
the first finds the chain `ns1.A`, `ns2.B`, `ns1.D`, the second finds none. -/
theorem detectLoop_detections_bounded_witness :
    (∃ out, detectLoop infectHeap 8 ⟨none, some 1⟩
      (unvisited [⟨"ns1", "A"⟩, ⟨"ns2", "B"⟩, ⟨"ns1", "D"⟩] ([] : IdSet) + 1) [] = some out) ∧
    detectLoop infectHeap 8 ⟨none, some 1⟩ 2 [] =
      some (.done [⟨"ns1", "D"⟩, ⟨"ns2", "B"⟩, ⟨"ns1", "A"⟩]) ∧
    detectLoop infectHeap 8 ⟨none, some 1⟩ 1 [] = none :=
  ⟨(detectLoop_detections_bounded infectHeap (fun _ => True)
      [⟨"ns1", "A"⟩, ⟨"ns2", "B"⟩, ⟨"ns1", "D"⟩] (fun _ => 0) 0 infectHeap_ranked
      ⟨none, some 1⟩ 1 rfl (fun _ _ => trivial) 8 (by decide) []).2.2,
    by decide, by decide⟩

/-! ### Order of the registry -/

/-- C20: with `ns3.C` the only root, the run over `infectRegistry` (order C, A,
B, D) and the run over the same entries in the reverse order both end without
the fatal abort, for every recursion bound from 4 on, and their final Cyclic
Sets differ: `ns3.C` is marked in the second run only. -/
theorem ResolveCyclicDependencies_depends_on_order (n : Nat) :
    ResolveCyclicDependencies infectHeap (4 + n) [⟨none, some 0⟩] infectRegistry [] =
      some (infectRegistry, .done [⟨"ns1", "D"⟩, ⟨"ns2", "B"⟩, ⟨"ns1", "A"⟩]) ∧
    ResolveCyclicDependencies infectHeap (4 + n) [⟨none, some 0⟩] infectRegistry.reverse [] =
      some (infectRegistry.reverse,
        .done [⟨"ns3", "C"⟩, ⟨"ns1", "D"⟩, ⟨"ns2", "B"⟩, ⟨"ns1", "A"⟩]) ∧
    infectRegistry.reverse.Perm infectRegistry ∧
    (⟨"ns3", "C"⟩ : Identifier) ∉ ([⟨"ns1", "D"⟩, ⟨"ns2", "B"⟩, ⟨"ns1", "A"⟩] : IdSet) ∧
    (⟨"ns3", "C"⟩ : Identifier) ∈
      ([⟨"ns3", "C"⟩, ⟨"ns1", "D"⟩, ⟨"ns2", "B"⟩, ⟨"ns1", "A"⟩] : IdSet) := by
  refine ⟨ResolveCyclicDependencies_mono infectHeap 4 (4 + n) (by omega) _ _ _ _ (by decide),
    ResolveCyclicDependencies_mono infectHeap 4 (4 + n) (by omega) _ _ _ _ (by decide),
    List.reverse_perm _, by decide, by decide⟩

/-! ### What registration leaves alone -/

theorem Registry.get_append_other (reg : Registry) (id id1 : Identifier) (x : PdscModel)
    (hne : id1 ≠ id) : Registry.get (reg ++ [(id, x)]) id1 = reg.get id1 := by
  unfold Registry.get
  rw [List.find?_append]
  cases hfind : reg.find? (fun e => decide (e.1 = id1)) with
  | some e => simp
  | none => simp [Ne.symm hne]

theorem ModelCache_get_append_other (cache : models.ModelCache) (id id1 : models.Identifier)
    (x : models.ComplexType) (hne : id1 ≠ id) :
    models.ModelCache.get (cache ++ [(id, x)]) id1 = cache.get id1 := by
  unfold models.ModelCache.get
  rw [List.find?_append]
  cases hfind : cache.find? (fun e => decide (e.1 = id1)) with
  | some e => simp
  | none => simp [Ne.symm hne]

/-- C18: for every registry and every ComplexType `t` whose Identifier has an
empty namespace, `registerComplexType` leaves the registry as it is; when the
namespace is not empty and the Identifier is absent, the registry afterwards is
the old one with one entry added, `t` with the current source file under its
Identifier, and every other Identifier reads as before.  The same holds of
`Model.register` and the `ModelCache`, for a model holding the ComplexType
`c`. -/
theorem registerComplexType_frame (h : Heap) (reg : Registry) (t : Nat) (currentFile : String)
    (cache : models.ModelCache) (m : models.Model) (c : models.ComplexType)
    (hm : m.ComplexType = some c) :
    ((h.GetIdentifier t).Namespace = "" → registerComplexType h currentFile reg t = reg) ∧
    ((h.GetIdentifier t).Namespace ≠ "" → reg.get (h.GetIdentifier t) = none →
      registerComplexType h currentFile reg t =
        reg ++ [(h.GetIdentifier t, { Type_ := t, File := currentFile })] ∧
      (registerComplexType h currentFile reg t).get (h.GetIdentifier t) =
        some { Type_ := t, File := currentFile } ∧
      ∀ id, id ≠ h.GetIdentifier t →
        (registerComplexType h currentFile reg t).get id = reg.get id) ∧
    (c.Identifier.Namespace = "" → m.register cache = cache) ∧
    (c.Identifier.Namespace ≠ "" → cache.get c.Identifier = none →
      m.register cache = cache ++ [(c.Identifier, c)] ∧
      (m.register cache).get c.Identifier = some c ∧
      ∀ id, id ≠ c.Identifier → (m.register cache).get id = cache.get id) := by
  refine ⟨fun hns => ?_, fun hns hnone => ?_, fun hns => ?_, fun hns hnone => ?_⟩
  · simp [registerComplexType, hns]
  · have hreg : registerComplexType h currentFile reg t =
        reg ++ [(h.GetIdentifier t, { Type_ := t, File := currentFile })] := by
      simp [registerComplexType, hns, hnone]
    rw [hreg]
    exact ⟨rfl, Registry.get_append_new reg _ _ hnone,
      fun id hid => Registry.get_append_other reg _ id _ hid⟩
  · simp [models.Model.register, hm, hns]
  · have hreg : m.register cache = cache ++ [(c.Identifier, c)] := by
      simp [models.Model.register, hm, hns, hnone]
    rw [hreg]
    exact ⟨rfl, ModelCache_get_append_new cache _ _ hnone,
      fun id hid => ModelCache_get_append_other cache _ id _ hid⟩

/-- C18, witness: registering `A` without a namespace changes nothing;
registering `ns.A` from `a.pdsc` into `infectRegistry`, and into the empty
`ModelCache`, adds that one entry. -/
theorem registerComplexType_frame_witness :
    registerComplexType (selfHeap "" "A") "a.pdsc" infectRegistry 0 = infectRegistry ∧
    registerComplexType (selfHeap "ns" "A") "a.pdsc" infectRegistry 0 =
      infectRegistry ++ [(⟨"ns", "A"⟩, { Type_ := 0, File := "a.pdsc" })] ∧
    models.Model.register [] (.mk (some ⟨⟨"ns", "A"⟩, 0⟩) "ns" none []) =
      [(⟨"ns", "A"⟩, ⟨⟨"ns", "A"⟩, 0⟩)] :=
  ⟨(registerComplexType_frame (selfHeap "" "A") infectRegistry 0 "a.pdsc" []
      (.mk (some ⟨⟨"ns", "A"⟩, 0⟩) "ns" none []) ⟨⟨"ns", "A"⟩, 0⟩ rfl).1 rfl,
    ((registerComplexType_frame (selfHeap "ns" "A") infectRegistry 0 "a.pdsc" []
      (.mk (some ⟨⟨"ns", "A"⟩, 0⟩) "ns" none []) ⟨⟨"ns", "A"⟩, 0⟩ rfl).2.1
      (by decide) (by decide)).1,
    ((registerComplexType_frame (selfHeap "ns" "A") infectRegistry 0 "a.pdsc" []
      (.mk (some ⟨⟨"ns", "A"⟩, 0⟩) "ns" none []) ⟨⟨"ns", "A"⟩, 0⟩ rfl).2.2.2
      (by decide) (by decide)).1⟩

end internal

namespace models

/-! ### Namespace propagation -/

theorem propagateChild_eq (parent : String) (ct : Option ComplexType) (ns : String)
    (ref : Option ModelReference) (ims : List Model) :
    propagateChild parent (.mk ct ns ref ims) =
      Model.propagateNamespaces (.mk ct (if ns = "" then parent else ns) ref ims) := by
  simp [propagateChild, Model.propagateNamespaces]

theorem propagateNamespaces_eq_child (m : Model) :
    m.propagateNamespaces = propagateChild m.namespace_ m := by
  cases m with
  | mk ct ns ref ims => simp [propagateChild, Model.propagateNamespaces, Model.namespace_]

theorem propagateChildren_getElem? (parent : String) :
    ∀ (ims : List Model) (i : Nat),
      (propagateChildren parent ims)[i]? = (ims[i]?).map (propagateChild parent) := by
  intro ims
  induction ims with
  | nil => intro i; simp [propagateChildren]
  | cons c rest ih =>
    intro i
    cases i with
    | zero => simp [propagateChildren]
    | succ j => simpa [propagateChildren] using ih j

theorem propagateChild_namespace (parent : String) (m : Model) :
    (propagateChild parent m).namespace_ =
      if m.namespace_ = "" then parent else m.namespace_ := by
  cases m with
  | mk ct ns ref ims => simp [propagateChild, Model.namespace_]

theorem propagateChild_innerModels (parent : String) (m : Model) :
    (propagateChild parent m).innerModels =
      propagateChildren (if m.namespace_ = "" then parent else m.namespace_) m.innerModels := by
  cases m with
  | mk ct ns ref ims => simp [propagateChild, Model.namespace_, Model.innerModels]

theorem propagateChild_descend :
    ∀ (path : List Nat) (parent : String) (m d : Model), m.descend path = some d →
      ∃ d1, (propagateChild parent m).descend path = some d1 ∧
        (d.namespace_ ≠ "" → d1.namespace_ = d.namespace_) ∧
        (d.namespace_ = "" →
          (∃ k a, k < path.length ∧ m.descend (path.take k) = some a ∧ a.namespace_ ≠ "" ∧
              d1.namespace_ = a.namespace_ ∧
              ∀ j b, k < j → j < path.length → m.descend (path.take j) = some b →
                b.namespace_ = "") ∨
          (d1.namespace_ = parent ∧
            ∀ j b, j < path.length → m.descend (path.take j) = some b →
              b.namespace_ = "")) := by
  intro path
  induction path with
  | nil =>
    intro parent m d hd
    simp only [Model.descend, Option.some.injEq] at hd
    subst hd
    refine ⟨propagateChild parent m, rfl, ?_, ?_⟩
    · intro hne; simp [propagateChild_namespace, hne]
    · intro he
      right
      exact ⟨by simp [propagateChild_namespace, he], fun j b hj => absurd hj (by simp)⟩
  | cons i rest ih =>
    intro parent m d hd
    simp only [Model.descend] at hd
    cases hc : m.innerModels[i]? with
    | none => simp [hc] at hd
    | some child =>
      simp only [hc] at hd
      obtain ⟨d1, hd1, hkeep, hinh⟩ :=
        ih (if m.namespace_ = "" then parent else m.namespace_) child d hd
      have hstep : ∀ (l : List Nat), m.descend (i :: l) = child.descend l := by
        intro l; simp [Model.descend, hc]
      refine ⟨d1, ?_, hkeep, ?_⟩
      · simp [Model.descend, propagateChild_innerModels, propagateChildren_getElem?, hc, hd1]
      · intro he
        rcases hinh he with ⟨k, a, hk, ha, hane, hd1a, hbetween⟩ | ⟨hpar, hall⟩
        · left
          refine ⟨k + 1, a, by simpa using hk, by simpa [hstep] using ha, hane, hd1a, ?_⟩
          intro j b hkj hj hb
          cases j with
          | zero => omega
          | succ j1 =>
            simp only [List.take_succ_cons, hstep] at hb
            exact hbetween j1 b (by omega) (by simpa using hj) hb
        · by_cases hm : m.namespace_ = ""
          · right
            refine ⟨by simpa [hm] using hpar, ?_⟩
            intro j b hj hb
            cases j with
            | zero =>
              simp only [List.take_zero, Model.descend, Option.some.injEq] at hb
              rw [← hb]; exact hm
            | succ j1 =>
              simp only [List.take_succ_cons, hstep] at hb
              exact hall j1 b (by simpa using hj) hb
          · left
            refine ⟨0, m, by simp, by simp [Model.descend], hm, by simpa [hm] using hpar, ?_⟩
            intro j b hkj hj hb
            cases j with
            | zero => omega
            | succ j1 =>
              simp only [List.take_succ_cons, hstep] at hb
              exact hall j1 b (by simpa using hj) hb

/-- C10: for every model tree whose root has a non-empty namespace and every
proper descendant `d` (reached by `path`), the node at the same place after
`propagateNamespaces` keeps the namespace of `d` when that was non-empty, and
otherwise has the namespace of the nearest ancestor of `d` (at depth `k`) that
had a non-empty namespace beforehand, every node between the two having had an
empty one; so a node with a namespace of its own passes that one, not the
root's, to its children. -/
theorem propagateNamespaces_nearest_ancestor (root : Model) (path : List Nat) (d : Model)
    (hroot : root.namespace_ ≠ "") (hpath : path ≠ [])
    (hd : root.descend path = some d) :
    ∃ d1, root.propagateNamespaces.descend path = some d1 ∧
      (d.namespace_ ≠ "" → d1.namespace_ = d.namespace_) ∧
      (d.namespace_ = "" →
        ∃ k a, k < path.length ∧ root.descend (path.take k) = some a ∧
          a.namespace_ ≠ "" ∧ d1.namespace_ = a.namespace_ ∧
          ∀ j b, k < j → j < path.length → root.descend (path.take j) = some b →
            b.namespace_ = "") := by
  obtain ⟨d1, hd1, hkeep, hinh⟩ := propagateChild_descend path root.namespace_ root d hd
  refine ⟨d1, by rw [propagateNamespaces_eq_child]; exact hd1, hkeep, ?_⟩
  intro he
  rcases hinh he with hnear | ⟨-, hall⟩
  · exact hnear
  · exfalso
    have hlen : 0 < path.length := List.length_pos.mpr hpath
    exact hroot (hall 0 root hlen (by simp [Model.descend]))

/-- C10, witness: in `exampleTree` the grandchild under the nested `ns.b` model
ends with the namespace `ns.b`, not the root's `ns.a`. -/
theorem propagateNamespaces_nearest_ancestor_witness :
    (exampleTree.propagateNamespaces.descend [1, 0]).map Model.namespace_ = some "ns.b" ∧
    (exampleTree.propagateNamespaces.descend [0]).map Model.namespace_ = some "ns.a" ∧
    ∃ d1, exampleTree.propagateNamespaces.descend [1, 0] = some d1 ∧
      ((Model.mk none "" none []).namespace_ ≠ "" →
        d1.namespace_ = (Model.mk none "" none []).namespace_) ∧
      ((Model.mk none "" none []).namespace_ = "" →
        ∃ k a, k < [1, 0].length ∧ exampleTree.descend (List.take k [1, 0]) = some a ∧
          a.namespace_ ≠ "" ∧ d1.namespace_ = a.namespace_ ∧
          ∀ j b, k < j → j < [1, 0].length →
            exampleTree.descend (List.take j [1, 0]) = some b → b.namespace_ = "") :=
  ⟨by decide, by decide,
    propagateNamespaces_nearest_ancestor exampleTree [1, 0] (.mk none "" none [])
      (by decide) (by decide) rfl⟩

/-! ### The namespace of a Reference -/

/-- C12: for every model `m` holding a Reference `r`, the model still holds a
Reference after `propagateNamespaces`, with the name of `r`; its namespace is
the namespace of `m` when that of `r` was empty and that of `m` is not, and is
the namespace of `r` when that was not empty (and also when `m` has none to
give); the namespace of `m` itself is not changed. -/
theorem propagateNamespaces_reference (m : Model) (r : ModelReference) (hr : m.ref = some r) :
    ∃ r1, m.propagateNamespaces.ref = some r1 ∧ r1.Name = r.Name ∧
      (r.Namespace = "" → m.namespace_ ≠ "" → r1.Namespace = m.namespace_) ∧
      (r.Namespace ≠ "" → r1.Namespace = r.Namespace) ∧
      (m.namespace_ = "" → r1.Namespace = r.Namespace) ∧
      m.propagateNamespaces.namespace_ = m.namespace_ := by
  cases m with
  | mk ct ns ref ims =>
    simp only [Model.ref] at hr
    subst hr
    simp only [Model.propagateNamespaces, Model.ref, Model.namespace_, propagateRef]
    by_cases h1 : ns ≠ "" ∧ r.Namespace = ""
    · rw [if_pos h1]
      exact ⟨_, rfl, rfl, fun _ _ => rfl, fun h2 => absurd h1.2 h2, fun h2 => absurd h2 h1.1, trivial⟩
    · rw [if_neg h1]
      refine ⟨_, rfl, rfl, fun h2 h3 => absurd ⟨h3, h2⟩ h1, fun _ => rfl, fun _ => rfl, trivial⟩

/-- C12, witness: a model of namespace `ns.a` holding the Reference `X`
without a namespace ends with the Reference `ns.a.X`. -/
theorem propagateNamespaces_reference_witness :
    ∃ r1, (Model.mk none "ns.a" (some ⟨"", "X"⟩) []).propagateNamespaces.ref = some r1 ∧
      r1.Name = "X" ∧ r1.Namespace = "ns.a" := by
  obtain ⟨r1, h1, hname, hns, -⟩ :=
    propagateNamespaces_reference (.mk none "ns.a" (some ⟨"", "X"⟩) []) ⟨"", "X"⟩ rfl
  exact ⟨r1, h1, hname, hns rfl (by decide)⟩

/-! ### Reference resolution -/

theorem replaceOwnRef_of_ref_none (cache : ModelCache) (m : ModelStruct) (hr : m.ref = none) :
    m.replaceOwnRef cache = m := by
  obtain ⟨b, c, ns, ref⟩ := m
  simp only at hr
  subst hr
  rfl

theorem replaceOwnRef_of_not_found (cache : ModelCache) (m : ModelStruct) (r : ModelReference)
    (hr : m.ref = some r) (hres : r.Resolve cache = none) : m.replaceOwnRef cache = m := by
  obtain ⟨b, c, ns, ref⟩ := m
  simp only at hr
  subst hr
  simp [ModelStruct.replaceOwnRef, hres]

theorem replaceOwnRef_of_found (cache : ModelCache) (m : ModelStruct) (r : ModelReference)
    (d : ComplexType) (hr : m.ref = some r) (hres : r.Resolve cache = some d) :
    m.replaceOwnRef cache = { m with ComplexType := some d, ref := none } := by
  obtain ⟨b, c, ns, ref⟩ := m
  simp only at hr
  subst hr
  simp [ModelStruct.replaceOwnRef, hres]

theorem replaceOwnRef_idem (cache : ModelCache) (m : ModelStruct) :
    (m.replaceOwnRef cache).replaceOwnRef cache = m.replaceOwnRef cache := by
  cases hr : m.ref with
  | none => rw [replaceOwnRef_of_ref_none cache m hr, replaceOwnRef_of_ref_none cache m hr]
  | some r =>
    cases hres : r.Resolve cache with
    | none =>
      rw [replaceOwnRef_of_not_found cache m r hr hres,
        replaceOwnRef_of_not_found cache m r hr hres]
    | some d =>
      rw [replaceOwnRef_of_found cache m r d hr hres]
      exact replaceOwnRef_of_ref_none cache _ rfl

theorem Heap.innerModels_set (h : Heap) (p : Nat) (m x : ModelStruct) :
    (h.set p m).innerModels x = h.innerModels x := rfl

theorem Heap.model_set_self (h : Heap) (p : Nat) (m : ModelStruct) :
    (h.set p m).model p = m := by
  simp [Heap.set]

theorem Heap.model_set_other (h : Heap) (p q : Nat) (m : ModelStruct) (hq : q ≠ p) :
    (h.set p m).model q = h.model q := by
  simp [Heap.set, hq]

theorem Stepped.refl (cache : ModelCache) (h : Heap) : Stepped cache h h :=
  ⟨rfl, fun _ => Or.inl rfl⟩

theorem Stepped.set (cache : ModelCache) (h h1 : Heap) (p : Nat) (hs : Stepped cache h h1) :
    Stepped cache h (h1.set p ((h1.model p).replaceOwnRef cache)) := by
  refine ⟨hs.1, fun q => ?_⟩
  by_cases hq : q = p
  · subst hq
    rw [Heap.model_set_self]
    rcases hs.2 q with h2 | h2
    · right; rw [h2]
    · right; rw [h2, replaceOwnRef_idem]
  · rw [Heap.model_set_other _ _ _ _ hq]
    exact hs.2 q

theorem Stepped.innerModels (cache : ModelCache) (h h1 : Heap) (hs : Stepped cache h h1)
    (q : Nat) :
    h1.innerModels ((h1.model q).replaceOwnRef cache) =
      h.innerModels ((h.model q).replaceOwnRef cache) := by
  have hm : (h1.model q).replaceOwnRef cache = (h.model q).replaceOwnRef cache := by
    rcases hs.2 q with h2 | h2
    · rw [h2]
    · rw [h2, replaceOwnRef_idem]
  rw [hm]
  unfold Heap.innerModels
  rw [hs.1]

theorem replaceRefLoop_stepped (cache : ModelCache) (h : Heap)
    (recur : Heap → Nat → Option Heap)
    (hrec : ∀ h1 p h2, recur h1 p = some h2 → Stepped cache h h1 → Stepped cache h h2) :
    ∀ (l : List Nat) (h1 h2 : Heap), replaceRefLoop recur l h1 = some h2 →
      Stepped cache h h1 → Stepped cache h h2 := by
  intro l
  induction l with
  | nil =>
    intro h1 h2 hl hs
    simp only [replaceRefLoop, Option.some.injEq] at hl
    subst hl
    exact hs
  | cons c rest ih =>
    intro h1 h2 hl hs
    unfold replaceRefLoop at hl
    cases hc : recur h1 c with
    | none => simp [hc] at hl
    | some h3 =>
      simp only [hc] at hl
      exact ih h3 h2 hl (hrec h1 c h3 hc hs)

theorem replaceRef_stepped (cache : ModelCache) (h : Heap) :
    ∀ (fuel : Nat) (h1 : Heap) (p : Nat) (h2 : Heap), replaceRef cache fuel h1 p = some h2 →
      Stepped cache h h1 → Stepped cache h h2 := by
  intro fuel
  induction fuel with
  | zero => intro h1 p h2 hr; simp [replaceRef] at hr
  | succ n ih =>
    intro h1 p h2 hr hs
    unfold replaceRef at hr
    exact replaceRefLoop_stepped cache h _ ih _ _ _ hr (Stepped.set cache h h1 p hs)

theorem replaceRefLoop_returns (cache : ModelCache) (h : Heap) (S : Nat → Prop)
    (rank : Nat → Nat) (recur : Heap → Nat → Option Heap) (F : Nat)
    (hrec : ∀ h1 p, Stepped cache h h1 → S p → rank p < F →
      ∃ h2, recur h1 p = some h2 ∧ Stepped cache h h2) :
    ∀ (l : List Nat) (h1 : Heap), (∀ c ∈ l, S c ∧ rank c < F) → Stepped cache h h1 →
      ∃ h2, replaceRefLoop recur l h1 = some h2 ∧ Stepped cache h h2 := by
  intro l
  induction l with
  | nil => intro h1 _ hs; exact ⟨h1, rfl, hs⟩
  | cons c rest ih =>
    intro h1 hl hs
    obtain ⟨hSc, hrc⟩ := hl c (List.mem_cons_self _ _)
    obtain ⟨h3, hc, hs3⟩ := hrec h1 c hs hSc hrc
    unfold replaceRefLoop
    simp only [hc]
    exact ih h3 (fun c1 hc1 => hl c1 (List.mem_cons_of_mem _ hc1)) hs3

theorem replaceRef_returns (cache : ModelCache) (h : Heap) (S : Nat → Prop)
    (rank : Nat → Nat) (hR : Resolvable cache h S rank) :
    ∀ (fuel : Nat) (h1 : Heap) (p : Nat), Stepped cache h h1 → S p → rank p < fuel →
      ∃ h2, replaceRef cache fuel h1 p = some h2 ∧ Stepped cache h h2 := by
  intro fuel
  induction fuel with
  | zero => intro h1 p _ _ hlt; omega
  | succ n ih =>
    intro h1 p hs hSp hlt
    unfold replaceRef
    rw [Heap.innerModels_set, Stepped.innerModels cache h h1 hs p]
    exact replaceRefLoop_returns cache h S rank _ n ih _ _
      (fun c hc => ⟨hR.closed p hSp c hc, by have := hR.rank_lt p hSp c hc; omega⟩)
      (Stepped.set cache h h1 p hs)

theorem replaceRef_model (cache : ModelCache) (fuel : Nat) (h : Heap) (p : Nat) (h1 : Heap)
    (hr : replaceRef cache fuel h p = some h1) :
    h1.model p = (h.model p).replaceOwnRef cache := by
  cases fuel with
  | zero => simp [replaceRef] at hr
  | succ n =>
    unfold replaceRef at hr
    have hs := replaceRefLoop_stepped cache (h.set p ((h.model p).replaceOwnRef cache)) _
      (fun h2 q h3 => replaceRef_stepped cache _ n h2 q h3) _ _ _ hr (Stepped.refl _ _)
    rcases hs.2 p with h2 | h2
    · rw [h2, Heap.model_set_self]
    · rw [h2, Heap.model_set_self, replaceOwnRef_idem]

theorem Stepped.model_done {cache : ModelCache} {h h1 : Heap} (hs : Stepped cache h h1)
    (q : Nat) : (h1.model q).replaceOwnRef cache = (h.model q).replaceOwnRef cache := by
  rcases hs.2 q with e | e
  · rw [e]
  · rw [e, replaceOwnRef_idem]

theorem Stepped.keeps_done {cache : ModelCache} {h1 h2 : Heap} (hs : Stepped cache h1 h2)
    (q : Nat) (m : ModelStruct) (hd : h1.model q = m.replaceOwnRef cache) :
    h2.model q = m.replaceOwnRef cache := by
  rcases hs.2 q with e | e
  · rw [e, hd]
  · rw [e, hd, replaceOwnRef_idem]

theorem replaceRefLoop_effect (cache : ModelCache) (h : Heap) (n : Nat)
    (ih : ∀ (h1 : Heap) (p : Nat) (h2 : Heap), Stepped cache h h1 →
      replaceRef cache n h1 p = some h2 →
      (∀ q, Reaches cache h p q → h2.model q = (h.model q).replaceOwnRef cache) ∧
      (∀ q, ¬ Reaches cache h p q → h2.model q = h1.model q)) :
    ∀ (l : List Nat) (h1 h2 : Heap), Stepped cache h h1 →
      replaceRefLoop (replaceRef cache n) l h1 = some h2 →
      (∀ c ∈ l, ∀ q, Reaches cache h c q → h2.model q = (h.model q).replaceOwnRef cache) ∧
      (∀ q, (∀ c ∈ l, ¬ Reaches cache h c q) → h2.model q = h1.model q) := by
  intro l
  induction l with
  | nil =>
    intro h1 h2 _ hr
    simp only [replaceRefLoop, Option.some.injEq] at hr
    subst hr
    exact ⟨fun c hc => absurd hc (List.not_mem_nil c), fun _ _ => rfl⟩
  | cons c rest ihl =>
    intro h1 h2 hs hr
    unfold replaceRefLoop at hr
    cases hrc : replaceRef cache n h1 c with
    | none => simp [hrc] at hr
    | some h3 =>
      simp only [hrc] at hr
      have hs3 := replaceRef_stepped cache h n h1 c h3 hrc hs
      obtain ⟨la, lb⟩ := ihl h3 h2 hs3 hr
      obtain ⟨ra, rb⟩ := ih h1 c h3 hs hrc
      have hs32 : Stepped cache h3 h2 :=
        replaceRefLoop_stepped cache h3 (replaceRef cache n)
          (fun a p b hab hsa => replaceRef_stepped cache h3 n a p b hab hsa)
          rest h3 h2 hr (Stepped.refl cache h3)
      refine ⟨fun c1 hc1 q hq => ?_, fun q hq => ?_⟩
      · rcases List.mem_cons.mp hc1 with rfl | hc1
        · exact hs32.keeps_done q _ (ra q hq)
        · exact la c1 hc1 q hq
      · rw [lb q (fun c1 hc1 => hq c1 (List.mem_cons_of_mem _ hc1)),
          rb q (hq c (List.mem_cons_self _ _))]

theorem replaceRef_effect (cache : ModelCache) (h : Heap) :
    ∀ (fuel : Nat) (h1 : Heap) (p : Nat) (h2 : Heap), Stepped cache h h1 →
      replaceRef cache fuel h1 p = some h2 →
      (∀ q, Reaches cache h p q → h2.model q = (h.model q).replaceOwnRef cache) ∧
      (∀ q, ¬ Reaches cache h p q → h2.model q = h1.model q) := by
  intro fuel
  induction fuel with
  | zero => intro h1 p h2 _ hr; simp [replaceRef] at hr
  | succ n ih =>
    intro h1 p h2 hs hr
    unfold replaceRef at hr
    rw [Heap.innerModels_set, Stepped.innerModels cache h h1 hs p] at hr
    have hs1 := Stepped.set cache h h1 p hs
    obtain ⟨la, lb⟩ := replaceRefLoop_effect cache h n ih _ _ h2 hs1 hr
    have hs12 : Stepped cache (h1.set p ((h1.model p).replaceOwnRef cache)) h2 :=
      replaceRefLoop_stepped cache _ (replaceRef cache n)
        (fun a p1 b hab hsa => replaceRef_stepped cache _ n a p1 b hab hsa)
        _ _ h2 hr (Stepped.refl cache _)
    refine ⟨fun q hq => ?_, fun q hq => ?_⟩
    · cases hq with
      | self =>
        refine hs12.keeps_done p _ ?_
        rw [Heap.model_set_self, hs.model_done]
      | child _ c _ hc hcq => exact la c hc q hcq
    · have hqp : q ≠ p := fun e => hq (by rw [e]; exact Reaches.self p)
      rw [lb q (fun c hc hcq => hq (Reaches.child p c q hc hcq)),
        Heap.model_set_other _ _ _ _ hqp]

/-! ### Exactly one variant set -/

theorem ExactlyOne.replaceOwnRef (cache : ModelCache) (m : ModelStruct) (hm : ExactlyOne m) :
    ExactlyOne (m.replaceOwnRef cache) := by
  cases hr : m.ref with
  | none => rw [replaceOwnRef_of_ref_none cache m hr]; exact hm
  | some r =>
    cases hf : r.Resolve cache with
    | none => rw [replaceOwnRef_of_not_found cache m r hr hf]; exact hm
    | some d =>
      rw [replaceOwnRef_of_found cache m r d hr hf]
      rcases hm with ⟨-, -, h3⟩ | ⟨-, -, h3⟩ | ⟨h1, -, -⟩
      · rw [hr] at h3; cases h3
      · rw [hr] at h3; cases h3
      · right; left; exact ⟨h1, by simp, rfl⟩

theorem Stepped.exactlyOne {cache : ModelCache} {h h1 : Heap} (hs : Stepped cache h h1)
    (hall : ∀ q, ExactlyOne (h.model q)) (q : Nat) : ExactlyOne (h1.model q) := by
  rcases hs.2 q with he | he
  · rw [he]; exact hall q
  · rw [he]; exact (hall q).replaceOwnRef cache

theorem ExactlyOne.xor {m : ModelStruct} (hm : ExactlyOne m) (hr : m.ref = none) :
    (m.BuiltinType ≠ none ∧ m.ComplexType = none) ∨ (m.BuiltinType = none ∧ m.ComplexType ≠ none) := by
  rcases hm with ⟨h1, h2, -⟩ | ⟨h1, h2, -⟩ | ⟨-, -, h3⟩
  · exact Or.inl ⟨h1, h2⟩
  · exact Or.inr ⟨h1, h2⟩
  · exact absurd hr h3

theorem fallback_exactlyOne {Data : Type} (j : Unmarshal Data) (data : Data) (err : String)
    (m : ModelStruct) (hm : fallback j data err = .ok m) : ExactlyOne m := by
  unfold fallback at hm
  split at hm
  · cases hm; left; simp [ModelStruct.fresh]
  · split at hm
    · cases hm; left; simp [ModelStruct.fresh]
    · split at hm
      · cases hm; right; right; simp [ModelStruct.fresh]
      · split at hm
        · cases hm; left; simp [ModelStruct.fresh]
        · cases hm

theorem dispatch_exactlyOne {Data : Type} (j : Unmarshal Data) (data : Data) (ns : String)
    (type : Data) (modelType : String) (m : ModelStruct)
    (hm : dispatch j data ns type modelType = .ok m) : ExactlyOne m := by
  unfold dispatch at hm
  simp only at hm
  repeat' split at hm
  all_goals (cases hm <;> simp [ExactlyOne, ModelStruct.fresh])

theorem UnmarshalJSON_ok_exactlyOne {Data : Type} (j : Unmarshal Data) (data : Data)
    (m : ModelStruct) (hm : UnmarshalJSON j data = .ok m) : ExactlyOne m := by
  unfold UnmarshalJSON at hm
  split at hm
  · exact fallback_exactlyOne j data _ m hm
  · split at hm
    · cases hm
    · exact dispatch_exactlyOne j data _ _ _ m hm

/-! ### Resolving a Reference -/

theorem replaceRef_leaf (cache : ModelCache) (fuel : Nat) (h : Heap) (p : Nat)
    (hleaf : h.innerModels ((h.model p).replaceOwnRef cache) = []) :
    replaceRef cache (fuel + 1) h p = some (h.set p ((h.model p).replaceOwnRef cache)) := by
  unfold replaceRef
  rw [Heap.innerModels_set, hleaf]
  rfl

theorem replaceRef_self_reference_loops :
    ∀ (fuel : Nat) (h : Heap), h.complexInner 0 = some [1] →
      ((h.model 1).replaceOwnRef selfRefCache).ComplexType = some ⟨⟨"ns", "A"⟩, 0⟩ →
      replaceRef selfRefCache fuel h 1 = none := by
  intro fuel
  induction fuel with
  | zero => intro h _ _; rfl
  | succ n ih =>
    intro h hci hct
    have hnext := ih (h.set 1 ((h.model 1).replaceOwnRef selfRefCache)) hci
      (by rw [Heap.model_set_self, replaceOwnRef_idem]; exact hct)
    unfold replaceRef
    rw [Heap.innerModels_set]
    have hch : h.innerModels ((h.model 1).replaceOwnRef selfRefCache) = [1] := by
      simp [Heap.innerModels, hct, hci]
    rw [hch]
    simp [replaceRefLoop, hnext]

/-- C11: for every heap, every registry (`cache`) and every model `p` that is
an unresolved Reference `r`, `replaceRef` first looks `r` up and then calls
itself on every child `innerModels()` returns, in both cases.  When it returns:
if the Identifier of `r` is registered with definition `d`, the model has
`ComplexType = d` and no reference, its other fields as before; if it is not
registered, the model is unchanged, still the Reference `r`.  In both cases
every child `c` that `innerModels()` returns has had its own reference looked
up as well: a child that was a registered Reference holds its definition and
no reference, and so has every model reached from `p` through children
(`Reaches`); every model that is not reached is as it was.  A Reference that is
not registered and has no children returns at once with the heap unchanged;
and wherever the children to follow are well-founded (`Resolvable`),
`replaceRef` does return. -/
theorem replaceRef_reference (cache : ModelCache) (h : Heap) (p : Nat) (r : ModelReference)
    (hr : (h.model p).ref = some r) (fuel : Nat) :
    replaceRef cache (fuel + 1) h p =
      replaceRefLoop (replaceRef cache fuel)
        (h.innerModels ((h.model p).replaceOwnRef cache))
        (h.set p ((h.model p).replaceOwnRef cache)) ∧
    (∀ d, r.Resolve cache = some d →
      (h.model p).replaceOwnRef cache = { h.model p with ComplexType := some d, ref := none } ∧
      ∀ h1, replaceRef cache (fuel + 1) h p = some h1 →
        (h1.model p).ComplexType = some d ∧ (h1.model p).ref = none ∧
        (h1.model p).BuiltinType = (h.model p).BuiltinType ∧
        (h1.model p).namespace_ = (h.model p).namespace_) ∧
    (r.Resolve cache = none →
      (h.model p).replaceOwnRef cache = h.model p ∧
      (∀ h1, replaceRef cache (fuel + 1) h p = some h1 →
        h1.model p = h.model p ∧ (h1.model p).ref = some r) ∧
      (h.innerModels (h.model p) = [] →
        ∃ h1, replaceRef cache (fuel + 1) h p = some h1 ∧ ∀ q, h1.model q = h.model q)) ∧
    (∀ S rank, Resolvable cache h S rank → S p → rank p < fuel + 1 →
      ∃ h1, replaceRef cache (fuel + 1) h p = some h1 ∧
        h1.model p = (h.model p).replaceOwnRef cache) ∧
    (∀ h1, replaceRef cache (fuel + 1) h p = some h1 →
      (∀ c ∈ h.innerModels ((h.model p).replaceOwnRef cache),
        h1.model c = (h.model c).replaceOwnRef cache ∧
        (∀ rc dc, (h.model c).ref = some rc → rc.Resolve cache = some dc →
          (h1.model c).ComplexType = some dc ∧ (h1.model c).ref = none) ∧
        (∀ rc, (h.model c).ref = some rc → rc.Resolve cache = none →
          h1.model c = h.model c)) ∧
      (∀ q, Reaches cache h p q → h1.model q = (h.model q).replaceOwnRef cache) ∧
      (∀ q, ¬ Reaches cache h p q → h1.model q = h.model q)) := by
  refine ⟨?_, ?_, ?_, ?_, ?_⟩
  · rfl
  · intro d hd
    have hown := replaceOwnRef_of_found cache (h.model p) r d hr hd
    refine ⟨hown, ?_⟩
    intro h1 h1r
    have hm := replaceRef_model cache (fuel + 1) h p h1 h1r
    rw [hm, hown]
    exact ⟨rfl, rfl, rfl, rfl⟩
  · intro hn
    have hown := replaceOwnRef_of_not_found cache (h.model p) r hr hn
    refine ⟨hown, ?_, ?_⟩
    · intro h1 h1r
      have hm := replaceRef_model cache (fuel + 1) h p h1 h1r
      rw [hm, hown]
      exact ⟨rfl, hr⟩
    · intro hleaf
      refine ⟨_, replaceRef_leaf cache fuel h p (by rw [hown]; exact hleaf), ?_⟩
      intro q
      by_cases hq : q = p
      · subst hq; rw [Heap.model_set_self, hown]
      · rw [Heap.model_set_other _ _ _ _ hq]
  · intro S rank hR hS hlt
    obtain ⟨h2, h2r, -⟩ :=
      replaceRef_returns cache h S rank hR (fuel + 1) h p (Stepped.refl cache h) hS hlt
    exact ⟨h2, h2r, replaceRef_model cache (fuel + 1) h p h2 h2r⟩
  · intro h1 h1r
    obtain ⟨hreach, hrest⟩ :=
      replaceRef_effect cache h (fuel + 1) h p h1 (Stepped.refl cache h) h1r
    refine ⟨fun c hc => ?_, hreach, hrest⟩
    have hc1 : h1.model c = (h.model c).replaceOwnRef cache :=
      hreach c (Reaches.child p c c hc (Reaches.self c))
    refine ⟨hc1, fun rc dc hrc hdc => ?_, fun rc hrc hn => ?_⟩
    · rw [hc1, replaceOwnRef_of_found cache (h.model c) rc dc hrc hdc]
      exact ⟨rfl, rfl⟩
    · rw [hc1, replaceOwnRef_of_not_found cache (h.model c) rc hrc hn]

/-- C11, witness: in `enumRefHeap` the field (model 1) is a Reference to
`ns.E`; with `ns.E` registered the field ends with that definition and no
reference, with an empty registry it stays the Reference.  In `refRecordHeap`
model 0 is a Reference to the record `ns.B`, whose field (model 1) is a
Reference to `ns.E`: `replaceRef` on model 0 resolves model 0 to the record and
its child, model 1, to the enum. -/
theorem replaceRef_reference_witness :
    (enumRefHeap.model 1).ref = some ⟨"ns", "E"⟩ ∧
    (∃ h1, replaceRef enumCache 1 enumRefHeap 1 = some h1 ∧
      (h1.model 1).ComplexType = some ⟨⟨"ns", "E"⟩, 2⟩ ∧ (h1.model 1).ref = none) ∧
    (∃ h1, replaceRef [] 1 enumRefHeap 1 = some h1 ∧ ∀ q, h1.model q = enumRefHeap.model q) ∧
    (refRecordHeap.model 0).ref = some ⟨"ns", "B"⟩ ∧
    refRecordHeap.innerModels ((refRecordHeap.model 0).replaceOwnRef recordCache) = [1] ∧
    (∃ h1, replaceRef recordCache 2 refRecordHeap 0 = some h1 ∧
      (h1.model 0).ComplexType = some ⟨⟨"ns", "B"⟩, 1⟩ ∧ (h1.model 0).ref = none ∧
      (h1.model 1).ComplexType = some ⟨⟨"ns", "E"⟩, 2⟩ ∧ (h1.model 1).ref = none) ∧
    (replaceRef recordCache 2 refRecordHeap 0).map (fun h1 => (h1.model 0, h1.model 1)) =
      some ({ BuiltinType := none, ComplexType := some ⟨⟨"ns", "B"⟩, 1⟩, namespace_ := "ns",
              ref := none },
            { BuiltinType := none, ComplexType := some ⟨⟨"ns", "E"⟩, 2⟩, namespace_ := "ns",
              ref := none }) := by
  have hE := replaceRef_reference enumCache enumRefHeap 1 ⟨"ns", "E"⟩ rfl 0
  have hN := replaceRef_reference [] enumRefHeap 1 ⟨"ns", "E"⟩ rfl 0
  have hB := replaceRef_reference recordCache refRecordHeap 0 ⟨"ns", "B"⟩ rfl 1
  refine ⟨rfl, ?_, hN.2.2.1 rfl |>.2.2 rfl, rfl, by decide, ?_, by decide⟩
  · have hret : ∃ h1, replaceRef enumCache 1 enumRefHeap 1 = some h1 := ⟨_, rfl⟩
    obtain ⟨h1, h1r⟩ := hret
    obtain ⟨hct, hrf, -, -⟩ := (hE.2.1 ⟨⟨"ns", "E"⟩, 2⟩ rfl).2 h1 h1r
    exact ⟨h1, h1r, hct, hrf⟩
  · have hret : ∃ h1, replaceRef recordCache 2 refRecordHeap 0 = some h1 := ⟨_, rfl⟩
    obtain ⟨h1, h1r⟩ := hret
    obtain ⟨hct, hrf, -, -⟩ := (hB.2.1 ⟨⟨"ns", "B"⟩, 1⟩ rfl).2 h1 h1r
    obtain ⟨-, hchild, -⟩ := (hB.2.2.2.2 h1 h1r).1 1 (by decide)
    obtain ⟨hct1, hrf1⟩ := hchild ⟨"ns", "E"⟩ ⟨⟨"ns", "E"⟩, 2⟩ rfl rfl
    exact ⟨h1, h1r, hct, hrf, hct1, hrf1⟩

/-- C15: `replaceRef` called on the model of the self-referential record
`ns.A` (model 0 of `selfRefHeap`, the record registered in `selfRefCache`)
returns for no recursion bound: the field resolves to the record, whose child
is the field again. -/
theorem replaceRef_self_reference_never_returns (fuel : Nat) :
    replaceRef selfRefCache fuel selfRefHeap 0 = none := by
  cases fuel with
  | zero => rfl
  | succ n =>
    have hloop := replaceRef_self_reference_loops n
      (selfRefHeap.set 0 ((selfRefHeap.model 0).replaceOwnRef selfRefCache)) rfl (by decide)
    unfold replaceRef
    rw [Heap.innerModels_set]
    have hch : selfRefHeap.innerModels ((selfRefHeap.model 0).replaceOwnRef selfRefCache) = [1] := by
      decide
    rw [hch]
    simp [replaceRefLoop, hloop]

/-! ### Decoding -/

/-- C13, as the code has it: for every decode behaviour `j` and every value
`data`.  When the header decode (the struct of a string namespace and a raw
type) rejects `data`, the variants Bytes, Primitive, Reference, Union are tried
on `data` in that order, the first that parses is the result, and decoding
fails only when none of the four parses, with the four errors, the header
error and the value.  When the header decode accepts `data` and the raw type
does not decode into a string, decoding fails with the string-decode error,
whatever the variants make of `data`.  When the raw type decodes into a string
that is none of the seven discriminators, Primitive and then Reference are
tried on the raw type, not on `data`, and decoding fails when neither parses.
Once the header decode has accepted `data`, Bytes and Union are not consulted:
two decode behaviours that differ in these two alone give the same result. -/
theorem UnmarshalJSON_fallback_order {Data : Type} (j : Unmarshal Data) (data : Data) :
    (∀ err, j.header data = .error err →
      (∀ b, j.bytes data = .ok b →
        UnmarshalJSON j data = .ok { ModelStruct.fresh with BuiltinType := some b }) ∧
      (∀ e1 p, j.bytes data = .error e1 → j.primitive data = .ok p →
        UnmarshalJSON j data = .ok { ModelStruct.fresh with BuiltinType := some p }) ∧
      (∀ e1 e2 r, j.bytes data = .error e1 → j.primitive data = .error e2 →
        j.reference data = .ok r →
        UnmarshalJSON j data = .ok { ModelStruct.fresh with ref := some r }) ∧
      (∀ e1 e2 e3 u, j.bytes data = .error e1 → j.primitive data = .error e2 →
        j.reference data = .error e3 → j.union data = .ok u →
        UnmarshalJSON j data = .ok { ModelStruct.fresh with BuiltinType := some u }) ∧
      (∀ e1 e2 e3 e4, j.bytes data = .error e1 → j.primitive data = .error e2 →
        j.reference data = .error e3 → j.union data = .error e4 →
        UnmarshalJSON j data = .error (.illegalModelType [e1, e2, e3, e4] err data))) ∧
    (∀ ns type err, j.header data = .ok (ns, type) → j.modelType type = .error err →
      UnmarshalJSON j data = .error (.typeNotString err)) ∧
    (∀ ns type modelType, j.header data = .ok (ns, type) → j.modelType type = .ok modelType →
      modelType ∉ [RecordTypeModelTypeName, EnumModelTypeName, FixedModelTypeName,
        MapModelTypeName, ArrayModelTypeName, TyperefModelTypeName, BytesModelTypeName] →
      (∀ p, j.primitive type = .ok p →
        UnmarshalJSON j data =
          .ok { ModelStruct.fresh with namespace_ := ns, BuiltinType := some p }) ∧
      (∀ e r, j.primitive type = .error e → j.reference type = .ok r →
        UnmarshalJSON j data = .ok { ModelStruct.fresh with namespace_ := ns, ref := some r }) ∧
      (∀ e1 e2, j.primitive type = .error e1 → j.reference type = .error e2 →
        UnmarshalJSON j data = .error (.couldNotDeserialize data))) ∧
    (∀ ns type bytes1 union1, j.header data = .ok (ns, type) →
      UnmarshalJSON { j with bytes := bytes1, union := union1 } data = UnmarshalJSON j data) := by
  refine ⟨?_, ?_, ?_, ?_⟩
  · intro err herr
    refine ⟨?_, ?_, ?_, ?_, ?_⟩
    · intro b hb
      simp [UnmarshalJSON, herr, fallback, hb]
    · intro e1 p h1 h2
      simp [UnmarshalJSON, herr, fallback, h1, h2]
    · intro e1 e2 r h1 h2 h3
      simp [UnmarshalJSON, herr, fallback, h1, h2, h3]
    · intro e1 e2 e3 u h1 h2 h3 h4
      simp [UnmarshalJSON, herr, fallback, h1, h2, h3, h4]
    · intro e1 e2 e3 e4 h1 h2 h3 h4
      simp [UnmarshalJSON, herr, fallback, h1, h2, h3, h4]
  · intro ns type err hh ht
    simp [UnmarshalJSON, hh, ht]
  · intro ns type modelType hh ht hnot
    simp only [List.mem_cons, List.mem_singleton, List.not_mem_nil, or_false, not_or] at hnot
    obtain ⟨n1, n2, n3, n4, n5, n6, n7⟩ := hnot
    refine ⟨?_, ?_, ?_⟩
    · intro p hp
      simp [UnmarshalJSON, hh, ht, dispatch, n1, n2, n3, n4, n5, n6, n7, hp]
    · intro e r hp hr
      simp [UnmarshalJSON, hh, ht, dispatch, n1, n2, n3, n4, n5, n6, n7, hp, hr]
    · intro e1 e2 hp hr
      simp [UnmarshalJSON, hh, ht, dispatch, n1, n2, n3, n4, n5, n6, n7, hp, hr]
  · intro ns type bytes1 union1 hh
    simp only [UnmarshalJSON, hh, dispatch]

/-- C13, witness: the bare array `["int","string"]` is rejected by the header
decode, the first three variants reject it and it decodes as the Union; the
empty object fails with the string-decode error; in the object whose `type` is
`null` the type decodes into the empty string, Primitive and Reference are
tried on `null` and decoding fails with the error of line 193; the object whose
`type` is `"int"` decodes as the primitive. -/
theorem UnmarshalJSON_fallback_order_witness :
    UnmarshalJSON sampleUnmarshal "[\"int\",\"string\"]" =
      .ok { ModelStruct.fresh with BuiltinType := some { innerModels := some [] } } ∧
    UnmarshalJSON sampleUnmarshal "\x7b\x7d" =
      .error (.typeNotString "unexpected end of JSON input") ∧
    UnmarshalJSON sampleUnmarshal "\x7b\"type\":null\x7d" =
      .error (.couldNotDeserialize "\x7b\"type\":null\x7d") ∧
    UnmarshalJSON sampleUnmarshal "\x7b\"type\":\"int\"\x7d" =
      .ok { ModelStruct.fresh with namespace_ := "",
                                   BuiltinType := some { innerModels := none } } :=
  ⟨(UnmarshalJSON_fallback_order sampleUnmarshal "[\"int\",\"string\"]").1
      "json: cannot unmarshal into Go value of type struct" (by simp [sampleUnmarshal])
      |>.2.2.2.1 "not bytes" "not a primitive" "not a reference" { innerModels := some [] }
        (by simp [sampleUnmarshal]) (by simp [sampleUnmarshal]) (by simp [sampleUnmarshal])
        (by simp [sampleUnmarshal]),
    (UnmarshalJSON_fallback_order sampleUnmarshal "\x7b\x7d").2.1 "" ""
      "unexpected end of JSON input" (by simp [sampleUnmarshal]) (by simp [sampleUnmarshal]),
    ((UnmarshalJSON_fallback_order sampleUnmarshal "\x7b\"type\":null\x7d").2.2.1 "" "null" ""
      (by simp [sampleUnmarshal]) (by simp [sampleUnmarshal]) (by decide)).2.2
      "not a primitive" "not a reference" (by simp [sampleUnmarshal])
      (by simp [sampleUnmarshal]),
    ((UnmarshalJSON_fallback_order sampleUnmarshal "\x7b\"type\":\"int\"\x7d").2.2.1 ""
      "\"int\"" "int" (by simp [sampleUnmarshal]) (by simp [sampleUnmarshal]) (by decide)).1
      { innerModels := none } (by simp [sampleUnmarshal])⟩

/-- C13, counterexample: the empty object (no `type` field) and an object whose
`type` is an inline union are both accepted by the header decode; decoding
fails on each with the string-decode error of line 124, which is not what the
fallback order gives for any header error: on these values it would end with
the four variant errors.  The failure does not depend on the variants: with a
Union decoder that parses the inline-union object the fallback order yields
the Union, and decoding still fails with the error of line 124, as it does
with any decode behaviour that reads the header and the type of that object as
`sampleUnmarshal` does. -/
theorem UnmarshalJSON_object_skips_fallback :
    UnmarshalJSON sampleUnmarshal "\x7b\x7d" =
      .error (.typeNotString "unexpected end of JSON input") ∧
    UnmarshalJSON sampleUnmarshal "\x7b\"type\":[\"int\",\"string\"]\x7d" =
      .error (.typeNotString "json: cannot unmarshal array into Go value of type string") ∧
    (∀ err, fallback sampleUnmarshal "\x7b\x7d" err =
      .error (.illegalModelType ["not bytes", "not a primitive", "not a reference", "not a union"]
        err "\x7b\x7d")) ∧
    (∀ err, fallback sampleUnmarshal "\x7b\"type\":[\"int\",\"string\"]\x7d" err =
      .error (.illegalModelType ["not bytes", "not a primitive", "not a reference", "not a union"]
        err "\x7b\"type\":[\"int\",\"string\"]\x7d")) ∧
    (∀ err, UnmarshalJSON sampleUnmarshal "\x7b\x7d" ≠ fallback sampleUnmarshal "\x7b\x7d" err) ∧
    (∀ err, UnmarshalJSON sampleUnmarshal "\x7b\"type\":[\"int\",\"string\"]\x7d" ≠
      fallback sampleUnmarshal "\x7b\"type\":[\"int\",\"string\"]\x7d" err) ∧
    lenientUnmarshal.union "\x7b\"type\":[\"int\",\"string\"]\x7d" =
      .ok { innerModels := some [] } ∧
    (∀ err, fallback lenientUnmarshal "\x7b\"type\":[\"int\",\"string\"]\x7d" err =
      .ok { ModelStruct.fresh with BuiltinType := some { innerModels := some [] } }) ∧
    UnmarshalJSON lenientUnmarshal "\x7b\"type\":[\"int\",\"string\"]\x7d" =
      .error (.typeNotString "json: cannot unmarshal array into Go value of type string") ∧
    (∀ j : Unmarshal String,
      j.header "\x7b\"type\":[\"int\",\"string\"]\x7d" = .ok ("", "[\"int\",\"string\"]") →
      j.modelType "[\"int\",\"string\"]" =
        .error "json: cannot unmarshal array into Go value of type string" →
      UnmarshalJSON j "\x7b\"type\":[\"int\",\"string\"]\x7d" =
        .error (.typeNotString "json: cannot unmarshal array into Go value of type string")) := by
  refine ⟨?_, ?_, ?_, ?_, ?_, ?_, ?_, ?_, ?_, ?_⟩
  · simp [UnmarshalJSON, sampleUnmarshal]
  · simp [UnmarshalJSON, sampleUnmarshal]
  · intro err; simp [fallback, sampleUnmarshal]
  · intro err; simp [fallback, sampleUnmarshal]
  · intro err; simp [UnmarshalJSON, fallback, sampleUnmarshal]
  · intro err; simp [UnmarshalJSON, fallback, sampleUnmarshal]
  · simp [lenientUnmarshal]
  · intro err; simp [fallback, lenientUnmarshal, sampleUnmarshal]
  · simp [UnmarshalJSON, lenientUnmarshal, sampleUnmarshal]
  · intro j hh ht
    simp [UnmarshalJSON, hh, ht]

/-- C14: for every decode behaviour and every value, a successful decode into
a fresh Model leaves exactly one of `BuiltinType`, `ComplexType` and `ref` set,
never `BuiltinType` together with `ComplexType`.  `replaceRef` keeps this: the
look-up of the model's own reference keeps it, and when the reference resolves
to `d` it sets `ComplexType = d` and clears `ref` in the same step; on a heap
all of whose models have exactly one set, so have all models when `replaceRef`
returns, and each of them whose `ref` is then nil has `BuiltinType` or
`ComplexType`, not both. -/
theorem UnmarshalJSON_exactly_one {Data : Type} (j : Unmarshal Data) (data : Data)
    (m : ModelStruct) (hm : UnmarshalJSON j data = .ok m) :
    ExactlyOne m ∧
    ¬ (m.BuiltinType ≠ none ∧ m.ComplexType ≠ none) ∧
    ∀ cache : ModelCache,
      ExactlyOne (m.replaceOwnRef cache) ∧
      (∀ r d, m.ref = some r → r.Resolve cache = some d →
        (m.replaceOwnRef cache).ComplexType = some d ∧ (m.replaceOwnRef cache).ref = none ∧
        (m.replaceOwnRef cache).BuiltinType = none) ∧
      ∀ (h : Heap) (p fuel : Nat) (h1 : Heap), h.model p = m →
        (∀ q, ExactlyOne (h.model q)) → replaceRef cache fuel h p = some h1 →
        h1.model p = m.replaceOwnRef cache ∧
        (∀ q, ExactlyOne (h1.model q)) ∧
        ∀ q, (h1.model q).ref = none →
          ((h1.model q).BuiltinType ≠ none ∧ (h1.model q).ComplexType = none) ∨
          ((h1.model q).BuiltinType = none ∧ (h1.model q).ComplexType ≠ none) := by
  have hone := UnmarshalJSON_ok_exactlyOne j data m hm
  refine ⟨hone, ?_, ?_⟩
  · rintro ⟨hb, hc⟩
    rcases hone with ⟨-, h2, -⟩ | ⟨h1, -, -⟩ | ⟨h1, -, -⟩
    · exact hc h2
    · exact hb h1
    · exact hb h1
  · intro cache
    refine ⟨hone.replaceOwnRef cache, ?_, ?_⟩
    · intro r d hr hd
      rw [replaceOwnRef_of_found cache m r d hr hd]
      refine ⟨rfl, rfl, ?_⟩
      rcases hone with ⟨-, -, h3⟩ | ⟨-, -, h3⟩ | ⟨h1, -, -⟩
      · rw [hr] at h3; cases h3
      · rw [hr] at h3; cases h3
      · exact h1
    · intro h p fuel h1 hp hall hret
      have hs := replaceRef_stepped cache h fuel h p h1 hret (Stepped.refl cache h)
      refine ⟨by rw [replaceRef_model cache fuel h p h1 hret, hp], hs.exactlyOne hall, ?_⟩
      intro q hq
      exact (hs.exactlyOne hall q).xor hq

/-- C14, witness: the bare string `"Foo"` decodes to a Model with the reference
alone; with `Foo` registered the look-up leaves `ComplexType` alone. -/
theorem UnmarshalJSON_exactly_one_witness :
    UnmarshalJSON sampleUnmarshal "\"Foo\"" =
      .ok { ModelStruct.fresh with ref := some ⟨"", "Foo"⟩ } ∧
    ExactlyOne { ModelStruct.fresh with ref := some ⟨"", "Foo"⟩ } ∧
    ExactlyOne (({ ModelStruct.fresh with ref := some ⟨"", "Foo"⟩ } : ModelStruct).replaceOwnRef
      [(⟨"", "Foo"⟩, ⟨⟨"", "Foo"⟩, 3⟩)]) ∧
    (({ ModelStruct.fresh with ref := some ⟨"", "Foo"⟩ } : ModelStruct).replaceOwnRef
      [(⟨"", "Foo"⟩, ⟨⟨"", "Foo"⟩, 3⟩)]).ComplexType = some ⟨⟨"", "Foo"⟩, 3⟩ := by
  have hdec : UnmarshalJSON sampleUnmarshal "\"Foo\"" =
      .ok { ModelStruct.fresh with ref := some ⟨"", "Foo"⟩ } := by
    simp [UnmarshalJSON, fallback, sampleUnmarshal]
  have hthm := UnmarshalJSON_exactly_one sampleUnmarshal "\"Foo\"" _ hdec
  exact ⟨hdec, hthm.1, (hthm.2.2 [(⟨"", "Foo"⟩, ⟨⟨"", "Foo"⟩, 3⟩)]).1,
    ((hthm.2.2 [(⟨"", "Foo"⟩, ⟨⟨"", "Foo"⟩, 3⟩)]).2.1 ⟨"", "Foo"⟩ ⟨⟨"", "Foo"⟩, 3⟩ rfl rfl).1⟩

/-! ### Resolution returns on well-founded heaps -/

theorem enumRefHeap_resolvable :
    Resolvable enumCache enumRefHeap (fun _ => True) (fun q => if q = 0 then 1 else 0) := by
  refine ⟨fun _ _ _ _ => trivial, fun q _ c hc => ?_⟩
  match q with
  | 0 =>
    have hch : enumRefHeap.innerModels ((enumRefHeap.model 0).replaceOwnRef enumCache) = [1] := by
      decide
    rw [hch] at hc
    simp only [List.mem_singleton] at hc
    subst hc
    decide
  | n + 1 =>
    have hch : enumRefHeap.innerModels ((enumRefHeap.model (n + 1)).replaceOwnRef enumCache)
        = [] := by
      have hm : enumRefHeap.model (n + 1) =
          { BuiltinType := none, ComplexType := none, namespace_ := "ns",
            ref := some ⟨"ns", "E"⟩ } := rfl
      rw [hm]
      decide
    rw [hch] at hc
    cases hc

/-- X4: on every region of the heap in which the children a model has once its
own reference has been looked up are well-founded (`Resolvable`: following them
lowers `rank`), `replaceRef` returns as soon as the recursion bound exceeds the
rank of the model it is called on, and the heap it leaves differs from the one
it started from only in models whose own reference has been looked up. -/
theorem replaceRef_returns_resolvable (cache : ModelCache) (h : Heap) (S : Nat → Prop)
    (rank : Nat → Nat) (hR : Resolvable cache h S rank) (p : Nat) (hp : S p) (fuel : Nat)
    (hfuel : rank p < fuel) :
    ∃ h1, replaceRef cache fuel h p = some h1 ∧ h1.complexInner = h.complexInner ∧
      h1.model p = (h.model p).replaceOwnRef cache ∧
      ∀ q, h1.model q = h.model q ∨ h1.model q = (h.model q).replaceOwnRef cache := by
  obtain ⟨h1, hret, hs⟩ :=
    replaceRef_returns cache h S rank hR fuel h p (Stepped.refl cache h) hp hfuel
  exact ⟨h1, hret, hs.1, replaceRef_model cache fuel h p h1 hret, hs.2⟩

/-- X4, witness: `replaceRef` on the record `ns.B` of `enumRefHeap` returns
with recursion bound 2, its field resolved to the enum `ns.E`. -/
theorem replaceRef_returns_resolvable_witness :
    ∃ h1, replaceRef enumCache 2 enumRefHeap 0 = some h1 ∧
      h1.complexInner = enumRefHeap.complexInner ∧
      h1.model 0 = (enumRefHeap.model 0).replaceOwnRef enumCache ∧
      ∀ q, h1.model q = enumRefHeap.model q ∨
        h1.model q = (enumRefHeap.model q).replaceOwnRef enumCache :=
  replaceRef_returns_resolvable enumCache enumRefHeap (fun _ => True)
    (fun q => if q = 0 then 1 else 0) enumRefHeap_resolvable 0 trivial 2 (by decide)

end models
